import Mathlib

/-!
# Origin matching of the CORS regex middleware

A shallow embedding of `cors_regex.go` (package `traefik_plugin_cors_regex`) and of
its near-duplicate `src/cors_regex.go`, together with the part of the Go standard
library the plugin calls: `strings.Contains`, `strings.ContainsAny`,
`strings.ReplaceAll`, `strings.Join`, `regexp.QuoteMeta`, `regexp.Compile` and
`(*Regexp).MatchString`.

Conventions of the embedding:

* A Go `string` is a Lean `String`, that is a sequence of Unicode code points: the
  text the string holds when it is valid UTF-8.  A Go string is a sequence of bytes
  and need not be valid UTF-8; the section `bytewise` states `New`, with the library
  functions it calls, on byte sequences, for the configurations that hold such
  strings.
* `regexp.Compile` is modelled by the parser of `regexp/syntax` (Perl flags) run as
  the same stack machine, producing a syntax tree, and `MatchString` by a
  backtracking matcher over that tree.  Greediness is not recorded: it does not
  change whether a match exists.  Three parts of the dialect need Unicode tables
  or depend on the Go release and are answered with the error code `Unsupported`:
  `\p` / `\P` classes, the case folding flag `i`, and named groups.  The size and
  nesting limits of the parser (a thousand levels, millions of instructions) are
  not modelled; its limit on the number of runes is, in `bytewise.Compile`.
* Output written to `os.Stdout` / `os.Stderr` is returned as a list of log records
  holding the format string and its arguments, not rendered.
-/

namespace CorsRegex

/-! ## Package `strings` -/

namespace strings

/-- Whether `sub` occurs as a contiguous block somewhere in the character list. -/
def containsList : List Char → List Char → Bool
  | [], sub => sub.isEmpty
  | c :: cs, sub => sub.isPrefixOf (c :: cs) || containsList cs sub

/-- Go `strings.Contains(s, substr)`. -/
def Contains (s substr : String) : Bool :=
  containsList s.data substr.data

/-- Go `strings.ContainsAny(s, chars)`: some code point of `chars` occurs in `s`. -/
def ContainsAny (s chars : String) : Bool :=
  s.data.any (fun c => chars.data.contains c)

/-- Left-to-right replacement of the non-overlapping occurrences of a non-empty `old`;
the counter is the number of characters of the current occurrence still to drop. -/
def replaceList (old new : List Char) : List Char → Nat → List Char
  | [], _ => []
  | _ :: cs, skip + 1 => replaceList old new cs skip
  | c :: cs, 0 =>
      if old.isPrefixOf (c :: cs) then new ++ replaceList old new cs (old.length - 1)
      else c :: replaceList old new cs 0

/-- Go `strings.ReplaceAll(s, old, new)`.  An empty `old` matches before every code
point and at the end. -/
def ReplaceAll (s old new : String) : String :=
  if old.data.isEmpty then
    ⟨new.data ++ (s.data.map (fun c => c :: new.data)).flatten⟩
  else
    ⟨replaceList old.data new.data s.data 0⟩

/-- Go `strings.Join(elems, sep)`. -/
def Join (elems : List String) (sep : String) : String :=
  match elems with
  | [] => ""
  | e :: es => es.foldl (fun acc x => acc ++ sep ++ x) e

end strings

/-! ## Package `regexp`: syntax trees and matching -/

namespace regexp

/-- One member of a character class: an inclusive range of code points, or a Perl or
POSIX group, taken as it is or negated. -/
inductive ClassItem where
  | range (lo hi : Nat)
  | group (negated : Bool) (ranges : List (Nat × Nat))
  deriving DecidableEq, Repr

/-- Whether the range list holds the code point. -/
def inRanges (ranges : List (Nat × Nat)) (r : Nat) : Bool :=
  ranges.any (fun lh => decide (lh.1 ≤ r) && decide (r ≤ lh.2))

/-- Whether the class member holds the code point. -/
def ClassItem.holds (r : Nat) : ClassItem → Bool
  | .range lo hi => decide (lo ≤ r) && decide (r ≤ hi)
  | .group negated ranges => negated != inRanges ranges r

/-- The parsed regular expression (`syntax.Regexp`), one constructor per `syntax.Op`. -/
inductive Regexp where
  | OpNoMatch
  | OpEmptyMatch
  | OpLiteral (r : Nat)
  | OpCharClass (negated : Bool) (items : List ClassItem)
  | OpAnyCharNotNL
  | OpAnyChar
  | OpBeginLine
  | OpEndLine
  | OpBeginText
  | OpEndText
  | OpWordBoundary
  | OpNoWordBoundary
  | OpCapture (sub : Regexp)
  | OpStar (sub : Regexp)
  | OpPlus (sub : Regexp)
  | OpQuest (sub : Regexp)
  | OpRepeat (min : Nat) (max : Option Nat) (sub : Regexp)
  | OpConcat (a b : Regexp)
  | OpAlternate (a b : Regexp)
  deriving DecidableEq, Repr

/-- What the matcher does next: it receives the code point just consumed (none at the
start of the text) and the text still to read. -/
abbrev Cont := Option Char → List Char → Bool

/-- Go `syntax.IsWordChar` on the code point next to a position, absent at either end. -/
def isWordChar : Option Char → Bool
  | none => false
  | some c =>
      (decide ('0' ≤ c) && decide (c ≤ '9')) || (decide ('A' ≤ c) && decide (c ≤ 'Z'))
        || (decide ('a' ≤ c) && decide (c ≤ 'z')) || c == '_'

/-- Whether the position between `prev` and the head of `rest` is an ASCII word boundary. -/
def atWordBoundary (prev : Option Char) (rest : List Char) : Bool :=
  isWordChar prev != isWordChar rest.head?

/-- Exactly `n` rounds of `step`. -/
def iterate (step : Option Char → List Char → Cont → Bool) :
    Nat → Option Char → List Char → Cont → Bool
  | 0, p, t, k => k p t
  | n + 1, p, t, k => step p t (fun p1 t1 => iterate step n p1 t1 k)

/-- At most `n` rounds of `step`. -/
def upTo (step : Option Char → List Char → Cont → Bool) :
    Nat → Option Char → List Char → Cont → Bool
  | 0, p, t, k => k p t
  | n + 1, p, t, k => k p t || step p t (fun p1 t1 => upTo step n p1 t1 k)

/-- Any number of rounds of `step`, each consuming at least one code point; a round that
consumes nothing leaves the position as it was, so dropping it loses no match.  The
counter bounds the number of rounds by the length of the text. -/
def starLoop (step : Option Char → List Char → Cont → Bool) :
    Nat → Option Char → List Char → Cont → Bool
  | 0, p, t, k => k p t
  | n + 1, p, t, k =>
      k p t || step p t (fun p1 t1 => decide (t1.length < t.length) && starLoop step n p1 t1 k)

/-- Backtracking matcher: `re.run prev rest k` holds when `re` matches a block at the
head of `rest` (the code point before it being `prev`) after which `k` accepts. -/
def Regexp.run : Regexp → Option Char → List Char → Cont → Bool
  | .OpNoMatch, _, _, _ => false
  | .OpEmptyMatch, p, t, k => k p t
  | .OpLiteral r, _, t, k =>
      match t with
      | [] => false
      | c :: cs => decide (c.toNat = r) && k (some c) cs
  | .OpCharClass negated items, _, t, k =>
      match t with
      | [] => false
      | c :: cs => (negated != items.any (ClassItem.holds c.toNat)) && k (some c) cs
  | .OpAnyCharNotNL, _, t, k =>
      match t with
      | [] => false
      | c :: cs => decide (c ≠ '\n') && k (some c) cs
  | .OpAnyChar, _, t, k =>
      match t with
      | [] => false
      | c :: cs => k (some c) cs
  | .OpBeginLine, p, t, k => (p.isNone || p == some '\n') && k p t
  | .OpEndLine, p, t, k => (t.isEmpty || t.head? == some '\n') && k p t
  | .OpBeginText, p, t, k => p.isNone && k p t
  | .OpEndText, p, t, k => t.isEmpty && k p t
  | .OpWordBoundary, p, t, k => atWordBoundary p t && k p t
  | .OpNoWordBoundary, p, t, k => !atWordBoundary p t && k p t
  | .OpCapture sub, p, t, k => sub.run p t k
  | .OpStar sub, p, t, k => starLoop sub.run t.length p t k
  | .OpPlus sub, p, t, k => sub.run p t (fun p1 t1 => starLoop sub.run t1.length p1 t1 k)
  | .OpQuest sub, p, t, k => k p t || sub.run p t k
  | .OpRepeat min max sub, p, t, k =>
      iterate sub.run min p t (fun p1 t1 =>
        match max with
        | none => starLoop sub.run t1.length p1 t1 k
        | some m => upTo sub.run (m - min) p1 t1 k)
  | .OpConcat a b, p, t, k => a.run p t (fun p1 t1 => b.run p1 t1 k)
  | .OpAlternate a b, p, t, k => a.run p t k || b.run p t k

/-- Unanchored search: the expression matches a block starting at the current position or
at a later one. -/
def searchFrom (re : Regexp) : Option Char → List Char → Bool
  | p, [] => re.run p [] (fun _ _ => true)
  | p, c :: cs => re.run p (c :: cs) (fun _ _ => true) || searchFrom re (some c) cs

/-- Go `(*Regexp).MatchString(s)`: the string contains a match of the expression. -/
def Regexp.MatchString (re : Regexp) (s : String) : Bool :=
  searchFrom re none s.data

/-- The expression matches the string as a whole, from its first to its last code point. -/
def Regexp.matchesWhole (re : Regexp) (s : String) : Bool :=
  re.run none s.data (fun _ t => t.isEmpty)

/-! ## Package `regexp`: the parser -/

/-- The error codes of `regexp/syntax`, and `Unsupported` for the constructs left out of
this model. -/
inductive ErrorCode where
  | ErrInternalError
  | ErrInvalidCharClass
  | ErrInvalidCharRange
  | ErrInvalidEscape
  | ErrInvalidNamedCapture
  | ErrInvalidPerlOp
  | ErrInvalidRepeatOp
  | ErrInvalidRepeatSize
  | ErrInvalidUTF8
  | ErrLarge
  | ErrMissingBracket
  | ErrMissingParen
  | ErrMissingRepeatArgument
  | ErrTrailingBackslash
  | ErrUnexpectedParen
  | Unsupported
  deriving DecidableEq, Repr

/-- The text of an error code (`ErrorCode.String` in Go). -/
def ErrorCode.text : ErrorCode → String
  | .ErrInternalError => "regexp/syntax: internal error"
  | .ErrInvalidCharClass => "invalid character class"
  | .ErrInvalidCharRange => "invalid character class range"
  | .ErrInvalidEscape => "invalid escape sequence"
  | .ErrInvalidNamedCapture => "invalid named capture"
  | .ErrInvalidPerlOp => "invalid or unsupported Perl syntax"
  | .ErrInvalidRepeatOp => "invalid nested repetition operator"
  | .ErrInvalidRepeatSize => "invalid repeat count"
  | .ErrInvalidUTF8 => "invalid UTF-8"
  | .ErrLarge => "expression too large"
  | .ErrMissingBracket => "missing closing ]"
  | .ErrMissingParen => "missing closing )"
  | .ErrMissingRepeatArgument => "missing argument to repetition operator"
  | .ErrTrailingBackslash => "trailing backslash at end of expression"
  | .ErrUnexpectedParen => "unexpected )"
  | .Unsupported => "construct outside the modelled dialect"

/-- A parse error (`syntax.Error`): the code and the offending piece of the pattern. -/
structure Error where
  Code : ErrorCode
  Expr : String
  deriving DecidableEq, Repr

/-- Go `(*syntax.Error).Error()`. -/
def Error.Error (e : Error) : String :=
  "error parsing regexp: " ++ e.Code.text ++ ": `" ++ e.Expr ++ "`"

/-- The parser flags that can change while parsing: `OneLine` and `DotNL`. -/
structure Flags where
  oneLine : Bool
  dotNL : Bool
  deriving DecidableEq, Repr

/-- The flags `syntax.Perl` that `regexp.Compile` parses with. -/
def Flags.perl : Flags := { oneLine := true, dotNL := false }

/-- An entry of the parse stack: an expression, or one of the two pseudo operators. -/
inductive Frame where
  | re (r : Regexp)
  | leftParen (cap : Bool) (saved : Flags)
  | verticalBar
  deriving DecidableEq, Repr

/-- The parser state: the stack, top first, and the current flags. -/
structure Parser where
  stack : List Frame
  flags : Flags
  deriving DecidableEq, Repr

/-- The piece of `s` read so far, `rest` being what is left of it. -/
def consumed (s rest : List Char) : String :=
  ⟨s.take (s.length - rest.length)⟩

/-- The expressions above the topmost pseudo operator, in source order, and the stack
below them. -/
def splitTop : List Regexp → List Frame → List Regexp × List Frame
  | acc, .re r :: st => splitTop (r :: acc) st
  | acc, st => (acc, st)

/-- Concatenation of a list of expressions (`collapse(subs, OpConcat)`). -/
def mkConcat : List Regexp → Regexp
  | [] => .OpEmptyMatch
  | [r] => r
  | r :: rs => .OpConcat r (mkConcat rs)

/-- Alternation of a list of expressions (`collapse(subs, OpAlternate)`). -/
def mkAlternate : List Regexp → Regexp
  | [] => .OpNoMatch
  | [r] => r
  | r :: rs => .OpAlternate r (mkAlternate rs)

/-- Go `parser.push`. -/
def Parser.push (p : Parser) (re : Regexp) : Parser :=
  { p with stack := .re re :: p.stack }

/-- Go `parser.concat`: replace the top of the stack above the last `|` or `(` by its
concatenation. -/
def Parser.concat (p : Parser) : Parser :=
  let sb := splitTop [] p.stack
  { p with stack := .re (mkConcat sb.1) :: sb.2 }

/-- Go `parser.alternate`: replace the top of the stack above the last `(` by its
alternation. -/
def Parser.alternate (p : Parser) : Parser :=
  let sb := splitTop [] p.stack
  { p with stack := .re (mkAlternate sb.1) :: sb.2 }

/-- Go `parser.swapVerticalBar`: if the top sits above a `|`, swap the two. -/
def Parser.swapVerticalBar (p : Parser) : Option Parser :=
  match p.stack with
  | re1 :: .verticalBar :: below => some { p with stack := .verticalBar :: re1 :: below }
  | _ => none

/-- Go `parser.parseVerticalBar`. -/
def Parser.parseVerticalBar (p : Parser) : Parser :=
  let q := p.concat
  match q.swapVerticalBar with
  | some q1 => q1
  | none => { q with stack := .verticalBar :: q.stack }

/-- The end of a group or of the pattern: concatenate, drop the `|`, alternate. -/
def Parser.closeGroup (p : Parser) : Parser :=
  let q := p.concat
  let q1 := match q.swapVerticalBar with
    | some q2 => { q2 with stack := q2.stack.tail }
    | none => q
  q1.alternate

/-- Go `parser.parseRightParen`. -/
def Parser.parseRightParen (p : Parser) (whole : String) : Except Error Parser :=
  match p.closeGroup.stack with
  | .re re1 :: .leftParen cap saved :: below =>
      .ok { stack := .re (if cap then .OpCapture re1 else re1) :: below, flags := saved }
  | _ => .error ⟨.ErrUnexpectedParen, whole⟩

/-- Go `repeatIsValid`: no nest of counted repetitions multiplies out beyond `n`. -/
def repeatIsValid : Regexp → Nat → Bool
  | .OpRepeat min max sub, n =>
      if max = some 0 then true
      else
        let m := max.getD min
        if m > n then false
        else repeatIsValid sub (if m > 0 then n / m else n)
  | .OpCapture sub, n => repeatIsValid sub n
  | .OpStar sub, n => repeatIsValid sub n
  | .OpPlus sub, n => repeatIsValid sub n
  | .OpQuest sub, n => repeatIsValid sub n
  | .OpConcat a b, n => repeatIsValid a n && repeatIsValid b n
  | .OpAlternate a b, n => repeatIsValid a n && repeatIsValid b n
  | _, _ => true

/-- The four repetition operators. -/
inductive RepKind where
  | star
  | plus
  | quest
  | counted (min : Nat) (max : Option Nat)
  deriving DecidableEq, Repr

/-- The expression a repetition operator builds from its argument. -/
def RepKind.apply : RepKind → Regexp → Regexp
  | .star, sub => .OpStar sub
  | .plus, sub => .OpPlus sub
  | .quest, sub => .OpQuest sub
  | .counted min max, sub => .OpRepeat min max sub

/-- Whether the size check of a counted repetition applies (`min >= 2 || max >= 2`). -/
def RepKind.needsSizeCheck : RepKind → Bool
  | .counted min max => decide (2 ≤ min) || decide (2 ≤ max.getD 0)
  | _ => false

/-- Go `parser.repeat`: apply the operator read between `before` and `after` to the top
of the stack; a following `?` (non greedy) is read as well. -/
def Parser.repeatOp (p : Parser) (kind : RepKind) (before after lastRepeat : List Char) :
    Except Error (Parser × List Char) :=
  let after1 := match after with
    | '?' :: rest => rest
    | _ => after
  if !lastRepeat.isEmpty then .error ⟨.ErrInvalidRepeatOp, consumed lastRepeat after1⟩
  else
    match p.stack with
    | .re sub :: below =>
        if kind.needsSizeCheck && !repeatIsValid (kind.apply sub) 1000 then
          .error ⟨.ErrInvalidRepeatSize, consumed before after1⟩
        else .ok ({ p with stack := .re (kind.apply sub) :: below }, after1)
    | _ => .error ⟨.ErrMissingRepeatArgument, consumed before after1⟩

/-- An ASCII decimal digit. -/
def isDigit (c : Char) : Bool := decide ('0' ≤ c) && decide (c ≤ '9')

/-- An ASCII octal digit. -/
def isOctal (c : Char) : Bool := decide ('0' ≤ c) && decide (c ≤ '7')

/-- Go `isalnum`. -/
def isalnum (c : Char) : Bool :=
  isDigit c || (decide ('A' ≤ c) && decide (c ≤ 'Z')) || (decide ('a' ≤ c) && decide (c ≤ 'z'))

/-- Go `unhex`. -/
def unhex (c : Char) : Option Nat :=
  if isDigit c then some (c.toNat - 48)
  else if decide ('a' ≤ c) && decide (c ≤ 'f') then some (c.toNat - 97 + 10)
  else if decide ('A' ≤ c) && decide (c ≤ 'F') then some (c.toNat - 65 + 10)
  else none

/-- The value of the leading decimal digits, and what follows them. -/
def readDigits : Nat → List Char → Nat × List Char
  | n, [] => (n, [])
  | n, c :: t => if isDigit c then readDigits (n * 10 + (c.toNat - 48)) t else (n, c :: t)

/-- Go `parser.parseInt`: a decimal number without a leading zero. -/
def parseInt (s : List Char) : Option (Nat × List Char) :=
  match s with
  | [] => none
  | c :: t =>
      if !isDigit c then none
      else if c == '0' && (t.head?.map isDigit).getD false then none
      else some (readDigits 0 (c :: t))

/-- Go `parser.parseRepeat`: `{n}`, `{n,}` or `{n,m}`; none when the braces are not a
repetition. -/
def parseRepeat (s : List Char) : Option (Nat × Option Nat × List Char) :=
  match s with
  | '{' :: s1 =>
      match parseInt s1 with
      | none => none
      | some (min, s2) =>
          match s2 with
          | [] => none
          | ',' :: s3 =>
              match s3 with
              | [] => none
              | '}' :: rest => some (min, none, rest)
              | _ =>
                  match parseInt s3 with
                  | none => none
                  | some (max, s4) =>
                      match s4 with
                      | '}' :: rest => some (min, some max, rest)
                      | _ => none
          | '}' :: rest => some (min, some min, rest)
          | _ => none
  | _ => none

/-- Up to `n` more octal digits of an octal escape. -/
def octalMore : Nat → Nat → List Char → Nat × List Char
  | 0, r, t => (r, t)
  | _ + 1, r, [] => (r, [])
  | n + 1, r, c :: t => if isOctal c then octalMore n (r * 8 + (c.toNat - 48)) t else (r, c :: t)

/-- The hexadecimal digits of `\x{...}`; on failure, the text left at the point of
failure. -/
def hexBraces : Nat → Nat → List Char → Except (List Char) (Nat × List Char)
  | _, _, [] => .error []
  | nhex, r, c :: t =>
      if c = '}' then (if nhex = 0 then .error t else .ok (r, t))
      else
        match unhex c with
        | none => .error t
        | some v => if r * 16 + v > 0x10FFFF then .error t else hexBraces (nhex + 1) (r * 16 + v) t

/-- Go `parser.escape`: the code point denoted by the escape sequence at the head of
`s` (which starts with a backslash). -/
def escape (s : List Char) : Except Error (Nat × List Char) :=
  match s with
  | [] => .error ⟨.ErrTrailingBackslash, ""⟩
  | [_] => .error ⟨.ErrTrailingBackslash, ""⟩
  | _ :: c :: t =>
      if decide ('1' ≤ c) && decide (c ≤ '7') then
        if (t.head?.map isOctal).getD false then .ok (octalMore 2 (c.toNat - 48) t)
        else .error ⟨.ErrInvalidEscape, consumed s t⟩
      else if c = '0' then .ok (octalMore 2 0 t)
      else if c = 'x' then
        match t with
        | [] => .error ⟨.ErrInvalidEscape, consumed s t⟩
        | '{' :: t1 =>
            match hexBraces 0 0 t1 with
            | .ok v => .ok v
            | .error t2 => .error ⟨.ErrInvalidEscape, consumed s t2⟩
        | c1 :: t1 =>
            match unhex c1, t1.head?.bind unhex with
            | some x, some y => .ok (x * 16 + y, t1.tail)
            | _, _ => .error ⟨.ErrInvalidEscape, consumed s t1.tail⟩
      else if c = 'a' then .ok (7, t)
      else if c = 'f' then .ok (12, t)
      else if c = 'n' then .ok (10, t)
      else if c = 'r' then .ok (13, t)
      else if c = 't' then .ok (9, t)
      else if c = 'v' then .ok (11, t)
      else if decide (c.toNat < 0x80) && !isalnum c then .ok (c.toNat, t)
      else .error ⟨.ErrInvalidEscape, consumed s t⟩

/-- The Perl groups `\d`, `\s`, `\w` and their negations `\D`, `\S`, `\W`. -/
def perlGroup (c : Char) : Option ClassItem :=
  if c = 'd' then some (.group false [(0x30, 0x39)])
  else if c = 'D' then some (.group true [(0x30, 0x39)])
  else if c = 's' then some (.group false [(0x9, 0xa), (0xc, 0xd), (0x20, 0x20)])
  else if c = 'S' then some (.group true [(0x9, 0xa), (0xc, 0xd), (0x20, 0x20)])
  else if c = 'w' then some (.group false [(0x30, 0x39), (0x41, 0x5a), (0x5f, 0x5f), (0x61, 0x7a)])
  else if c = 'W' then some (.group true [(0x30, 0x39), (0x41, 0x5a), (0x5f, 0x5f), (0x61, 0x7a)])
  else none

/-- The ranges of the POSIX group with the given name (`alpha` for `[:alpha:]`). -/
def posixRanges (name : List Char) : Option (List (Nat × Nat)) :=
  if name = "alnum".data then some [(0x30, 0x39), (0x41, 0x5a), (0x61, 0x7a)]
  else if name = "alpha".data then some [(0x41, 0x5a), (0x61, 0x7a)]
  else if name = "ascii".data then some [(0, 0x7f)]
  else if name = "blank".data then some [(0x9, 0x9), (0x20, 0x20)]
  else if name = "cntrl".data then some [(0, 0x1f), (0x7f, 0x7f)]
  else if name = "digit".data then some [(0x30, 0x39)]
  else if name = "graph".data then some [(0x21, 0x7e)]
  else if name = "lower".data then some [(0x61, 0x7a)]
  else if name = "print".data then some [(0x20, 0x7e)]
  else if name = "punct".data then some [(0x21, 0x2f), (0x3a, 0x40), (0x5b, 0x60), (0x7b, 0x7e)]
  else if name = "space".data then some [(0x9, 0xd), (0x20, 0x20)]
  else if name = "upper".data then some [(0x41, 0x5a)]
  else if name = "word".data then some [(0x30, 0x39), (0x41, 0x5a), (0x5f, 0x5f), (0x61, 0x7a)]
  else if name = "xdigit".data then some [(0x30, 0x39), (0x41, 0x46), (0x61, 0x66)]
  else none

/-- The POSIX group named between `[:` and `:]`, a leading `^` negating it. -/
def posixGroup (inner : List Char) : Option ClassItem :=
  match inner with
  | '^' :: name => (posixRanges name).map (ClassItem.group true)
  | name => (posixRanges name).map (ClassItem.group false)

/-- Split the text at the first `a b`: what precedes it and what follows it. -/
def cutAt (a b : Char) : List Char → Option (List Char × List Char)
  | [] => none
  | [_] => none
  | c :: d :: t =>
      if c = a ∧ d = b then some ([], t)
      else (cutAt a b (d :: t)).map (fun r => (c :: r.1, r.2))

/-- Go `parser.parseClassChar`: one code point of a class, escaped or not; `whole` is
the text of the class from its opening bracket. -/
def parseClassChar (t whole : List Char) : Except Error (Nat × List Char) :=
  match t with
  | [] => .error ⟨.ErrMissingBracket, ⟨whole⟩⟩
  | '\\' :: rest => escape ('\\' :: rest)
  | c :: rest => .ok (c.toNat, rest)

/-- A single code point or a range `lo-hi` of a class. -/
def parseClassRange (t whole : List Char) : Except Error (ClassItem × List Char) :=
  match parseClassChar t whole with
  | .error e => .error e
  | .ok (lo, t1) =>
      match t1 with
      | '-' :: d :: t2 =>
          if d = ']' then .ok (.range lo lo, t1)
          else
            match parseClassChar (d :: t2) whole with
            | .error e => .error e
            | .ok (hi, t3) =>
                if hi < lo then .error ⟨.ErrInvalidCharRange, consumed t t3⟩
                else .ok (.range lo hi, t3)
      | _ => .ok (.range lo lo, t1)

/-- Go `parser.parseNamedClass` at `[:`: none when no `:]` follows, an error for an
unknown name. -/
def parseNamedClass (t : List Char) : Option (Except Error (ClassItem × List Char)) :=
  match t with
  | '[' :: ':' :: c :: rest =>
      match cutAt ':' ']' (c :: rest) with
      | none => none
      | some (inner, after) =>
          match posixGroup inner with
          | none => some (.error ⟨.ErrInvalidCharRange, ⟨'[' :: ':' :: inner ++ [':', ']']⟩⟩)
          | some g => some (.ok (g, after))
  | _ => none

/-- The loop of Go `parser.parseClass`: the members of the class up to its closing
bracket; `first` holds before the first member, where `]` is an ordinary character. -/
def parseClassLoop (whole : List Char) :
    Nat → Bool → List ClassItem → List Char → Except Error (List ClassItem × List Char)
  | 0, _, _, _ => .error ⟨.ErrInternalError, ""⟩
  | fuel + 1, first, cls, t =>
      if t.head? = some ']' ∧ first = false then .ok (cls, t.tail)
      else
        match parseNamedClass t with
        | some (.error e) => .error e
        | some (.ok (g, rest)) => parseClassLoop whole fuel false (cls ++ [g]) rest
        | none =>
            let single : Except Error (List ClassItem × List Char) :=
              match parseClassRange t whole with
              | .error e => .error e
              | .ok (item, rest) => parseClassLoop whole fuel false (cls ++ [item]) rest
            match t with
            | '\\' :: c :: rest =>
                if c = 'p' ∨ c = 'P' then .error ⟨.Unsupported, ⟨['\\', c]⟩⟩
                else
                  match perlGroup c with
                  | some g => parseClassLoop whole fuel false (cls ++ [g]) rest
                  | none => single
            | _ => single

/-- Go `parser.parseClass`: the bracket expression at the head of `s`. -/
def Parser.parseClass (p : Parser) (s : List Char) : Except Error (Parser × List Char) :=
  let t := s.tail
  let negated := decide (t.head? = some '^')
  let t1 := if negated then t.tail else t
  match parseClassLoop s (t1.length + 1) true [] t1 with
  | .error e => .error e
  | .ok (cls, rest) => .ok (p.push (.OpCharClass negated cls), rest)

/-- The flag letters of Go `parser.parsePerlFlags` after `(?`; `neg` holds after a `-`
and `sawFlag` once a letter was read since. -/
def parseFlagLetters (p : Parser) (s : List Char) :
    Flags → Bool → Bool → List Char → Except Error (Parser × List Char)
  | _, _, _, [] => .error ⟨.ErrInvalidPerlOp, ⟨s⟩⟩
  | flags, neg, sawFlag, c :: t =>
      if c = 'i' then .error ⟨.Unsupported, consumed s t⟩
      else if c = 'm' then parseFlagLetters p s { flags with oneLine := neg } neg true t
      else if c = 's' then parseFlagLetters p s { flags with dotNL := !neg } neg true t
      else if c = 'U' then parseFlagLetters p s flags neg true t
      else if c = '-' then
        if neg then .error ⟨.ErrInvalidPerlOp, consumed s t⟩
        else parseFlagLetters p s flags true false t
      else if c = ':' ∨ c = ')' then
        if neg && !sawFlag then .error ⟨.ErrInvalidPerlOp, consumed s t⟩
        else
          .ok ({ stack := if c = ':' then .leftParen false p.flags :: p.stack else p.stack,
                 flags := flags }, t)
      else .error ⟨.ErrInvalidPerlOp, consumed s t⟩

/-- Go `parser.parsePerlFlags`: a group opened by `(?`, either non capturing or a
change of flags. -/
def Parser.parsePerlFlags (p : Parser) (s : List Char) : Except Error (Parser × List Char) :=
  match s with
  | '(' :: '?' :: 'P' :: '<' :: _ :: _ => .error ⟨.Unsupported, "(?P<"⟩
  | '(' :: '?' :: '<' :: _ => .error ⟨.Unsupported, "(?<"⟩
  | '(' :: '?' :: t => parseFlagLetters p s p.flags false false t
  | _ => .error ⟨.ErrInternalError, "parsePerlFlags"⟩

/-- The text of `\Q...\E`: the literal part and what follows the `\E`, the whole rest
being literal when there is no `\E`. -/
def cutQuoted (t : List Char) : List Char × List Char :=
  (cutAt '\\' 'E' t).getD (t, [])

/-- One round of the loop of Go `syntax.parse` on the non-empty text `t`: the new
parser state, the text left, and the repetition operator just read (empty if none). -/
def parseStep (whole : String) (p : Parser) (lastRepeat : List Char) (t : List Char) :
    Except Error (Parser × List Char × List Char) :=
  match t with
  | [] => .error ⟨.ErrInternalError, ""⟩
  | c :: rest =>
      if c = '(' then
        if rest.head? = some '?' then
          match p.parsePerlFlags t with
          | .error e => .error e
          | .ok (q, t1) => .ok (q, t1, [])
        else .ok ({ p with stack := .leftParen true p.flags :: p.stack }, rest, [])
      else if c = '|' then .ok (p.parseVerticalBar, rest, [])
      else if c = ')' then
        match p.parseRightParen whole with
        | .error e => .error e
        | .ok q => .ok (q, rest, [])
      else if c = '^' then
        .ok (p.push (if p.flags.oneLine then .OpBeginText else .OpBeginLine), rest, [])
      else if c = '$' then
        .ok (p.push (if p.flags.oneLine then .OpEndText else .OpEndLine), rest, [])
      else if c = '.' then
        .ok (p.push (if p.flags.dotNL then .OpAnyChar else .OpAnyCharNotNL), rest, [])
      else if c = '[' then
        match p.parseClass t with
        | .error e => .error e
        | .ok (q, t1) => .ok (q, t1, [])
      else if c = '*' ∨ c = '+' ∨ c = '?' then
        let kind := if c = '*' then RepKind.star else if c = '+' then RepKind.plus else RepKind.quest
        match p.repeatOp kind t rest lastRepeat with
        | .error e => .error e
        | .ok (q, after) => .ok (q, after, t)
      else if c = '{' then
        match parseRepeat t with
        | none => .ok (p.push (.OpLiteral c.toNat), rest, [])
        | some (min, max, after) =>
            if 1000 < min ∨ 1000 < max.getD 0 ∨ min > max.getD min then
              .error ⟨.ErrInvalidRepeatSize, consumed t after⟩
            else
              match p.repeatOp (.counted min max) t after lastRepeat with
              | .error e => .error e
              | .ok (q, after1) => .ok (q, after1, t)
      else if c = '\\' then
        match rest with
        | [] => .error ⟨.ErrTrailingBackslash, ""⟩
        | d :: rest1 =>
            if d = 'A' then .ok (p.push .OpBeginText, rest1, [])
            else if d = 'b' then .ok (p.push .OpWordBoundary, rest1, [])
            else if d = 'B' then .ok (p.push .OpNoWordBoundary, rest1, [])
            else if d = 'C' then .error ⟨.ErrInvalidEscape, ⟨['\\', 'C']⟩⟩
            else if d = 'Q' then
              let lt := cutQuoted rest1
              .ok ({ p with stack := (lt.1.map (fun x => Frame.re (.OpLiteral x.toNat))).reverse ++ p.stack },
                   lt.2, [])
            else if d = 'z' then .ok (p.push .OpEndText, rest1, [])
            else if d = 'p' ∨ d = 'P' then .error ⟨.Unsupported, ⟨['\\', d]⟩⟩
            else
              match perlGroup d with
              | some g => .ok (p.push (.OpCharClass false [g]), rest1, [])
              | none =>
                  match escape t with
                  | .error e => .error e
                  | .ok (r, t1) => .ok (p.push (.OpLiteral r), t1, [])
      else .ok (p.push (.OpLiteral c.toNat), rest, [])

/-- The loop of Go `syntax.parse`: rounds of `parseStep` until the text is used up. -/
def parseLoop (whole : String) : Nat → Parser → List Char → List Char → Except Error Parser
  | _, p, _, [] => .ok p
  | 0, _, _, _ :: _ => .error ⟨.ErrInternalError, ""⟩
  | fuel + 1, p, lastRepeat, c :: t =>
      match parseStep whole p lastRepeat (c :: t) with
      | .error e => .error e
      | .ok (q, t1, rep) => parseLoop whole fuel q rep t1

/-- Go `syntax.Parse(s, syntax.Perl)`. -/
def Parse (s : String) : Except Error Regexp :=
  match parseLoop s (s.data.length + 1) { stack := [], flags := Flags.perl } [] s.data with
  | .error e => .error e
  | .ok p =>
      match p.closeGroup.stack with
      | [.re r] => .ok r
      | _ => .error ⟨.ErrMissingParen, s⟩

/-- Go `regexp.Compile(expr)`: the compiled expression is modelled by its syntax tree. -/
def Compile (expr : String) : Except Error Regexp :=
  Parse expr

/-- The characters `regexp.QuoteMeta` escapes. -/
def special (c : Char) : Bool :=
  "\\.+*?()|[]\x7b\x7d^$".data.contains c

/-- Go `regexp.QuoteMeta(s)`: a backslash before every metacharacter. -/
def QuoteMeta (s : String) : String :=
  ⟨(s.data.map (fun c => if special c then ['\\', c] else [c])).flatten⟩

end regexp

/-! ## Package `net/http`: the parts the handler touches -/

/-- Go `http.Header`: the values recorded under each (canonical) key. -/
abbrev Header := List (String × List String)

/-- Go `Header.Get`: the first value recorded under the key, or the empty string. -/
def Header.Get (h : Header) (key : String) : String :=
  match h.lookup key with
  | some (v :: _) => v
  | _ => ""

/-- Go `Header.Set`: the key now holds the single value given. -/
def Header.Set (h : Header) (key value : String) : Header :=
  (key, [value]) :: h.filter (fun kv => kv.1 != key)

/-- Whether the header map has an entry for the key. -/
def Header.Has (h : Header) (key : String) : Bool :=
  (h.lookup key).isSome

/-- The request fields `ServeHTTP` reads: the method, `URL.Path` and the headers. -/
structure Request where
  Method : String
  Path : String
  Header : Header
  deriving DecidableEq, Repr

/-- The state behind an `http.ResponseWriter`: the header map, the status code once
`WriteHeader` was called, and the body written so far. -/
structure ResponseWriter where
  header : Header
  status : Option Nat
  body : String
  deriving DecidableEq, Repr

/-- Go `ResponseWriter.WriteHeader`: the first call fixes the status code. -/
def ResponseWriter.WriteHeader (rw : ResponseWriter) (code : Nat) : ResponseWriter :=
  match rw.status with
  | some _ => rw
  | none => { rw with status := some code }

/-- `rw.Header().Set(key, value)`. -/
def ResponseWriter.SetHeader (rw : ResponseWriter) (key value : String) : ResponseWriter :=
  { rw with header := rw.header.Set key value }

/-- Go `http.Handler`, as the effect of its `ServeHTTP` on the response. -/
abbrev Handler := ResponseWriter → Request → ResponseWriter

/-- Go `http.StatusOK`. -/
def StatusOK : Nat := 200

/-! ## Logging -/

/-- An argument of a log line, by the verb that formats it. -/
inductive LogArg where
  | s (v : String)
  | q (v : String)
  | d (v : Int)
  | v (err : String)
  deriving DecidableEq, Repr

/-- Where a log line is written. -/
inductive Stream where
  | stdout
  | stderr
  deriving DecidableEq, Repr

/-- One line written by a logging helper: the stream, the tag put in front, the format
string and its arguments. -/
structure LogRecord where
  stream : Stream
  tag : String
  format : String
  args : List LogArg
  deriving DecidableEq, Repr

/-! ## The plugin (`cors_regex.go`) -/

/-- Go `Config`: the plugin configuration. -/
structure Config where
  AllowOriginList : List String
  AllowMethods : List String
  AllowHeaders : List String
  ExposeHeaders : List String
  AllowCredentials : Bool
  MaxAge : Int
  Debug : Bool
  deriving DecidableEq, Repr

/-- Go `CreateConfig`: the default plugin configuration. -/
def CreateConfig : Config :=
  { AllowOriginList := []
    AllowMethods := ["GET", "POST", "PUT", "DELETE", "OPTIONS"]
    AllowHeaders := ["Origin", "Content-Type", "Accept", "Authorization"]
    ExposeHeaders := []
    AllowCredentials := false
    MaxAge := 86400
    Debug := false }

/-- Go `CORSRegex`: a plugin. -/
structure CORSRegex where
  next : Handler
  name : String
  config : Config
  originPatterns : List regexp.Regexp
  originalPatterns : List String

/-- Go `(*CORSRegex).logDebug`: a line on standard output when `Debug` is set. -/
def CORSRegex.logDebug (c : CORSRegex) (format : String) (args : List LogArg) : List LogRecord :=
  if c.config.Debug then [⟨.stdout, "[CORS-REGEX-DEBUG] %s", format, args⟩] else []

/-- Go `(*CORSRegex).logInfo`: a line on standard output. -/
def CORSRegex.logInfo (_c : CORSRegex) (format : String) (args : List LogArg) : List LogRecord :=
  [⟨.stdout, "[CORS-REGEX-INFO] %s", format, args⟩]

/-- Go `(*CORSRegex).logError`: a line on standard error. -/
def CORSRegex.logError (_c : CORSRegex) (format : String) (args : List LogArg) : List LogRecord :=
  [⟨.stderr, "[CORS-REGEX-ERROR] %s", format, args⟩]

/-- The characters whose presence makes `New` read a pattern without `*` as a regular
expression (the argument of `strings.ContainsAny` in `New`). -/
def regexChars : String := "[]\x7b\x7d()*+?|\\^$"

/-- The characters `isOriginAllowed` looks for besides `*` (the argument of
`strings.ContainsAny` in `isOriginAllowed`). -/
def regexCharsAtMatch : String := "[]\x7b\x7d()+?|\\^$"

/-- The body of the loop of `New` up to the call of `regexp.Compile`: the regular
expression text built for one configured origin, and the format of the debug line
logged about it. -/
def regexPatternOf (origin : String) : String × String :=
  if strings.Contains origin "*" then
    let regexPattern := strings.ReplaceAll origin "." "\\."
    let regexPattern := strings.ReplaceAll regexPattern "*" ".*"
    let regexPattern := "^" ++ regexPattern ++ "$"
    (regexPattern, "Origin pattern converted wildcard origin=%q regex=%q")
  else if strings.ContainsAny origin regexChars then
    let regexPattern := "^" ++ origin ++ "$"
    (regexPattern, "Origin pattern treated as regex origin=%q regex=%q")
  else
    let regexPattern := "^" ++ regexp.QuoteMeta origin ++ "$"
    (regexPattern, "Origin pattern exact match origin=%q regex=%q")

/-- The loop of `New` over `config.AllowOriginList`: compile each origin and append it
to the plugin, stopping at the first one that does not compile. -/
def compileOrigins (plugin : CORSRegex) : List String → Except String CORSRegex × List LogRecord
  | [] => (.ok plugin, [])
  | origin :: rest =>
      let built := regexPatternOf origin
      let log1 := plugin.logDebug built.2 [.q origin, .q built.1]
      match regexp.Compile built.1 with
      | .error err =>
          (.error ("invalid pattern " ++ origin ++ ": " ++ err.Error),
            log1 ++ plugin.logError "Failed to compile pattern origin=%q err=%v" [.q origin, .v err.Error])
      | .ok compiled =>
          let r := compileOrigins
            { plugin with
              originPatterns := plugin.originPatterns ++ [compiled]
              originalPatterns := plugin.originalPatterns ++ [origin] } rest
          (r.1, log1 ++ r.2)

/-- Go `New`: the handler, or the error, and the lines logged on the way. -/
def New (next : Handler) (config : Config) (name : String) :
    Except String CORSRegex × List LogRecord :=
  let plugin : CORSRegex :=
    { next := next, name := name, config := config, originPatterns := [], originalPatterns := [] }
  let log0 := plugin.logDebug "Initializing plugin name=%s allowOrigins=%d"
    [.s name, .d config.AllowOriginList.length]
  match compileOrigins plugin config.AllowOriginList with
  | (.error e, log1) => (.error e, log0 ++ log1)
  | (.ok built, log1) =>
      (.ok built, log0 ++ log1 ++ built.logInfo "Plugin initialized successfully name=%s compiled=%d"
        [.s name, .d built.originPatterns.length])

/-- The loop of `isOriginAllowed` from index `i` on, over the compiled patterns still to
try; none stands for the run-time panic of an index out of range. -/
def CORSRegex.scanPatterns (c : CORSRegex) (origin : String) :
    Nat → List regexp.Regexp → Option (String × List LogRecord)
  | _, [] => some ("", [])
  | i, pattern :: rest =>
      if pattern.MatchString origin then
        match c.originalPatterns[i]? with
        | none => none
        | some originalPattern =>
            if strings.Contains originalPattern "*" || strings.ContainsAny originalPattern regexCharsAtMatch then
              some (origin, c.logDebug
                "Wildcard/regex pattern matched, returning actual origin pattern=%q origin=%q"
                [.q originalPattern, .q origin])
            else
              some (originalPattern, c.logDebug "Exact pattern matched pattern=%q" [.q originalPattern])
      else c.scanPatterns origin (i + 1) rest

/-- Go `(*CORSRegex).isOriginAllowed`: the value for `Access-Control-Allow-Origin`, the
empty string when the origin is not allowed, and the lines logged. -/
def CORSRegex.isOriginAllowed (c : CORSRegex) (origin : String) : Option (String × List LogRecord) :=
  if origin = "" then some ("", [])
  else c.scanPatterns origin 0 c.originPatterns

/-- Go `fmt.Sprintf("%d", n)`. -/
def fmtD (n : Int) : String := toString n

/-- How a call of `ServeHTTP` ends: it returns after answering itself, or its last
action is the call `c.next.ServeHTTP(rw, req)`. -/
inductive Outcome where
  | answered (rw : ResponseWriter)
  | forwarded (rw : ResponseWriter) (req : Request)
  deriving DecidableEq, Repr

/-- The response as `ServeHTTP` left it (before the next handler runs, if it is called). -/
def Outcome.rw : Outcome → ResponseWriter
  | .answered rw => rw
  | .forwarded rw _ => rw

/-- Go `(*CORSRegex).ServeHTTP`: how the call ends and the lines logged; none stands for
a run-time panic. -/
def CORSRegex.ServeHTTP (c : CORSRegex) (rw : ResponseWriter) (req : Request) :
    Option (Outcome × List LogRecord) :=
  let origin := req.Header.Get "Origin"
  let log0 := c.logDebug "Processing request method=%s path=%s origin=%q"
    [.s req.Method, .s req.Path, .q origin]
  match c.isOriginAllowed origin with
  | none => none
  | some (allowedOrigin, log1) =>
      let rw1 := if allowedOrigin ≠ "" then
          rw.SetHeader "Access-Control-Allow-Origin" allowedOrigin
        else rw
      let log2 := if allowedOrigin ≠ "" then
          c.logDebug "Origin allowed matchedPattern=%q" [.q allowedOrigin]
        else if origin ≠ "" then c.logDebug "Origin blocked origin=%q" [.q origin]
        else []
      let rw2 := if c.config.AllowMethods.length > 0 then
          rw1.SetHeader "Access-Control-Allow-Methods" (strings.Join c.config.AllowMethods ", ")
        else rw1
      let rw3 := if c.config.AllowHeaders.length > 0 then
          rw2.SetHeader "Access-Control-Allow-Headers" (strings.Join c.config.AllowHeaders ", ")
        else rw2
      let rw4 := if c.config.ExposeHeaders.length > 0 then
          rw3.SetHeader "Access-Control-Expose-Headers" (strings.Join c.config.ExposeHeaders ", ")
        else rw3
      let rw5 := if c.config.AllowCredentials then
          rw4.SetHeader "Access-Control-Allow-Credentials" "true"
        else rw4
      let rw6 := if c.config.MaxAge > 0 then
          rw5.SetHeader "Access-Control-Max-Age" (fmtD c.config.MaxAge)
        else rw5
      if req.Method = "OPTIONS" then
        some (.answered (rw6.WriteHeader StatusOK),
          log0 ++ log1 ++ log2 ++ c.logDebug "Handling preflight request origin=%q" [.q origin])
      else some (.forwarded rw6 req, log0 ++ log1 ++ log2)

/-! ## The variant in `src/cors_regex.go` (package `main`) -/

namespace variant

/-- Go `Config` of the variant: no `Debug` field. -/
structure Config where
  AllowOriginList : List String
  AllowMethods : List String
  AllowHeaders : List String
  ExposeHeaders : List String
  AllowCredentials : Bool
  MaxAge : Int
  deriving DecidableEq, Repr

/-- Go `CreateConfig` of the variant. -/
def CreateConfig : Config :=
  { AllowOriginList := []
    AllowMethods := ["GET", "POST", "PUT", "DELETE", "OPTIONS"]
    AllowHeaders := ["Origin", "Content-Type", "Accept", "Authorization"]
    ExposeHeaders := []
    AllowCredentials := false
    MaxAge := 86400 }

/-- Go `CORSRegex` of the variant. -/
structure CORSRegex where
  next : Handler
  name : String
  config : Config
  originPatterns : List regexp.Regexp
  originalPatterns : List String

/-- Go `log.Printf`: a line on the standard logger, which writes to standard error. -/
def logPrintf (format : String) (args : List LogArg) : List LogRecord :=
  [⟨.stderr, "", format, args⟩]

/-- The body of the loop of the variant's `New` up to the call of `regexp.Compile`. -/
def regexPatternOf (origin : String) : String × String :=
  if strings.Contains origin "*" then
    let regexPattern := strings.ReplaceAll origin "." "\\."
    let regexPattern := strings.ReplaceAll regexPattern "*" ".*"
    let regexPattern := "^" ++ regexPattern ++ "$"
    (regexPattern, "[CORS-REGEX] Converting wildcard pattern '%s' to regex: '%s'")
  else if strings.ContainsAny origin regexChars then
    let regexPattern := "^" ++ origin ++ "$"
    (regexPattern, "[CORS-REGEX] Treating pattern '%s' as regex: '%s'")
  else
    let regexPattern := "^" ++ regexp.QuoteMeta origin ++ "$"
    (regexPattern, "[CORS-REGEX] Treating pattern '%s' as exact match: '%s'")

/-- The loop of the variant's `New` over `config.AllowOriginList`. -/
def compileOrigins (plugin : CORSRegex) : List String → Except String CORSRegex × List LogRecord
  | [] => (.ok plugin, [])
  | origin :: rest =>
      let built := regexPatternOf origin
      let log1 := logPrintf built.2 [.s origin, .s built.1]
      match regexp.Compile built.1 with
      | .error err =>
          (.error ("invalid pattern " ++ origin ++ ": " ++ err.Error),
            log1 ++ logPrintf "[CORS-REGEX] ERROR: Failed to compile pattern '%s': %v" [.s origin, .v err.Error])
      | .ok compiled =>
          let r := compileOrigins
            { plugin with
              originPatterns := plugin.originPatterns ++ [compiled]
              originalPatterns := plugin.originalPatterns ++ [origin] } rest
          (r.1, log1 ++ logPrintf "[CORS-REGEX] Successfully compiled pattern '%s'" [.s origin] ++ r.2)

/-- Go `New` of the variant. -/
def New (next : Handler) (config : Config) (name : String) :
    Except String CORSRegex × List LogRecord :=
  let log0 := logPrintf "[CORS-REGEX] Initializing plugin '%s' with %d origin patterns"
    [.s name, .d config.AllowOriginList.length]
  let plugin : CORSRegex :=
    { next := next, name := name, config := config, originPatterns := [], originalPatterns := [] }
  match compileOrigins plugin config.AllowOriginList with
  | (.error e, log1) => (.error e, log0 ++ log1)
  | (.ok built, log1) =>
      (.ok built, log0 ++ log1 ++
        logPrintf "[CORS-REGEX] Plugin '%s' initialized successfully with %d patterns"
          [.s name, .d built.originPatterns.length])

/-- The loop of the variant's `isOriginAllowed` from index `i` on; none stands for the
run-time panic of an index out of range. -/
def CORSRegex.scanPatterns (c : CORSRegex) (origin : String) :
    Nat → List regexp.Regexp → Option String
  | _, [] => some ""
  | i, pattern :: rest =>
      if pattern.MatchString origin then c.originalPatterns[i]?
      else c.scanPatterns origin (i + 1) rest

/-- Go `(*CORSRegex).isOriginAllowed` of the variant: the configured pattern that
matched, or the empty string. -/
def CORSRegex.isOriginAllowed (c : CORSRegex) (origin : String) : Option String :=
  if origin = "" then some ""
  else c.scanPatterns origin 0 c.originPatterns

/-- Go `(*CORSRegex).ServeHTTP` of the variant. -/
def CORSRegex.ServeHTTP (c : CORSRegex) (rw : ResponseWriter) (req : Request) :
    Option (Outcome × List LogRecord) :=
  let origin := req.Header.Get "Origin"
  let log0 := logPrintf "[CORS-REGEX] Processing request from origin: '%s' for path: '%s'"
    [.s origin, .s req.Path]
  match c.isOriginAllowed origin with
  | none => none
  | some allowedOrigin =>
      let rw1 := if allowedOrigin ≠ "" then
          rw.SetHeader "Access-Control-Allow-Origin" allowedOrigin
        else rw
      let log2 := if allowedOrigin ≠ "" then
          logPrintf "[CORS-REGEX] Origin '%s' is allowed (matched pattern: '%s')" [.s origin, .s allowedOrigin]
        else if origin ≠ "" then logPrintf "[CORS-REGEX] Origin '%s' is NOT allowed" [.s origin]
        else []
      let rw2 := if c.config.AllowMethods.length > 0 then
          rw1.SetHeader "Access-Control-Allow-Methods" (strings.Join c.config.AllowMethods ", ")
        else rw1
      let rw3 := if c.config.AllowHeaders.length > 0 then
          rw2.SetHeader "Access-Control-Allow-Headers" (strings.Join c.config.AllowHeaders ", ")
        else rw2
      let rw4 := if c.config.ExposeHeaders.length > 0 then
          rw3.SetHeader "Access-Control-Expose-Headers" (strings.Join c.config.ExposeHeaders ", ")
        else rw3
      let rw5 := if c.config.AllowCredentials then
          rw4.SetHeader "Access-Control-Allow-Credentials" "true"
        else rw4
      let rw6 := if c.config.MaxAge > 0 then
          rw5.SetHeader "Access-Control-Max-Age" (fmtD c.config.MaxAge)
        else rw5
      if req.Method = "OPTIONS" then
        some (.answered (rw6.WriteHeader StatusOK),
          log0 ++ log2 ++ logPrintf "[CORS-REGEX] Handling preflight request for origin: '%s'" [.s origin])
      else some (.forwarded rw6 req, log0 ++ log2)

end variant

/-! ## Auxiliary definitions for the statements and proofs -/

/-- A character the parser reads as itself wherever it stands, or `.` or `*`: any
character other than `\ + ? ( ) | [ { ^ $`. -/
def plainChar (c : Char) : Bool :=
  !("\\+?()|[\x7b^$".data.contains c)

/-- The text `New` writes for one character of a wildcard pattern. -/
def tokenText (c : Char) : List Char :=
  if c = '.' then ['\\', '.'] else if c = '*' then ['.', '*'] else [c]

/-- The expression that text parses to. -/
def tokenItem (c : Char) : regexp.Regexp :=
  if c = '*' then .OpStar .OpAnyCharNotNL else .OpLiteral c.toNat

/-- The text `New` writes for a wildcard pattern, between the anchors. -/
def tokensText (p : List Char) : List Char :=
  (p.map tokenText).flatten

/-- A list of expressions run one after the other. -/
def runList : List regexp.Regexp → Option Char → List Char → regexp.Cont → Bool
  | [], p, t, k => k p t
  | r :: rs, p, t, k => r.run p t (fun p1 t1 => runList rs p1 t1 k)

/-- Following the words of the specification (testable properties, wildcard patterns):
the string obtained from a pattern by writing, in place of each `*`, the next filling
of the list (nothing once the list is used up) and keeping every other character. -/
def substituteStars : List Char → List (List Char) → List Char
  | [], _ => []
  | c :: p, fills =>
      if c = '*' then fills.headD [] ++ substituteStars p fills.tail
      else c :: substituteStars p fills

/-- No character of the pattern is one of those `New` takes for regular expression
syntax, `*` included. -/
def exactPattern (s : String) : Prop :=
  strings.Contains s "*" = false ∧ strings.ContainsAny s regexChars = false

/-- The expression `New` compiles for a pattern made of plain characters, `.` and `*`. -/
def compiledOf (raw : String) : regexp.Regexp :=
  regexp.mkConcat (.OpBeginText :: (raw.data.map tokenItem ++ [.OpEndText]))

/-- The first step of `ServeHTTP` on the response: the header
`Access-Control-Allow-Origin`, set when `isOriginAllowed` answered a non-empty value. -/
def originHeader (rw : ResponseWriter) (allowedOrigin : String) : ResponseWriter :=
  if allowedOrigin ≠ "" then rw.SetHeader "Access-Control-Allow-Origin" allowedOrigin else rw

/-- The next five steps of `ServeHTTP` on the response: the headers taken from the
configuration. -/
def staticHeaders (config : Config) (rw1 : ResponseWriter) : ResponseWriter :=
  let rw2 := if config.AllowMethods.length > 0 then
      rw1.SetHeader "Access-Control-Allow-Methods" (strings.Join config.AllowMethods ", ")
    else rw1
  let rw3 := if config.AllowHeaders.length > 0 then
      rw2.SetHeader "Access-Control-Allow-Headers" (strings.Join config.AllowHeaders ", ")
    else rw2
  let rw4 := if config.ExposeHeaders.length > 0 then
      rw3.SetHeader "Access-Control-Expose-Headers" (strings.Join config.ExposeHeaders ", ")
    else rw3
  let rw5 := if config.AllowCredentials then
      rw4.SetHeader "Access-Control-Allow-Credentials" "true"
    else rw4
  if config.MaxAge > 0 then
    rw5.SetHeader "Access-Control-Max-Age" (fmtD config.MaxAge)
  else rw5

/-- The number that a string of decimal digits denotes, most significant digit first. -/
def decimalValue (ds : List Char) : Nat :=
  ds.foldl (fun acc ch => acc * 10 + (ch.toNat - 48)) 0

/-- The three branches of the loop of `New`, under the names the specification gives to
the modes of a pattern. -/
inductive Mode where
  | EXACT
  | WILDCARD
  | REGEX
  deriving DecidableEq, Repr

/-- The branch of the loop of `New` that an origin takes: the tests of the loop, in
their order. -/
def classify (origin : String) : Mode :=
  if strings.Contains origin "*" then .WILDCARD
  else if strings.ContainsAny origin regexChars then .REGEX
  else .EXACT


/-! ## Go strings as byte sequences

`New` on configurations whose strings are given by their bytes.  The library functions
are those of the sections above, taken on bytes as Go runs them; `regexp.Compile` reads
its text rune by rune with `utf8.DecodeRuneInString` and then proceeds as the parser
above does on the text read. -/

namespace bytewise

/-- A Go `string`: its bytes, each below 256. -/
abbrev GoString := List Nat

/-- Go `utf8.AppendRune`: the UTF-8 encoding of a code point. -/
def EncodeRune (r : Nat) : GoString :=
  if r < 0x80 then [r]
  else if r < 0x800 then [0xC0 + r / 64, 0x80 + r % 64]
  else if r < 0x10000 then [0xE0 + r / 4096, 0x80 + r / 64 % 64, 0x80 + r % 64]
  else [0xF0 + r / 262144, 0x80 + r / 4096 % 64, 0x80 + r / 64 % 64, 0x80 + r % 64]

/-- The Go string that holds a text: its UTF-8 encoding. -/
def ofString (s : String) : GoString :=
  (s.data.map (fun c => EncodeRune c.toNat)).flatten

/-- Go's table `first` of package `utf8`, for a byte from 128 on: the width of the
sequence the byte starts and the range accepted for its second byte; none for a byte
that starts no sequence. -/
def first (b : Nat) : Option (Nat × Nat × Nat) :=
  if 0xC2 ≤ b ∧ b ≤ 0xDF then some (2, 0x80, 0xBF)
  else if b = 0xE0 then some (3, 0xA0, 0xBF)
  else if 0xE1 ≤ b ∧ b ≤ 0xEC then some (3, 0x80, 0xBF)
  else if b = 0xED then some (3, 0x80, 0x9F)
  else if 0xEE ≤ b ∧ b ≤ 0xEF then some (3, 0x80, 0xBF)
  else if b = 0xF0 then some (4, 0x90, 0xBF)
  else if 0xF1 ≤ b ∧ b ≤ 0xF3 then some (4, 0x80, 0xBF)
  else if b = 0xF4 then some (4, 0x80, 0x8F)
  else none

/-- Go `utf8.DecodeRuneInString`: the code point and the width of the first rune of the
string; none where Go answers `RuneError` with width 0 or 1, that is when the string is
empty or does not start with a well formed encoding. -/
def DecodeRuneInString (s : GoString) : Option (Nat × Nat) :=
  match s with
  | [] => none
  | s0 :: t =>
      if s0 < 0x80 then some (s0, 1)
      else
        match first s0 with
        | none => none
        | some (sz, lo, hi) =>
            if s.length < sz then none
            else
              match t with
              | [] => none
              | s1 :: t1 =>
                  if s1 < lo ∨ hi < s1 then none
                  else if sz ≤ 2 then some (s0 % 32 * 64 + s1 % 64, 2)
                  else
                    match t1 with
                    | [] => none
                    | s2 :: t2 =>
                        if s2 < 0x80 ∨ 0xBF < s2 then none
                        else if sz ≤ 3 then some (s0 % 16 * 4096 + s1 % 64 * 64 + s2 % 64, 3)
                        else
                          match t2 with
                          | [] => none
                          | s3 :: _ =>
                              if s3 < 0x80 ∨ 0xBF < s3 then none
                              else
                                some (s0 % 8 * 262144 + s1 % 64 * 4096 + s2 % 64 * 64 + s3 % 64, 4)

/-- The text the parser of `regexp/syntax` reads from a string with `nextRune`, rune
after rune, or the rest of the string from the first byte at which `nextRune` fails.
The counter bounds the number of runes; the length of the string is enough. -/
def decodeRunes : Nat → GoString → Except GoString (List Char)
  | 0, s => if s.isEmpty then .ok [] else .error s
  | fuel + 1, s =>
      if s.isEmpty then .ok []
      else
        match DecodeRuneInString s with
        | none => .error s
        | some (r, size) =>
            match decodeRunes fuel (s.drop size) with
            | .error rest => .error rest
            | .ok text => .ok (Char.ofNat r :: text)

/-- Whether `sub` occurs as a contiguous block somewhere in the bytes. -/
def containsBytes : GoString → GoString → Bool
  | [], sub => sub.isEmpty
  | b :: bs, sub => sub.isPrefixOf (b :: bs) || containsBytes bs sub

/-- Go `strings.Contains(s, substr)`. -/
def Contains (s substr : GoString) : Bool :=
  containsBytes s substr

/-- Go `strings.ContainsAny(s, chars)` for `chars` within ASCII, as in every call of the
source: some byte of `s` is one of `chars`. -/
def ContainsAny (s chars : GoString) : Bool :=
  s.any (fun b => chars.contains b)

/-- Left-to-right replacement of the non-overlapping occurrences of `old`; the counter is
the number of bytes of the current occurrence still to drop. -/
def replaceBytes (old new : GoString) : GoString → Nat → GoString
  | [], _ => []
  | _ :: bs, skip + 1 => replaceBytes old new bs skip
  | b :: bs, 0 =>
      if old.isPrefixOf (b :: bs) then new ++ replaceBytes old new bs (old.length - 1)
      else b :: replaceBytes old new bs 0

/-- Go `strings.ReplaceAll(s, old, new)` for a non-empty `old`, as in every call of the
source. -/
def ReplaceAll (s old new : GoString) : GoString :=
  replaceBytes old new s 0

/-- The bytes `regexp.QuoteMeta` escapes. -/
def special (b : Nat) : Bool :=
  (ofString "\\.+*?()|[]\x7b\x7d^$").contains b

/-- Go `regexp.QuoteMeta(s)`: a backslash before every metacharacter, byte by byte. -/
def QuoteMeta (s : GoString) : GoString :=
  (s.map (fun b => if special b then ofString "\\" ++ [b] else [b])).flatten

/-- A parse error (`syntax.Error`): the code and the offending piece of the pattern. -/
structure Error where
  Code : regexp.ErrorCode
  Expr : GoString
  deriving DecidableEq, Repr

/-- Go `(*syntax.Error).Error()`. -/
def Error.Error (e : Error) : GoString :=
  ofString "error parsing regexp: " ++ ofString e.Code.text ++ ofString ": `" ++ e.Expr ++
    ofString "`"

/-- Go `maxRunes` of `regexp/syntax`: `128 << 20 / runeSize`. -/
def maxRunes : Nat := 33554432

/-- The runes held by the nodes of an expression: one for a literal, two for each range
of a class. -/
def numRunes : regexp.Regexp → Nat
  | .OpLiteral _ => 1
  | .OpCharClass _ items =>
      (items.map (fun item =>
        match item with
        | .range _ _ => 2
        | .group _ ranges => 2 * ranges.length)).sum
  | .OpCapture sub => numRunes sub
  | .OpStar sub => numRunes sub
  | .OpPlus sub => numRunes sub
  | .OpQuest sub => numRunes sub
  | .OpRepeat _ _ sub => numRunes sub
  | .OpConcat a b => numRunes a + numRunes b
  | .OpAlternate a b => numRunes a + numRunes b
  | _ => 0

/-- Go `regexp.Compile(expr)` on the bytes of `expr`.  The parser reads the text with
`nextRune` and fails with `ErrInvalidUTF8`, naming the rest of the text, at a byte that
starts no well formed encoding; on the text read it proceeds as `regexp.Compile` above;
and it fails with `ErrLarge` when the runes it holds exceed `maxRunes`.  For a pattern of
anchors and literals, which is what `New` builds for an entry without special
characters, this is the order and the count of the Go parser.  In general the Go parser
reports whichever failure it meets first in the text and counts the runes of every node
it pushes, and its limits on size and nesting are not modelled. -/
def Compile (expr : GoString) : Except Error regexp.Regexp :=
  match decodeRunes expr.length expr with
  | .error rest => .error ⟨.ErrInvalidUTF8, rest⟩
  | .ok text =>
      match regexp.Compile ⟨text⟩ with
      | .error e => .error ⟨e.Code, ofString e.Expr⟩
      | .ok re => if maxRunes < numRunes re then .error ⟨.ErrLarge, expr⟩ else .ok re

/-- Go `Config`, its strings given by their bytes. -/
structure Config where
  AllowOriginList : List GoString
  AllowMethods : List GoString
  AllowHeaders : List GoString
  ExposeHeaders : List GoString
  AllowCredentials : Bool
  MaxAge : Int
  Debug : Bool
  deriving DecidableEq, Repr

/-- Go `CreateConfig`. -/
def CreateConfig : Config :=
  { AllowOriginList := []
    AllowMethods := ["GET", "POST", "PUT", "DELETE", "OPTIONS"].map ofString
    AllowHeaders := ["Origin", "Content-Type", "Accept", "Authorization"].map ofString
    ExposeHeaders := []
    AllowCredentials := false
    MaxAge := 86400
    Debug := false }

/-- Go `CORSRegex`, its strings given by their bytes. -/
structure CORSRegex where
  next : Handler
  name : GoString
  config : Config
  originPatterns : List regexp.Regexp
  originalPatterns : List GoString

/-- An argument of a log line, by the verb that formats it. -/
inductive LogArg where
  | s (v : GoString)
  | q (v : GoString)
  | d (v : Int)
  | v (err : GoString)
  deriving DecidableEq, Repr

/-- One line written by a logging helper: the stream, the tag put in front, the format
string and its arguments. -/
structure LogRecord where
  stream : Stream
  tag : String
  format : String
  args : List LogArg
  deriving DecidableEq, Repr

/-- Go `(*CORSRegex).logDebug`: a line on standard output when `Debug` is set. -/
def CORSRegex.logDebug (c : CORSRegex) (format : String) (args : List LogArg) : List LogRecord :=
  if c.config.Debug then [⟨.stdout, "[CORS-REGEX-DEBUG] %s", format, args⟩] else []

/-- Go `(*CORSRegex).logInfo`: a line on standard output. -/
def CORSRegex.logInfo (_c : CORSRegex) (format : String) (args : List LogArg) : List LogRecord :=
  [⟨.stdout, "[CORS-REGEX-INFO] %s", format, args⟩]

/-- Go `(*CORSRegex).logError`: a line on standard error. -/
def CORSRegex.logError (_c : CORSRegex) (format : String) (args : List LogArg) : List LogRecord :=
  [⟨.stderr, "[CORS-REGEX-ERROR] %s", format, args⟩]

/-- The body of the loop of `New` up to the call of `regexp.Compile`: the regular
expression text built for one configured origin, and the format of the debug line
logged about it. -/
def regexPatternOf (origin : GoString) : GoString × String :=
  if Contains origin (ofString "*") then
    let regexPattern := ReplaceAll origin (ofString ".") (ofString "\\.")
    let regexPattern := ReplaceAll regexPattern (ofString "*") (ofString ".*")
    let regexPattern := ofString "^" ++ regexPattern ++ ofString "$"
    (regexPattern, "Origin pattern converted wildcard origin=%q regex=%q")
  else if ContainsAny origin (ofString regexChars) then
    let regexPattern := ofString "^" ++ origin ++ ofString "$"
    (regexPattern, "Origin pattern treated as regex origin=%q regex=%q")
  else
    let regexPattern := ofString "^" ++ QuoteMeta origin ++ ofString "$"
    (regexPattern, "Origin pattern exact match origin=%q regex=%q")

/-- The loop of `New` over `config.AllowOriginList`: compile each origin and append it
to the plugin, stopping at the first one that does not compile. -/
def compileOrigins (plugin : CORSRegex) :
    List GoString → Except GoString CORSRegex × List LogRecord
  | [] => (.ok plugin, [])
  | origin :: rest =>
      let built := regexPatternOf origin
      let log1 := plugin.logDebug built.2 [.q origin, .q built.1]
      match Compile built.1 with
      | .error err =>
          (.error (ofString "invalid pattern " ++ origin ++ ofString ": " ++ err.Error),
            log1 ++ plugin.logError "Failed to compile pattern origin=%q err=%v"
              [.q origin, .v err.Error])
      | .ok compiled =>
          let r := compileOrigins
            { plugin with
              originPatterns := plugin.originPatterns ++ [compiled]
              originalPatterns := plugin.originalPatterns ++ [origin] } rest
          (r.1, log1 ++ r.2)

/-- Go `New`: the handler, or the error, and the lines logged on the way. -/
def New (next : Handler) (config : Config) (name : GoString) :
    Except GoString CORSRegex × List LogRecord :=
  let plugin : CORSRegex :=
    { next := next, name := name, config := config, originPatterns := [], originalPatterns := [] }
  let log0 := plugin.logDebug "Initializing plugin name=%s allowOrigins=%d"
    [.s name, .d config.AllowOriginList.length]
  match compileOrigins plugin config.AllowOriginList with
  | (.error e, log1) => (.error e, log0 ++ log1)
  | (.ok built, log1) =>
      (.ok built, log0 ++ log1 ++ built.logInfo "Plugin initialized successfully name=%s compiled=%d"
        [.s name, .d built.originPatterns.length])

/-- A well formed sequence of two to four bytes and the code point it encodes. -/
def MultiSeq (seq : GoString) (r : Nat) : Prop :=
  2 ≤ seq.length ∧ (∀ b ∈ seq, 128 ≤ b) ∧ 128 ≤ r ∧ r.isValidChar ∧
    ∀ t, DecodeRuneInString (seq ++ t) = some (r, seq.length)

/-- The bytes `s` decode, rune by rune, to the text `cs`. -/
inductive Decodes : GoString → List Char → Prop
  | nil : Decodes [] []
  | ascii (b : Nat) (t : GoString) (cs : List Char) (h : b < 128) (ht : Decodes t cs) :
      Decodes (b :: t) (Char.ofNat b :: cs)
  | multi (seq : GoString) (r : Nat) (t : GoString) (cs : List Char) (h : MultiSeq seq r)
      (ht : Decodes t cs) : Decodes (seq ++ t) (Char.ofNat r :: cs)

end bytewise


open regexp

/-! ## The loop of `New` -/

/-- What a successful run of the loop of `New` leaves in the plugin: the origins in
order, one compiled expression for each, and the other fields untouched. -/
theorem compileOrigins_ok (l : List String) :
    ∀ (plugin c : CORSRegex), (compileOrigins plugin l).1 = .ok c →
      c.originalPatterns = plugin.originalPatterns ++ l ∧
      (∃ res, c.originPatterns = plugin.originPatterns ++ res ∧
        List.Forall₂ (fun raw re => regexp.Compile (regexPatternOf raw).1 = .ok re) l res) ∧
      c.config = plugin.config ∧ c.next = plugin.next ∧ c.name = plugin.name := by
  induction l with
  | nil =>
      intro plugin c h
      simp only [compileOrigins, Except.ok.injEq] at h
      subst h
      exact ⟨by simp, ⟨[], by simp, List.Forall₂.nil⟩, rfl, rfl, rfl⟩
  | cons origin rest ih =>
      intro plugin c h
      cases hc : regexp.Compile (regexPatternOf origin).1 with
      | error err => simp [compileOrigins, hc] at h
      | ok compiled =>
          simp only [compileOrigins, hc] at h
          obtain ⟨h1, ⟨res, h2, h3⟩, h4, h5, h6⟩ := ih _ c h
          refine ⟨by simp [h1], ⟨compiled :: res, by simp [h2], List.Forall₂.cons hc h3⟩, h4, h5, h6⟩

/-- The loop of `New` fails exactly when some origin does not compile, with the message
built from the first such origin; the origins after it play no part. -/
theorem compileOrigins_error (l : List String) :
    ∀ (plugin : CORSRegex) (msg : String), (compileOrigins plugin l).1 = .error msg ↔
      ∃ pre raw post err, l = pre ++ raw :: post ∧
        (∀ r ∈ pre, ∃ re, regexp.Compile (regexPatternOf r).1 = .ok re) ∧
        regexp.Compile (regexPatternOf raw).1 = .error err ∧
        msg = "invalid pattern " ++ raw ++ ": " ++ err.Error := by
  induction l with
  | nil =>
      intro plugin msg
      simp [compileOrigins]
  | cons origin rest ih =>
      intro plugin msg
      cases hc : regexp.Compile (regexPatternOf origin).1 with
      | error err =>
          simp only [compileOrigins, hc, Except.error.injEq]
          constructor
          · intro h
            exact ⟨[], origin, rest, err, rfl, by simp, hc, h.symm⟩
          · rintro ⟨pre, raw, post, err1, hl, hpre, hraw, hmsg⟩
            cases pre with
            | nil =>
                simp only [List.nil_append, List.cons.injEq] at hl
                obtain ⟨h1, -⟩ := hl
                subst h1
                rw [hc] at hraw
                simp only [Except.error.injEq] at hraw
                subst hraw
                exact hmsg.symm
            | cons r pre1 =>
                simp only [List.cons_append, List.cons.injEq] at hl
                obtain ⟨h1, -⟩ := hl
                subst h1
                obtain ⟨re, hre⟩ := hpre origin (by simp)
                rw [hc] at hre
                cases hre
      | ok compiled =>
          simp only [compileOrigins, hc]
          rw [ih]
          constructor
          · rintro ⟨pre, raw, post, err, hl, hpre, hraw, hmsg⟩
            refine ⟨origin :: pre, raw, post, err, by simp [hl], ?_, hraw, hmsg⟩
            intro r hr
            rcases List.mem_cons.mp hr with h | h
            · exact ⟨compiled, h ▸ hc⟩
            · exact hpre r h
          · rintro ⟨pre, raw, post, err, hl, hpre, hraw, hmsg⟩
            cases pre with
            | nil =>
                simp only [List.nil_append, List.cons.injEq] at hl
                obtain ⟨h1, -⟩ := hl
                subst h1
                rw [hc] at hraw
                cases hraw
            | cons r pre1 =>
                simp only [List.cons_append, List.cons.injEq] at hl
                obtain ⟨-, h2⟩ := hl
                exact ⟨pre1, raw, post, err, h2, fun x hx => hpre x (by simp [hx]), hraw, hmsg⟩

/-- The result of `New` is the result of its loop started on the empty plugin. -/
theorem New_fst (next : Handler) (config : Config) (name : String) :
    (New next config name).1 =
      (compileOrigins
        { next := next, name := name, config := config, originPatterns := [], originalPatterns := [] }
        config.AllowOriginList).1 := by
  simp only [New]
  split <;> rename_i heq <;> rw [heq]

/-- A plugin returned by `New` holds the configured origins in order and, for each, the
expression compiled from it. -/
theorem New_ok (next : Handler) (config : Config) (name : String) (c : CORSRegex)
    (h : (New next config name).1 = .ok c) :
    c.originalPatterns = config.AllowOriginList ∧
      List.Forall₂ (fun raw re => regexp.Compile (regexPatternOf raw).1 = .ok re)
        config.AllowOriginList c.originPatterns ∧
      c.config = config ∧ c.next = next ∧ c.name = name := by
  rw [New_fst] at h
  obtain ⟨h1, ⟨res, h2, h3⟩, h4, h5, h6⟩ := compileOrigins_ok _ _ _ h
  simp only [List.nil_append] at h1 h2
  exact ⟨h1, h2 ▸ h3, h4, h5, h6⟩

/-! ## The loop of `isOriginAllowed` -/

/-- A list splits around the element at an index in range. -/
theorem split_at_index {α : Type} (l : List α) (i : Nat) (x : α) (h : l[i]? = some x) :
    l = l.take i ++ x :: l.drop (i + 1) := by
  induction l generalizing i with
  | nil => simp at h
  | cons a l ih =>
      cases i with
      | zero =>
          simp only [List.getElem?_cons_zero, Option.some.injEq] at h
          simp [h]
      | succ i =>
          simp only [List.getElem?_cons_succ] at h
          simp only [List.take_succ_cons, List.drop_succ_cons, List.cons_append, List.cons.injEq,
            true_and]
          exact ih i h

/-- What holds of every element at an index below `i` holds of the first `i` elements. -/
theorem forall_take_of_index {α : Type} (P : α → Prop) (l : List α) (i : Nat)
    (h : ∀ j x, j < i → l[j]? = some x → P x) : ∀ x ∈ l.take i, P x := by
  intro x hx
  obtain ⟨j, hj, hjx⟩ := List.getElem_of_mem hx
  have hji : j < i := by
    have := hj
    simp only [List.length_take] at this
    omega
  refine h j x hji ?_
  rw [List.getElem_take] at hjx
  rw [List.getElem?_eq_getElem, hjx]

/-- The scan skips the patterns that do not match: it answers as on the first matching
one alone, at its index. -/
theorem scanPatterns_skip (c : CORSRegex) (origin : String) (pre : List regexp.Regexp)
    (hpre : ∀ r ∈ pre, r.MatchString origin = false) (ps : List regexp.Regexp) (i : Nat) :
    c.scanPatterns origin i (pre ++ ps) = c.scanPatterns origin (i + pre.length) ps := by
  induction pre generalizing i with
  | nil => simp
  | cons r pre ih =>
      have hr : r.MatchString origin = false := hpre r (by simp)
      have hstep : c.scanPatterns origin i (r :: (pre ++ ps)) =
          c.scanPatterns origin (i + 1) (pre ++ ps) := by
        simp [CORSRegex.scanPatterns, hr]
      rw [List.cons_append, hstep, ih (fun x hx => hpre x (by simp [hx])), List.length_cons]
      congr 1
      omega

/-- When no pattern matches, the scan answers the empty string. -/
theorem scanPatterns_none (c : CORSRegex) (origin : String) (ps : List regexp.Regexp)
    (h : ∀ r ∈ ps, r.MatchString origin = false) (i : Nat) :
    c.scanPatterns origin i ps = some ("", []) := by
  have := scanPatterns_skip c origin ps h [] i
  simpa [CORSRegex.scanPatterns] using this

/-- At a matching pattern the scan stops, whatever follows it. -/
theorem scanPatterns_stop (c : CORSRegex) (origin : String) (re : regexp.Regexp)
    (hre : re.MatchString origin = true) (post : List regexp.Regexp) (i : Nat) :
    c.scanPatterns origin i (re :: post) = c.scanPatterns origin i [re] := by
  simp [CORSRegex.scanPatterns, hre]

/-- The scan of a whole pattern list whose first match is at index `i`. -/
theorem scanPatterns_first (c : CORSRegex) (origin : String) (ps : List regexp.Regexp)
    (i : Nat) (re : regexp.Regexp) (hre : ps[i]? = some re) (hmatch : re.MatchString origin = true)
    (hfirst : ∀ j r, j < i → ps[j]? = some r → r.MatchString origin = false) :
    c.scanPatterns origin 0 ps = c.scanPatterns origin i [re] := by
  have hsplit := split_at_index ps i re hre
  have hpre := forall_take_of_index (fun r => r.MatchString origin = false) ps i hfirst
  have hlen : (ps.take i).length = i := by
    have : i < ps.length := by
      by_contra hge
      rw [List.getElem?_eq_none (by omega)] at hre
      cases hre
    simp only [List.length_take]
    omega
  rw [hsplit, scanPatterns_skip c origin _ hpre, scanPatterns_stop c origin re hmatch, hlen]
  simp

/-! ## The text `New` builds, its parse and its matches -/

theorem plainChar_iff (c : Char) : plainChar c = true ↔
    c ≠ '\\' ∧ c ≠ '+' ∧ c ≠ '?' ∧ c ≠ '(' ∧ c ≠ ')' ∧ c ≠ '|' ∧ c ≠ '[' ∧
      c ≠ '{' ∧ c ≠ '^' ∧ c ≠ '$' := by
  simp [plainChar]

theorem parseStep_plain (whole : String) (st : Parser) (lr : List Char) (c : Char) (rest : List Char)
    (hc : plainChar c = true) (h1 : c ≠ '.') (h2 : c ≠ '*') :
    parseStep whole st lr (c :: rest) = .ok (st.push (.OpLiteral c.toNat), rest, []) := by
  rw [plainChar_iff] at hc
  obtain ⟨a1, a2, a3, a4, a5, a6, a7, a8, a9, a10⟩ := hc
  simp [parseStep, a1, a2, a3, a4, a5, a6, a7, a8, a9, a10, h1, h2]

theorem parseStep_escaped_dot (whole : String) (st : Parser) (lr : List Char) (rest : List Char) :
    parseStep whole st lr ('\\' :: '.' :: rest) = .ok (st.push (.OpLiteral '.'.toNat), rest, []) := by
  simp [parseStep, perlGroup, escape, isalnum, isDigit]

theorem parseStep_dot (whole : String) (st : Parser) (lr : List Char) (rest : List Char)
    (h : st.flags.dotNL = false) :
    parseStep whole st lr ('.' :: rest) = .ok (st.push .OpAnyCharNotNL, rest, []) := by
  simp [parseStep, h]

theorem parseStep_star (whole : String) (r : Regexp) (stk : List Frame) (fl : Flags)
    (rest : List Char) (h : rest.head? ≠ some '?') :
    parseStep whole ⟨.re r :: stk, fl⟩ [] ('*' :: rest) =
      .ok (⟨.re (.OpStar r) :: stk, fl⟩, rest, '*' :: rest) := by
  rcases rest with _ | ⟨d, rest⟩
  · simp [parseStep, Parser.repeatOp, RepKind.needsSizeCheck, RepKind.apply]
  · have hd : d ≠ '?' := by simpa using h
    simp [parseStep, Parser.repeatOp, RepKind.needsSizeCheck, RepKind.apply, hd]

theorem parseStep_begin (whole : String) (st : Parser) (lr : List Char) (rest : List Char)
    (h : st.flags.oneLine = true) :
    parseStep whole st lr ('^' :: rest) = .ok (st.push .OpBeginText, rest, []) := by
  simp [parseStep, h]

theorem parseStep_end (whole : String) (st : Parser) (lr : List Char) (rest : List Char)
    (h : st.flags.oneLine = true) :
    parseStep whole st lr ('$' :: rest) = .ok (st.push .OpEndText, rest, []) := by
  simp [parseStep, h]

theorem tokensText_cons (c : Char) (p : List Char) :
    tokensText (c :: p) = tokenText c ++ tokensText p := by
  simp [tokensText]

theorem tokens_head_ne_quest (p suf : List Char) (hp : ∀ c ∈ p, plainChar c = true)
    (hsuf : suf.head? ≠ some '?') : (tokensText p ++ suf).head? ≠ some '?' := by
  cases p with
  | nil => simpa [tokensText] using hsuf
  | cons c p =>
      have hc := (plainChar_iff c).mp (hp c (by simp))
      rw [tokensText_cons]
      unfold tokenText
      split
      · simp
      · split
        · simp
        · simp [hc.2.2.1]

theorem parseLoop_step (whole : String) (f : Nat) (p q : Parser) (lr rep t t1 : List Char) (c : Char)
    (h : parseStep whole p lr (c :: t) = .ok (q, t1, rep)) :
    parseLoop whole (f + 1) p lr (c :: t) = parseLoop whole f q rep t1 := by
  simp [parseLoop, h]

theorem parseLoop_tokens (whole : String) (p : List Char) (hp : ∀ c ∈ p, plainChar c = true)
    (suf : List Char) (hsuf : suf.head? ≠ some '?') :
    ∀ (fuel : Nat) (stk : List Frame) (lr : List Char),
      (tokensText p).length + suf.length < fuel →
      ∃ fuel1 lr1, suf.length < fuel1 ∧
        parseLoop whole fuel ⟨stk, Flags.perl⟩ lr (tokensText p ++ suf) =
          parseLoop whole fuel1
            ⟨(p.map (fun c => Frame.re (tokenItem c))).reverse ++ stk, Flags.perl⟩ lr1 suf := by
  induction p with
  | nil =>
      intro fuel stk lr hf
      exact ⟨fuel, lr, by simpa [tokensText] using hf, by simp [tokensText]⟩
  | cons c p ih =>
      intro fuel stk lr hf
      have hp1 : ∀ x ∈ p, plainChar x = true := fun x hx => hp x (by simp [hx])
      have hc : plainChar c = true := hp c (by simp)
      rw [tokensText_cons] at hf ⊢
      by_cases h1 : c = '.'
      · subst h1
        obtain ⟨f, rfl⟩ : ∃ f, fuel = f + 1 := ⟨fuel - 1, by omega⟩
        have hf1 : (tokensText p).length + suf.length < f := by
          simp [tokenText] at hf; omega
        obtain ⟨fuel1, lr1, hlt, heq⟩ := ih hp1 f (.re (.OpLiteral '.'.toNat) :: stk) [] hf1
        refine ⟨fuel1, lr1, hlt, ?_⟩
        have htxt : tokenText '.' ++ tokensText p ++ suf = '\\' :: '.' :: (tokensText p ++ suf) := by
          simp [tokenText]
        rw [htxt, parseLoop_step _ _ _ _ _ _ _ _ _ (parseStep_escaped_dot whole _ _ _)]
        simp only [Parser.push]
        rw [heq]
        simp [tokenItem]
      · by_cases h2 : c = '*'
        · subst h2
          obtain ⟨f, rfl⟩ : ∃ f, fuel = f + 2 := ⟨fuel - 2, by simp [tokenText] at hf; omega⟩
          have hf1 : (tokensText p).length + suf.length < f := by
            simp [tokenText] at hf; omega
          obtain ⟨fuel1, lr1, hlt, heq⟩ := ih hp1 f (.re (.OpStar .OpAnyCharNotNL) :: stk)
            ('*' :: (tokensText p ++ suf)) hf1
          refine ⟨fuel1, lr1, hlt, ?_⟩
          have hq := tokens_head_ne_quest p suf hp1 hsuf
          have htxt : tokenText '*' ++ tokensText p ++ suf = '.' :: '*' :: (tokensText p ++ suf) := by
            simp [tokenText]
          rw [htxt, parseLoop_step _ _ _ _ _ _ _ _ _ (parseStep_dot whole _ _ _ rfl)]
          simp only [Parser.push]
          rw [parseLoop_step _ _ _ _ _ _ _ _ _ (parseStep_star whole _ _ _ _ hq), heq]
          simp [tokenItem]
        · obtain ⟨f, rfl⟩ : ∃ f, fuel = f + 1 := ⟨fuel - 1, by simp [tokenText, h1, h2] at hf; omega⟩
          have hf1 : (tokensText p).length + suf.length < f := by
            simp [tokenText, h1, h2] at hf; omega
          obtain ⟨fuel1, lr1, hlt, heq⟩ := ih hp1 f (.re (.OpLiteral c.toNat) :: stk) [] hf1
          refine ⟨fuel1, lr1, hlt, ?_⟩
          have htxt : tokenText c ++ tokensText p ++ suf = c :: (tokensText p ++ suf) := by
            simp [tokenText, h1, h2]
          rw [htxt, parseLoop_step _ _ _ _ _ _ _ _ _ (parseStep_plain whole _ _ _ _ hc h1 h2)]
          simp only [Parser.push]
          rw [heq]
          simp [tokenItem, h2]

theorem splitTop_all (rs acc : List regexp.Regexp) :
    regexp.splitTop acc (rs.map regexp.Frame.re) = (rs.reverse ++ acc, []) := by
  induction rs generalizing acc with
  | nil => simp [regexp.splitTop]
  | cons r rs ih => simp [regexp.splitTop, ih]

theorem closeGroup_all (rs : List Regexp) (fl : Flags) :
    (Parser.closeGroup ⟨rs.map Frame.re, fl⟩).stack = [.re (mkConcat rs.reverse)] := by
  simp [Parser.closeGroup, Parser.concat, splitTop_all, Parser.swapVerticalBar, Parser.alternate,
    splitTop, mkAlternate]

theorem Parse_tokens (p : List Char) (hp : ∀ c ∈ p, plainChar c = true) :
    Parse ⟨'^' :: (tokensText p ++ ['$'])⟩ =
      .ok (mkConcat (.OpBeginText :: (p.map tokenItem ++ [.OpEndText]))) := by
  obtain ⟨fuel1, lr1, hlt, heq⟩ := parseLoop_tokens ⟨'^' :: (tokensText p ++ ['$'])⟩ p hp ['$']
    (by simp) ((tokensText p).length + 2) [.re .OpBeginText] [] (by simp)
  obtain ⟨f, rfl⟩ : ∃ f, fuel1 = f + 1 := ⟨fuel1 - 1, by simp at hlt; omega⟩
  have hloop : parseLoop ⟨'^' :: (tokensText p ++ ['$'])⟩ (('^' :: (tokensText p ++ ['$'])).length + 1)
      ⟨[], Flags.perl⟩ [] ('^' :: (tokensText p ++ ['$'])) =
      .ok ⟨(.OpEndText :: ((p.map tokenItem).reverse ++ [.OpBeginText])).map Frame.re, Flags.perl⟩ := by
    have : ('^' :: (tokensText p ++ ['$'])).length + 1 = ((tokensText p).length + 2) + 1 := by
      simp
    rw [this, parseLoop_step _ _ _ _ _ _ _ _ _ (parseStep_begin _ _ _ _ rfl)]
    simp only [Parser.push]
    rw [heq, parseLoop_step _ _ _ _ _ _ _ _ _ (parseStep_end _ _ _ _ rfl)]
    simp [Parser.push, parseLoop, List.map_reverse]
  unfold Parse
  simp only [hloop, closeGroup_all]
  simp

theorem run_mkConcat (rs : List Regexp) :
    ∀ (p : Option Char) (t : List Char) (k : Cont), (mkConcat rs).run p t k = runList rs p t k := by
  induction rs with
  | nil => intro p t k; simp [mkConcat, Regexp.run, runList]
  | cons r rs ih =>
      intro p t k
      cases rs with
      | nil => simp [mkConcat, runList]
      | cons r1 rs =>
          simp only [mkConcat, Regexp.run, runList]
          congr 1
          funext p1 t1
          rw [ih]
          simp [runList]

theorem searchFrom_anchored_some (rs : List Regexp) (t : List Char) :
    ∀ c : Char, searchFrom (mkConcat (.OpBeginText :: rs)) (some c) t = false := by
  induction t with
  | nil => intro c; simp [searchFrom, run_mkConcat, runList, Regexp.run]
  | cons d t ih => intro c; simp [searchFrom, run_mkConcat, runList, Regexp.run, ih]

theorem MatchString_anchored (rs : List Regexp) (s : String) :
    (mkConcat (.OpBeginText :: rs)).MatchString s = runList rs none s.data (fun _ _ => true) := by
  unfold Regexp.MatchString
  cases s.data with
  | nil => simp [searchFrom, run_mkConcat, runList, Regexp.run]
  | cons d t => simp [searchFrom, run_mkConcat, runList, Regexp.run, searchFrom_anchored_some]

theorem starLoop_anyNotNL (step : Option Char → List Char → Cont → Bool)
    (hnil : ∀ p k, step p [] k = false)
    (hcons : ∀ p c cs k, step p (c :: cs) k = (decide (c ≠ '\n') && k (some c) cs))
    (k : Cont) (g : List Char → Bool) (hk : ∀ p t, k p t = g t) :
    ∀ (n : Nat) (prev : Option Char) (t : List Char), t.length ≤ n →
      (starLoop step n prev t k = true ↔
        ∃ f rest, t = f ++ rest ∧ '\n' ∉ f ∧ g rest = true) := by
  intro n
  induction n with
  | zero =>
      intro prev t ht
      have : t = [] := List.length_eq_zero.mp (by omega)
      subst this
      simp only [starLoop, hk]
      constructor
      · intro h; exact ⟨[], [], rfl, by simp, h⟩
      · rintro ⟨f, rest, h1, -, h3⟩
        have : rest = [] := by
          have := congrArg List.length h1
          simp at this
          exact List.length_eq_zero.mp (by omega)
        rw [← this]; exact h3
  | succ n ih =>
      intro prev t ht
      cases t with
      | nil =>
          simp only [starLoop, hk, hnil, Bool.or_false]
          constructor
          · intro h; exact ⟨[], [], rfl, by simp, h⟩
          · rintro ⟨f, rest, h1, -, h3⟩
            have : rest = [] := by
              have := congrArg List.length h1
              simp at this
              exact List.length_eq_zero.mp (by omega)
            rw [← this]; exact h3
      | cons c cs =>
          have hlen : cs.length ≤ n := by simp at ht; omega
          have hiff := ih (some c) cs hlen
          simp only [starLoop, hk, hcons, Bool.or_eq_true, Bool.and_eq_true, decide_eq_true_eq,
            List.length_cons, Nat.lt_succ_self]
          rw [hiff]
          constructor
          · rintro (h | ⟨hc, -, f, rest, h1, h2, h3⟩)
            · exact ⟨[], c :: cs, rfl, by simp, h⟩
            · refine ⟨c :: f, rest, by simp [h1], ?_, h3⟩
              simp only [List.mem_cons, not_or]
              exact ⟨fun h => hc h.symm, h2⟩
          · rintro ⟨f, rest, h1, h2, h3⟩
            cases f with
            | nil =>
                left
                simp only [List.nil_append] at h1
                rw [h1]; exact h3
            | cons d f =>
                right
                simp only [List.cons_append, List.cons.injEq] at h1
                obtain ⟨h11, h12⟩ := h1
                subst h11
                simp only [List.mem_cons, not_or] at h2
                exact ⟨fun h => h2.1 h.symm, trivial, f, rest, h12, h2.2, h3⟩

theorem char_toNat_inj (c d : Char) (h : c.toNat = d.toNat) : c = d := by
  rw [← Char.ofNat_toNat c, ← Char.ofNat_toNat d, h]

theorem run_star_any (prev : Option Char) (t : List Char) (k : Cont) :
    (Regexp.OpStar .OpAnyCharNotNL).run prev t k =
      starLoop (Regexp.run .OpAnyCharNotNL) t.length prev t k := by
  simp [Regexp.run]

theorem run_literal (r : Nat) (prev : Option Char) (t : List Char) (k : Cont) :
    (Regexp.OpLiteral r).run prev t k =
      match t with
      | [] => false
      | c :: cs => decide (c.toNat = r) && k (some c) cs := by
  simp [Regexp.run]

theorem runList_cons (r : Regexp) (rs : List Regexp) (p : Option Char) (t : List Char) (k : Cont) :
    runList (r :: rs) p t k = r.run p t (fun p1 t1 => runList rs p1 t1 k) := rfl

theorem runList_tokens (p : List Char) :
    ∀ (prev : Option Char) (t : List Char),
      runList (p.map tokenItem ++ [.OpEndText]) prev t (fun _ _ => true) = true ↔
        ∃ fills : List (List Char), (∀ f ∈ fills, '\n' ∉ f) ∧ substituteStars p fills = t := by
  induction p with
  | nil =>
      intro prev t
      simp only [List.map_nil, List.nil_append, runList, Regexp.run, Bool.and_true,
        List.isEmpty_iff, substituteStars]
      constructor
      · intro h; exact ⟨[], by simp, h.symm⟩
      · rintro ⟨_, -, h⟩; exact h.symm
  | cons c p ih =>
      intro prev t
      by_cases hc : c = '*'
      · subst hc
        have hk : ∀ (p1 : Option Char) (t1 : List Char),
            (fun p1 t1 => runList (p.map tokenItem ++ [.OpEndText]) p1 t1 (fun _ _ => true)) p1 t1 =
              (fun t1 => runList (p.map tokenItem ++ [.OpEndText]) none t1 (fun _ _ => true)) t1 := by
          intro p1 t1
          rw [Bool.eq_iff_iff, ih, ih]
        have hitem : tokenItem '*' = .OpStar .OpAnyCharNotNL := by simp [tokenItem]
        rw [List.map_cons, List.cons_append, runList_cons, hitem, run_star_any,
          starLoop_anyNotNL _ (by intro p k; simp [Regexp.run]) (by intro p c cs k; simp [Regexp.run])
            _ _ hk t.length prev t (le_refl _)]
        simp only [ih, substituteStars, if_true]
        constructor
        · rintro ⟨f, rest, h1, h2, fills, h3, h4⟩
          refine ⟨f :: fills, ?_, by simp [h1, h4]⟩
          intro x hx
          rcases List.mem_cons.mp hx with h | h
          · rw [h]; exact h2
          · exact h3 x h
        · rintro ⟨fills, h1, h2⟩
          refine ⟨fills.headD [], substituteStars p fills.tail, h2.symm, ?_, fills.tail, ?_, rfl⟩
          · cases fills with
            | nil => simp
            | cons f fs => exact h1 f (by simp)
          · intro x hx
            exact h1 x (List.mem_of_mem_tail hx)
      · have hitem : tokenItem c = .OpLiteral c.toNat := by simp [tokenItem, hc]
        rw [List.map_cons, List.cons_append, runList_cons, hitem, run_literal]
        cases t with
        | nil => simp [substituteStars, hc]
        | cons d ds =>
            simp only [Bool.and_eq_true, decide_eq_true_eq, substituteStars, hc, if_false,
              List.cons.injEq]
            rw [ih]
            constructor
            · rintro ⟨h1, fills, h2, h3⟩
              exact ⟨fills, h2, (char_toNat_inj _ _ h1).symm, h3⟩
            · rintro ⟨fills, h2, h3, h4⟩
              exact ⟨by rw [h3], fills, h2, h4⟩

theorem containsList_single (a : Char) (l : List Char) :
    strings.containsList l [a] = decide (a ∈ l) := by
  induction l with
  | nil => simp [strings.containsList]
  | cons c cs ih =>
      simp only [strings.containsList, List.isPrefixOf, ih, List.mem_cons, Bool.and_true]
      by_cases h : a = c <;> simp [h]

theorem Contains_star (s : String) : strings.Contains s "*" = decide ('*' ∈ s.data) := by
  unfold strings.Contains
  exact containsList_single '*' s.data

theorem ContainsAny_iff (s chars : String) :
    strings.ContainsAny s chars = true ↔ ∃ c ∈ s.data, c ∈ chars.data := by
  simp [strings.ContainsAny, List.any_eq_true]

theorem replaceList_single (a : Char) (new l : List Char) :
    strings.replaceList [a] new l 0 = (l.map (fun c => if c = a then new else [c])).flatten := by
  induction l with
  | nil => simp [strings.replaceList]
  | cons c cs ih =>
      by_cases h : c = a
      · subst h
        simp [strings.replaceList, List.isPrefixOf, ih]
      · have h1 : ¬ a = c := fun e => h e.symm
        simp [strings.replaceList, List.isPrefixOf, ih, h, h1]

theorem ReplaceAll_single (s old new : String) (a : Char) (h : old.data = [a]) :
    (strings.ReplaceAll s old new).data =
      (s.data.map (fun c => if c = a then new.data else [c])).flatten := by
  simp [strings.ReplaceAll, h, replaceList_single]

theorem anchored_data (x : String) : ("^" ++ x ++ "$").data = '^' :: (x.data ++ ['$']) := by
  simp [String.data_append]

theorem exactPattern_chars (s : String) (h : exactPattern s) :
    ∀ c ∈ s.data, c ∉ regexChars.data := by
  intro c hc hin
  have : strings.ContainsAny s regexChars = true := (ContainsAny_iff _ _).mpr ⟨c, hc, hin⟩
  rw [h.2] at this
  cases this

theorem exactPattern_plain (s : String) (h : exactPattern s) :
    '*' ∉ s.data ∧ ∀ c ∈ s.data, plainChar c = true := by
  have h1 := h.1
  rw [Contains_star] at h1
  have hstar : '*' ∉ s.data := by simpa using h1
  refine ⟨hstar, ?_⟩
  intro c hc
  have hno := exactPattern_chars s h c hc
  rw [plainChar_iff]
  simp only [regexChars] at hno
  simp at hno
  tauto

theorem exact_text (l : List Char) (h : ∀ c ∈ l, c ∉ regexChars.data) :
    (l.map (fun c => if regexp.special c then ['\\', c] else [c])).flatten = tokensText l := by
  induction l with
  | nil => simp [tokensText]
  | cons c cs ih =>
      rw [tokensText_cons, ← ih (fun x hx => h x (by simp [hx]))]
      have hc := h c (by simp)
      simp only [regexChars] at hc
      by_cases hd : c = '.'
      · subst hd; simp [tokenText, regexp.special]
      · simp at hc
        obtain ⟨a1, a2, a3, a4, a5, a6, a7, a8, a9, a10, a11, a12, a13⟩ := hc
        simp [tokenText, regexp.special, hd, a1, a2, a3, a4, a5, a6, a7, a8, a9, a10, a11, a12, a13]

theorem regexPatternOf_exact (s : String) (h : exactPattern s) :
    (regexPatternOf s).1 = ⟨'^' :: (tokensText s.data ++ ['$'])⟩ := by
  apply String.ext
  simp only [regexPatternOf, h.1, h.2, Bool.false_eq_true, if_false, anchored_data,
    regexp.QuoteMeta]
  rw [exact_text _ (exactPattern_chars s h)]

theorem substituteStars_no_star (p : List Char) (h : '*' ∉ p) (fills : List (List Char)) :
    substituteStars p fills = p := by
  induction p generalizing fills with
  | nil => simp [substituteStars]
  | cons c p ih =>
      have hc : c ≠ '*' := fun e => h (by simp [e])
      simp [substituteStars, hc, ih (fun h1 => h (by simp [h1]))]

/-- A pattern without regular expression characters compiles, and the matcher accepts
the pattern itself and nothing else. -/
theorem exact_matcher (raw : String) (h : exactPattern raw) :
    Compile (regexPatternOf raw).1 = .ok (compiledOf raw) ∧
      ∀ s : String, (compiledOf raw).MatchString s = true ↔ s = raw := by
  obtain ⟨h1, h2⟩ := exactPattern_plain raw h
  refine ⟨?_, ?_⟩
  · rw [regexPatternOf_exact raw h]
    exact Parse_tokens raw.data h2
  · intro s
    unfold compiledOf
    rw [MatchString_anchored, runList_tokens]
    constructor
    · rintro ⟨fills, -, hf⟩
      rw [substituteStars_no_star _ h1] at hf
      exact String.ext hf.symm
    · intro hs
      subst hs
      exact ⟨[], by simp, substituteStars_no_star _ h1 _⟩

/-- The test of `isOriginAllowed` (a `*`, or a character of its list) and the tests of
`New` (a `*`, else a character of its longer list) single out the same patterns. -/
theorem classification_agrees (raw : String) :
    (strings.Contains raw "*" || strings.ContainsAny raw regexCharsAtMatch) =
      (strings.Contains raw "*" || strings.ContainsAny raw regexChars) := by
  rw [Bool.eq_iff_iff]
  simp only [Bool.or_eq_true, ContainsAny_iff, Contains_star, decide_eq_true_eq]
  constructor
  · rintro (h | ⟨c, hc, hin⟩)
    · exact Or.inl h
    · refine Or.inr ⟨c, hc, ?_⟩
      simp only [regexCharsAtMatch] at hin
      simp only [regexChars]
      simp at hin ⊢
      tauto
  · rintro (h | ⟨c, hc, hin⟩)
    · exact Or.inl h
    · by_cases hs : c = '*'
      · exact Or.inl (hs ▸ hc)
      · refine Or.inr ⟨c, hc, ?_⟩
        simp only [regexChars] at hin
        simp only [regexCharsAtMatch]
        simp at hin ⊢
        tauto

/-- A pattern on which both tests of `isOriginAllowed` fail is one `New` compiled with
every character escaped. -/
theorem exactPattern_of_tests (raw : String)
    (h : (strings.Contains raw "*" || strings.ContainsAny raw regexCharsAtMatch) = false) :
    exactPattern raw := by
  rw [classification_agrees] at h
  simpa [exactPattern] using h

/-- The entry of a list related elementwise to another, at an index of the first. -/
theorem forall2_index {α β : Type} (R : α → β → Prop) (l1 : List α) (l2 : List β)
    (h : List.Forall₂ R l1 l2) (i : Nat) (a : α) (b : β) (ha : l1[i]? = some a)
    (hb : l2[i]? = some b) : R a b := by
  induction h generalizing i with
  | nil => simp at ha
  | cons hab _ ih =>
      cases i with
      | zero =>
          simp only [List.getElem?_cons_zero, Option.some.injEq] at ha hb
          subst ha hb
          exact hab
      | succ i =>
          simp only [List.getElem?_cons_succ] at ha hb
          exact ih i ha hb

/-- In a plugin returned by `New`, the expression at an index is the one compiled from
the configured origin at that index. -/
theorem New_entry (next : Handler) (config : Config) (name : String) (c : CORSRegex)
    (h : (New next config name).1 = .ok c) (i : Nat) (raw : String) (re : Regexp)
    (hraw : config.AllowOriginList[i]? = some raw) (hre : c.originPatterns[i]? = some re) :
    c.originalPatterns[i]? = some raw ∧ Compile (regexPatternOf raw).1 = .ok re := by
  obtain ⟨h1, h2, -⟩ := New_ok next config name c h
  exact ⟨h1 ▸ hraw, forall2_index _ _ _ h2 i raw re hraw hre⟩

/-! ## Headers -/

/-- Dropping the entries of one key does not change what is found under another. -/
theorem lookup_filter_ne (h : Header) (k k1 : String) (hne : k1 ≠ k) :
    (h.filter (fun kv => kv.1 != k)).lookup k1 = h.lookup k1 := by
  induction h with
  | nil => simp
  | cons kv h ih =>
      obtain ⟨a, b⟩ := kv
      by_cases hak : a = k
      · subst hak
        have hb : (k1 == a) = false := by simpa using hne
        simp [List.filter, List.lookup_cons, hb, ih]
      · have h1 : (a != k) = true := by simpa using hak
        simp only [List.filter, h1, List.lookup_cons, ih]

/-- Setting a header leaves the entries under every other key as they were. -/
theorem lookup_Set_ne (h : Header) (k k1 v : String) (hne : k1 ≠ k) :
    (Header.Set h k v).lookup k1 = h.lookup k1 := by
  have hbeq : (k1 == k) = false := by simpa using hne
  unfold Header.Set
  rw [List.lookup_cons, hbeq]
  exact lookup_filter_ne h k k1 hne

/-- Setting a header records the value under its key. -/
theorem lookup_Set_self (h : Header) (k v : String) :
    (Header.Set h k v).lookup k = some [v] := by
  simp [Header.Set, List.lookup_cons]

/-- `WriteHeader` does not touch the header map. -/
theorem WriteHeader_header (rw : ResponseWriter) (code : Nat) :
    (rw.WriteHeader code).header = rw.header := by
  unfold ResponseWriter.WriteHeader
  cases rw.status <;> rfl

/-- What `ServeHTTP` does, the log left aside, in terms of the answer of
`isOriginAllowed`. -/
theorem ServeHTTP_outcome (c : CORSRegex) (rw : ResponseWriter) (req : Request) :
    (c.ServeHTTP rw req).map Prod.fst =
      (c.isOriginAllowed (req.Header.Get "Origin")).map (fun a =>
        if req.Method = "OPTIONS" then
          Outcome.answered ((staticHeaders c.config (originHeader rw a.1)).WriteHeader StatusOK)
        else Outcome.forwarded (staticHeaders c.config (originHeader rw a.1)) req) := by
  simp only [CORSRegex.ServeHTTP]
  cases h : c.isOriginAllowed (req.Header.Get "Origin") with
  | none => simp
  | some a =>
      obtain ⟨allowed, log1⟩ := a
      simp only [Option.map_some']
      by_cases hm : req.Method = "OPTIONS"
      · simp only [hm, if_true, Option.map_some']
        rfl
      · simp only [hm, if_false, Option.map_some']
        rfl

/-- The static headers leave the entry of `Access-Control-Allow-Origin` as it was. -/
theorem staticHeaders_allow_origin (config : Config) (rw : ResponseWriter) :
    (staticHeaders config rw).header.lookup "Access-Control-Allow-Origin" =
      rw.header.lookup "Access-Control-Allow-Origin" := by
  unfold staticHeaders
  simp only [apply_ite ResponseWriter.header, ResponseWriter.SetHeader,
    apply_ite (fun h : Header => List.lookup "Access-Control-Allow-Origin" h)]
  rw [lookup_Set_ne _ _ _ _ (by decide)]
  simp only [apply_ite (fun h : Header => List.lookup "Access-Control-Allow-Origin" h), ite_self]
  rw [lookup_Set_ne _ _ _ _ (by decide)]
  simp only [apply_ite (fun h : Header => List.lookup "Access-Control-Allow-Origin" h), ite_self]
  rw [lookup_Set_ne _ _ _ _ (by decide)]
  simp only [apply_ite (fun h : Header => List.lookup "Access-Control-Allow-Origin" h), ite_self]
  rw [lookup_Set_ne _ _ _ _ (by decide)]
  simp only [apply_ite (fun h : Header => List.lookup "Access-Control-Allow-Origin" h), ite_self]
  rw [lookup_Set_ne _ _ _ _ (by decide)]
  simp only [ite_self]

/-- How `ServeHTTP` ends once `isOriginAllowed` has answered: it does not panic, and the
entry of `Access-Control-Allow-Origin` is the answer when that is not empty, and is left
as it was otherwise. -/
theorem ServeHTTP_allow_origin (c : CORSRegex) (rw : ResponseWriter) (req : Request)
    (allowed : String) (log1 : List LogRecord)
    (h : c.isOriginAllowed (req.Header.Get "Origin") = some (allowed, log1)) :
    ∃ out log, c.ServeHTTP rw req = some (out, log) ∧
      out.rw.header.lookup "Access-Control-Allow-Origin" =
        if allowed ≠ "" then some [allowed] else rw.header.lookup "Access-Control-Allow-Origin" := by
  have ho := ServeHTTP_outcome c rw req
  rw [h] at ho
  cases hs : c.ServeHTTP rw req with
  | none => rw [hs] at ho; simp at ho
  | some r =>
      obtain ⟨out, log⟩ := r
      rw [hs] at ho
      simp only [Option.map_some', Option.some.injEq] at ho
      refine ⟨out, log, rfl, ?_⟩
      have hrw : out.rw.header = (staticHeaders c.config (originHeader rw allowed)).header := by
        rw [ho]
        by_cases hm : req.Method = "OPTIONS"
        · simp [hm, Outcome.rw, WriteHeader_header]
        · simp [hm, Outcome.rw]
      rw [hrw, staticHeaders_allow_origin]
      unfold originHeader
      by_cases ha : allowed = ""
      · simp [ha]
      · simp [ha, ResponseWriter.SetHeader, lookup_Set_self]

/-! ## The answer of `isOriginAllowed` -/

/-- The answer of `isOriginAllowed` for a non-empty origin whose first match is at index
`i`: it is read off the raw pattern at that index. -/
theorem isOriginAllowed_first (c : CORSRegex) (origin : String) (i : Nat) (re : Regexp)
    (hne : origin ≠ "") (hre : c.originPatterns[i]? = some re)
    (hmatch : re.MatchString origin = true)
    (hfirst : ∀ j r, j < i → c.originPatterns[j]? = some r → r.MatchString origin = false) :
    (c.isOriginAllowed origin).map Prod.fst =
      (c.originalPatterns[i]?).map (fun raw =>
        if strings.Contains raw "*" || strings.ContainsAny raw regexCharsAtMatch then origin
        else raw) := by
  unfold CORSRegex.isOriginAllowed
  rw [if_neg hne, scanPatterns_first c origin _ i re hre hmatch hfirst]
  cases hraw : c.originalPatterns[i]? with
  | none => simp [CORSRegex.scanPatterns, hmatch, hraw]
  | some raw =>
      by_cases hcond : (strings.Contains raw "*" || strings.ContainsAny raw regexCharsAtMatch) = true
      · simp only [CORSRegex.scanPatterns, hmatch, hraw, hcond, if_true, Option.map_some']
      · simp only [CORSRegex.scanPatterns, hmatch, hraw, hcond, if_true, if_false, Option.map_some',
          Bool.false_eq_true]

/-- Among the patterns, a matching one has a first matching one. -/
theorem exists_first_match (origin : String) (ps : List Regexp)
    (h : ∃ re ∈ ps, re.MatchString origin = true) :
    ∃ (i : Nat) (re : Regexp), ps[i]? = some re ∧ re.MatchString origin = true ∧
      ∀ (j : Nat) (r : Regexp), j < i → ps[j]? = some r → r.MatchString origin = false := by
  induction ps with
  | nil => simp at h
  | cons p ps ih =>
      by_cases hp : p.MatchString origin = true
      · exact ⟨0, p, by simp, hp, fun j r hj => absurd hj (Nat.not_lt_zero j)⟩
      · have hrest : ∃ re ∈ ps, re.MatchString origin = true := by
          obtain ⟨re, hmem, hm⟩ := h
          rcases List.mem_cons.mp hmem with e | e
          · subst e; exact absurd hm hp
          · exact ⟨re, e, hm⟩
        obtain ⟨i, re, h1, h2, h3⟩ := ih hrest
        refine ⟨i + 1, re, by rw [List.getElem?_cons_succ]; exact h1, h2, ?_⟩
        intro j r hj hjr
        cases j with
        | zero =>
            simp only [List.getElem?_cons_zero, Option.some.injEq] at hjr
            subst hjr
            simpa using hp
        | succ j =>
            simp only [List.getElem?_cons_succ] at hjr
            exact h3 j r (by omega) hjr

/-- A pattern that passes the test of `New` for an exact match has no `*` either. -/
theorem exactPattern_of_containsAny (raw : String)
    (h : strings.ContainsAny raw regexChars = false) : exactPattern raw := by
  refine ⟨?_, h⟩
  rw [Contains_star]
  by_contra hc
  have hmem : '*' ∈ raw.data := by simpa using hc
  have : strings.ContainsAny raw regexChars = true :=
    (ContainsAny_iff _ _).mpr ⟨'*', hmem, by decide⟩
  rw [h] at this
  cases this

/-- The matcher `New` stores for an exact pattern accepts the pattern and nothing else. -/
theorem New_exact_entry (next : Handler) (config : Config) (name : String) (c : CORSRegex)
    (h : (New next config name).1 = .ok c) (i : Nat) (raw : String) (re : Regexp)
    (hraw : config.AllowOriginList[i]? = some raw) (hre : c.originPatterns[i]? = some re)
    (hexact : exactPattern raw) (s : String) : re.MatchString s = true ↔ s = raw := by
  obtain ⟨-, hcomp⟩ := New_entry next config name c h i raw re hraw hre
  obtain ⟨hc, hm⟩ := exact_matcher raw hexact
  rw [hc] at hcomp
  simp only [Except.ok.injEq] at hcomp
  rw [← hcomp]
  exact hm s

/-- For a plugin returned by `New`, `isOriginAllowed` does not panic, and its answer is
non-empty exactly when the origin is non-empty and some matcher accepts it. -/
theorem isOriginAllowed_of_New (next : Handler) (config : Config) (name : String)
    (c : CORSRegex) (hNew : (New next config name).1 = .ok c) (origin : String) :
    ∃ v log, c.isOriginAllowed origin = some (v, log) ∧
      (v ≠ "" ↔ origin ≠ "" ∧ ∃ re ∈ c.originPatterns, re.MatchString origin = true) := by
  by_cases hne : origin = ""
  · exact ⟨"", [], by simp [CORSRegex.isOriginAllowed, hne], by simp [hne]⟩
  · by_cases hex : ∃ re ∈ c.originPatterns, re.MatchString origin = true
    · obtain ⟨i, re, hre, hmatch, hfirst⟩ := exists_first_match origin _ hex
      obtain ⟨h1, h2, -⟩ := New_ok next config name c hNew
      have hlen : i < config.AllowOriginList.length := by
        have hl := List.Forall₂.length_eq h2
        by_contra hge
        rw [List.getElem?_eq_none (by omega)] at hre
        cases hre
      have hraw : config.AllowOriginList[i]? = some config.AllowOriginList[i] :=
        List.getElem?_eq_getElem hlen
      obtain ⟨hraw1, -⟩ := New_entry next config name c hNew i _ re hraw hre
      have hfst := isOriginAllowed_first c origin i re hne hre hmatch hfirst
      rw [hraw1] at hfst
      cases hres : c.isOriginAllowed origin with
      | none => rw [hres] at hfst; simp at hfst
      | some r =>
          obtain ⟨v, log⟩ := r
          rw [hres] at hfst
          simp only [Option.map_some', Option.some.injEq] at hfst
          refine ⟨v, log, rfl, ?_⟩
          refine ⟨fun _ => ⟨hne, hex⟩, fun _ => ?_⟩
          rw [hfst]
          by_cases hcond : (strings.Contains config.AllowOriginList[i] "*" ||
              strings.ContainsAny config.AllowOriginList[i] regexCharsAtMatch) = true
          · rw [if_pos hcond]; exact hne
          · rw [if_neg hcond]
            have hexact := exactPattern_of_tests _ (by simpa using hcond)
            have := (New_exact_entry next config name c hNew i _ re hraw hre hexact origin).mp hmatch
            rw [← this]; exact hne
    · refine ⟨"", [], ?_, by simp [hex]⟩
      unfold CORSRegex.isOriginAllowed
      rw [if_neg hne]
      apply scanPatterns_none
      intro r hr
      by_contra hm
      exact hex ⟨r, hr, by simpa using hm⟩

/-- Among the origins, one that does not compile has a first one that does not. -/
theorem exists_first_failure (l : List String)
    (h : ∃ raw ∈ l, ∃ err, Compile (regexPatternOf raw).1 = .error err) :
    ∃ pre raw post err, l = pre ++ raw :: post ∧
      (∀ r ∈ pre, ∃ re, Compile (regexPatternOf r).1 = .ok re) ∧
      Compile (regexPatternOf raw).1 = .error err := by
  induction l with
  | nil => simp at h
  | cons x l ih =>
      cases hx : Compile (regexPatternOf x).1 with
      | error err => exact ⟨[], x, l, err, rfl, by simp, hx⟩
      | ok re =>
          have hrest : ∃ raw ∈ l, ∃ err, Compile (regexPatternOf raw).1 = .error err := by
            obtain ⟨raw, hmem, err, herr⟩ := h
            rcases List.mem_cons.mp hmem with e | e
            · subst e; rw [hx] at herr; cases herr
            · exact ⟨raw, e, err, herr⟩
          obtain ⟨pre, raw, post, err, h1, h2, h3⟩ := ih hrest
          refine ⟨x :: pre, raw, post, err, by simp [h1], ?_, h3⟩
          intro r hr
          rcases List.mem_cons.mp hr with e | e
          · exact ⟨re, e ▸ hx⟩
          · exact h2 r e

/-- The entry found under a key after a conditional `Set`. -/
theorem lookup_ite_SetHeader (b : Prop) [Decidable b] (rw : ResponseWriter) (k v k1 : String) :
    (if b then rw.SetHeader k v else rw).header.lookup k1 =
      if b ∧ k1 = k then some [v] else rw.header.lookup k1 := by
  by_cases hb : b
  · by_cases hk : k1 = k
    · subst hk
      simp [hb, ResponseWriter.SetHeader, lookup_Set_self]
    · simp [hb, hk, ResponseWriter.SetHeader, lookup_Set_ne _ _ _ _ hk]
  · simp [hb]

/-- The entry found under a key after the five static headers were applied. -/
theorem staticHeaders_lookup (config : Config) (rw : ResponseWriter) (k1 : String) :
    (staticHeaders config rw).header.lookup k1 =
      if config.MaxAge > 0 ∧ k1 = "Access-Control-Max-Age" then some [fmtD config.MaxAge]
      else if config.AllowCredentials = true ∧ k1 = "Access-Control-Allow-Credentials" then
        some ["true"]
      else if config.ExposeHeaders.length > 0 ∧ k1 = "Access-Control-Expose-Headers" then
        some [strings.Join config.ExposeHeaders ", "]
      else if config.AllowHeaders.length > 0 ∧ k1 = "Access-Control-Allow-Headers" then
        some [strings.Join config.AllowHeaders ", "]
      else if config.AllowMethods.length > 0 ∧ k1 = "Access-Control-Allow-Methods" then
        some [strings.Join config.AllowMethods ", "]
      else rw.header.lookup k1 := by
  unfold staticHeaders
  simp only [lookup_ite_SetHeader]

/-- Setting a header changes neither the status nor the body. -/
theorem ite_SetHeader_status_body (b : Prop) [Decidable b] (rw : ResponseWriter) (k v : String) :
    (if b then rw.SetHeader k v else rw).status = rw.status ∧
      (if b then rw.SetHeader k v else rw).body = rw.body := by
  by_cases hb : b <;> simp [hb, ResponseWriter.SetHeader]

/-- The static headers change neither the status nor the body. -/
theorem staticHeaders_status_body (config : Config) (rw : ResponseWriter) :
    (staticHeaders config rw).status = rw.status ∧ (staticHeaders config rw).body = rw.body := by
  unfold staticHeaders
  simp only [(ite_SetHeader_status_body _ _ _ _).1, (ite_SetHeader_status_body _ _ _ _).2,
    and_self]

/-- The header of the allowed origin changes neither the status nor the body. -/
theorem originHeader_status_body (rw : ResponseWriter) (allowed : String) :
    (originHeader rw allowed).status = rw.status ∧ (originHeader rw allowed).body = rw.body := by
  unfold originHeader
  exact ite_SetHeader_status_body _ _ _ _

/-- The entry found under a key after the header of the allowed origin was applied. -/
theorem originHeader_lookup (rw : ResponseWriter) (allowed k1 : String) :
    (originHeader rw allowed).header.lookup k1 =
      if allowed ≠ "" ∧ k1 = "Access-Control-Allow-Origin" then some [allowed]
      else rw.header.lookup k1 := by
  unfold originHeader
  exact lookup_ite_SetHeader _ _ _ _ _

/-- How `ServeHTTP` ends when `isOriginAllowed` answers `allowed`: an answer of its own
for `OPTIONS`, the call of the next handler otherwise, on the response with the
headers applied. -/
theorem ServeHTTP_of_answer (c : CORSRegex) (rw : ResponseWriter) (req : Request)
    (allowed : String) (log1 : List LogRecord)
    (h : c.isOriginAllowed (req.Header.Get "Origin") = some (allowed, log1)) :
    ∃ log, c.ServeHTTP rw req =
      some (if req.Method = "OPTIONS" then
          Outcome.answered ((staticHeaders c.config (originHeader rw allowed)).WriteHeader StatusOK)
        else Outcome.forwarded (staticHeaders c.config (originHeader rw allowed)) req, log) := by
  have ho := ServeHTTP_outcome c rw req
  rw [h] at ho
  cases hs : c.ServeHTTP rw req with
  | none => rw [hs] at ho; simp at ho
  | some r =>
      obtain ⟨out, log⟩ := r
      rw [hs] at ho
      simp only [Option.map_some', Option.some.injEq] at ho
      exact ⟨log, by rw [ho]⟩

/-! ## `strings.Join` and `fmt.Sprintf("%d")` -/

/-- The characters of the accumulated string of `strings.Join`. -/
theorem join_foldl_data (sep : String) (es : List String) :
    ∀ acc : String, (es.foldl (fun acc x => acc ++ sep ++ x) acc).data =
      acc.data ++ (es.map (fun x => sep.data ++ x.data)).flatten := by
  induction es with
  | nil => intro acc; simp
  | cons e es ih =>
      intro acc
      simp only [List.foldl_cons, ih, String.data_append, List.map_cons, List.flatten_cons,
        List.append_assoc]

/-- The separator goes between two elements and nowhere else. -/
theorem intercalate_cons (sep e : List Char) (es : List (List Char)) :
    List.intercalate sep (e :: es) = e ++ (es.map (fun x => sep ++ x)).flatten := by
  induction es generalizing e with
  | nil => simp [List.intercalate, List.intersperse]
  | cons x xs ih =>
      have h := ih x
      simp only [List.intercalate, List.intersperse, List.flatten_cons, List.map_cons,
        List.append_assoc] at h ⊢
      rw [h]

/-- `strings.Join` writes the elements in order with the separator between them. -/
theorem Join_data (elems : List String) (sep : String) :
    (strings.Join elems sep).data = List.intercalate sep.data (elems.map String.data) := by
  cases elems with
  | nil => simp [strings.Join, List.intercalate, List.intersperse]
  | cons e es =>
      simp only [strings.Join, join_foldl_data, List.map_cons, intercalate_cons, List.map_map]
      rfl

/-- A digit character denotes the digit it was made from. -/
theorem digitChar_value (k : Nat) (hk : k < 10) :
    (Nat.digitChar k).toNat - 48 = k ∧ (Nat.digitChar k).isDigit = true ∧
      (k ≠ 0 → Nat.digitChar k ≠ '0') := by
  interval_cases k <;> refine ⟨by decide, by decide, by decide⟩

/-- Appending one digit multiplies the value by ten and adds the digit. -/
theorem decimalValue_append (xs : List Char) (d : Char) :
    decimalValue (xs ++ [d]) = decimalValue xs * 10 + (d.toNat - 48) := by
  simp [decimalValue, List.foldl_append]

/-- The digits `Nat.toDigitsCore` puts in front of its accumulator denote the number, are
decimal digits, and do not start with a zero unless the number is zero. -/
theorem toDigitsCore_spec (fuel : Nat) :
    ∀ (n : Nat) (ds : List Char), n < fuel →
      ∃ xs : List Char, Nat.toDigitsCore 10 fuel n ds = xs ++ ds ∧ decimalValue xs = n ∧
        (∀ ch ∈ xs, ch.isDigit = true) ∧ xs ≠ [] ∧ (n ≠ 0 → xs.head? ≠ some '0') := by
  induction fuel with
  | zero => intro n ds h; omega
  | succ fuel ih =>
      intro n ds hn
      have hd := digitChar_value (n % 10) (Nat.mod_lt n (by decide))
      by_cases h0 : n / 10 = 0
      · have hlt : n < 10 := by omega
        have hmod : n % 10 = n := Nat.mod_eq_of_lt hlt
        refine ⟨[Nat.digitChar (n % 10)], by simp [Nat.toDigitsCore, h0], ?_, ?_, by simp, ?_⟩
        · have hv := hd.1
          rw [hmod] at hv
          simp [decimalValue, hmod, hv]
        · intro ch hch
          simp only [List.mem_singleton] at hch
          rw [hch]; exact hd.2.1
        · intro hne
          have : n % 10 ≠ 0 := by omega
          simpa using hd.2.2 this
      · have hlt : n / 10 < fuel := by omega
        obtain ⟨xs, h1, h2, h3, h4, h5⟩ := ih (n / 10) (Nat.digitChar (n % 10) :: ds) hlt
        refine ⟨xs ++ [Nat.digitChar (n % 10)], ?_, ?_, ?_, by simp, ?_⟩
        · simp [Nat.toDigitsCore, h0, h1]
        · rw [decimalValue_append, h2, hd.1]; omega
        · intro ch hch
          rcases List.mem_append.mp hch with h | h
          · exact h3 ch h
          · simp only [List.mem_singleton] at h
            rw [h]; exact hd.2.1
        · intro _
          cases xs with
          | nil => exact absurd rfl h4
          | cons x xs => simpa using h5 h0

/-- `fmt.Sprintf("%d", n)` for a positive `n`: decimal digits, no leading zero, denoting
`n`. -/
theorem fmtD_spec (n : Int) (hn : 0 < n) :
    (∀ ch ∈ (fmtD n).data, ch.isDigit = true) ∧ (fmtD n).data.head? ≠ some '0' ∧
      (decimalValue (fmtD n).data : Int) = n := by
  obtain ⟨m, rfl⟩ : ∃ m : Nat, n = (m : Int) := ⟨n.toNat, by omega⟩
  have hm : m ≠ 0 := by omega
  obtain ⟨xs, h1, h2, h3, -, h5⟩ := toDigitsCore_spec (m + 1) m [] (by omega)
  have hdata : (fmtD (m : Int)).data = xs := by
    have : fmtD (m : Int) = Nat.repr m := rfl
    rw [this]
    simp only [Nat.repr, Nat.toDigits, List.asString, h1, List.append_nil]
  rw [hdata]
  exact ⟨h3, h5 hm, by rw [h2]⟩

/-- For a plugin returned by `New`, `ServeHTTP` does not panic, and the headers it leaves
are those of the request's response with the header of the allowed origin and the
static headers of the configuration applied. -/
theorem ServeHTTP_headers_of_New (next : Handler) (config : Config) (name : String)
    (c : CORSRegex) (rw : ResponseWriter) (req : Request)
    (hNew : (New next config name).1 = .ok c) :
    ∃ out log allowed, c.ServeHTTP rw req = some (out, log) ∧
      out.rw.header = (staticHeaders config (originHeader rw allowed)).header := by
  obtain ⟨v, log1, hv, -⟩ := isOriginAllowed_of_New next config name c hNew (req.Header.Get "Origin")
  obtain ⟨log, hs⟩ := ServeHTTP_of_answer c rw req v log1 hv
  obtain ⟨-, -, hcfg, -⟩ := New_ok next config name c hNew
  rw [hcfg] at hs
  refine ⟨_, log, v, hs, ?_⟩
  by_cases hm : req.Method = "OPTIONS"
  · simp [hm, Outcome.rw, WriteHeader_header]
  · simp [hm, Outcome.rw]

/-! ## The variant in `src/src` -/

/-- What a successful run of the loop of the variant's `New` leaves in the plugin. -/
theorem variant_compileOrigins_ok (l : List String) :
    ∀ (plugin c : variant.CORSRegex), (variant.compileOrigins plugin l).1 = .ok c →
      c.originalPatterns = plugin.originalPatterns ++ l ∧
      (∃ res, c.originPatterns = plugin.originPatterns ++ res ∧
        List.Forall₂ (fun raw re => regexp.Compile (variant.regexPatternOf raw).1 = .ok re) l res) ∧
      c.config = plugin.config ∧ c.next = plugin.next ∧ c.name = plugin.name := by
  induction l with
  | nil =>
      intro plugin c h
      simp only [variant.compileOrigins, Except.ok.injEq] at h
      subst h
      exact ⟨by simp, ⟨[], by simp, List.Forall₂.nil⟩, rfl, rfl, rfl⟩
  | cons origin rest ih =>
      intro plugin c h
      cases hc : regexp.Compile (variant.regexPatternOf origin).1 with
      | error err => simp [variant.compileOrigins, hc] at h
      | ok compiled =>
          simp only [variant.compileOrigins, hc] at h
          obtain ⟨h1, ⟨res, h2, h3⟩, h4, h5, h6⟩ := ih _ c h
          refine ⟨by simp [h1], ⟨compiled :: res, by simp [h2], List.Forall₂.cons hc h3⟩, h4, h5, h6⟩

/-- The result of the variant's `New` is the result of its loop. -/
theorem variant_New_fst (next : Handler) (config : variant.Config) (name : String) :
    (variant.New next config name).1 =
      (variant.compileOrigins
        { next := next, name := name, config := config, originPatterns := [], originalPatterns := [] }
        config.AllowOriginList).1 := by
  simp only [variant.New]
  split <;> rename_i heq <;> rw [heq]

/-- A plugin returned by the variant's `New` holds the configured origins in order and,
for each, the expression compiled from it. -/
theorem variant_New_ok (next : Handler) (config : variant.Config) (name : String)
    (c : variant.CORSRegex) (h : (variant.New next config name).1 = .ok c) :
    c.originalPatterns = config.AllowOriginList ∧
      List.Forall₂ (fun raw re => regexp.Compile (variant.regexPatternOf raw).1 = .ok re)
        config.AllowOriginList c.originPatterns ∧
      c.config = config ∧ c.next = next ∧ c.name = name := by
  rw [variant_New_fst] at h
  obtain ⟨h1, ⟨res, h2, h3⟩, h4, h5, h6⟩ := variant_compileOrigins_ok _ _ _ h
  simp only [List.nil_append] at h1 h2
  exact ⟨h1, h2 ▸ h3, h4, h5, h6⟩

/-- The variant's scan skips the patterns that do not match. -/
theorem variant_scanPatterns_skip (c : variant.CORSRegex) (origin : String)
    (pre : List regexp.Regexp) (hpre : ∀ r ∈ pre, r.MatchString origin = false)
    (ps : List regexp.Regexp) (i : Nat) :
    c.scanPatterns origin i (pre ++ ps) = c.scanPatterns origin (i + pre.length) ps := by
  induction pre generalizing i with
  | nil => simp
  | cons r pre ih =>
      have hr : r.MatchString origin = false := hpre r (by simp)
      have hstep : c.scanPatterns origin i (r :: (pre ++ ps)) =
          c.scanPatterns origin (i + 1) (pre ++ ps) := by
        simp [variant.CORSRegex.scanPatterns, hr]
      rw [List.cons_append, hstep, ih (fun x hx => hpre x (by simp [hx])), List.length_cons]
      congr 1
      omega

/-- The variant's scan of a pattern list whose first match is at index `i` answers the
configured pattern at that index. -/
theorem variant_scanPatterns_first (c : variant.CORSRegex) (origin : String)
    (ps : List regexp.Regexp) (i : Nat) (re : regexp.Regexp) (hre : ps[i]? = some re)
    (hmatch : re.MatchString origin = true)
    (hfirst : ∀ j r, j < i → ps[j]? = some r → r.MatchString origin = false) :
    c.scanPatterns origin 0 ps = c.originalPatterns[i]? := by
  have hsplit := split_at_index ps i re hre
  have hpre := forall_take_of_index (fun r => r.MatchString origin = false) ps i hfirst
  have hlen : (ps.take i).length = i := by
    have : i < ps.length := by
      by_contra hge
      rw [List.getElem?_eq_none (by omega)] at hre
      cases hre
    simp only [List.length_take]
    omega
  rw [hsplit, variant_scanPatterns_skip c origin _ hpre, hlen]
  simp [variant.CORSRegex.scanPatterns, hmatch]

/-- When no pattern matches, the variant's scan answers the empty string. -/
theorem variant_scanPatterns_none (c : variant.CORSRegex) (origin : String)
    (ps : List regexp.Regexp) (h : ∀ r ∈ ps, r.MatchString origin = false) (i : Nat) :
    c.scanPatterns origin i ps = some "" := by
  have := variant_scanPatterns_skip c origin ps h [] i
  simpa [variant.CORSRegex.scanPatterns] using this


/-! ## Fillings of a wildcard pattern -/

/-- The expression text and the debug line of each branch of `New`. -/
theorem regexPatternOf_classify (raw : String) :
    regexPatternOf raw =
      match classify raw with
      | .WILDCARD =>
          ("^" ++ strings.ReplaceAll (strings.ReplaceAll raw "." "\\.") "*" ".*" ++ "$",
            "Origin pattern converted wildcard origin=%q regex=%q")
      | .REGEX => ("^" ++ raw ++ "$", "Origin pattern treated as regex origin=%q regex=%q")
      | .EXACT =>
          ("^" ++ regexp.QuoteMeta raw ++ "$", "Origin pattern exact match origin=%q regex=%q") := by
  unfold regexPatternOf classify
  by_cases h1 : strings.Contains raw "*" = true
  · simp [h1]
  · by_cases h2 : strings.ContainsAny raw regexChars = true
    · simp [h1, h2]
    · simp [h1, h2]

/-- The test of `isOriginAllowed` fails exactly on the patterns of the last branch of
`New`. -/
theorem tests_false_iff_exact (raw : String) :
    (strings.Contains raw "*" || strings.ContainsAny raw regexCharsAtMatch) = false ↔
      classify raw = .EXACT := by
  rw [classification_agrees]
  unfold classify
  by_cases h1 : strings.Contains raw "*" = true
  · simp [h1]
  · by_cases h2 : strings.ContainsAny raw regexChars = true
    · simp [h1, h2]
    · simp [h1, h2]


/-! ## The request path of a plugin returned by `New` -/

/-- For a plugin returned by `New`, `ServeHTTP` does not panic: it ends with an answer of
its own for `OPTIONS` and with the call of the next handler otherwise, on the response
with the header of the allowed origin and the static headers of the configuration
applied. -/
theorem ServeHTTP_of_New (next : Handler) (config : Config) (name : String)
    (c : CORSRegex) (rw : ResponseWriter) (req : Request)
    (hNew : (New next config name).1 = .ok c) :
    ∃ allowed log, c.ServeHTTP rw req =
      some (if req.Method = "OPTIONS" then
          Outcome.answered ((staticHeaders config (originHeader rw allowed)).WriteHeader StatusOK)
        else Outcome.forwarded (staticHeaders config (originHeader rw allowed)) req, log) := by
  obtain ⟨v, log1, hv, -⟩ := isOriginAllowed_of_New next config name c hNew (req.Header.Get "Origin")
  obtain ⟨log, hs⟩ := ServeHTTP_of_answer c rw req v log1 hv
  obtain ⟨-, -, hcfg, -⟩ := New_ok next config name c hNew
  rw [hcfg] at hs
  exact ⟨v, log, hs⟩

/-- The status after `WriteHeader`: the one already written, else the given code. -/
theorem WriteHeader_status (rw : ResponseWriter) (code : Nat) :
    (rw.WriteHeader code).status = some (rw.status.getD code) := by
  unfold ResponseWriter.WriteHeader
  cases h : rw.status <;> simp [h]

/-- Under a key other than `Access-Control-Allow-Origin`, the entry found after the
header of the allowed origin and the static headers were applied is the one found after
the static headers alone. -/
theorem static_lookup_without_origin (config : Config) (rw : ResponseWriter)
    (allowed k : String) (hk : k ≠ "Access-Control-Allow-Origin") :
    (staticHeaders config (originHeader rw allowed)).header.lookup k =
      (staticHeaders config rw).header.lookup k := by
  rw [staticHeaders_lookup, staticHeaders_lookup, originHeader_lookup]
  simp [hk]


/-! ## What the plugin's behaviour depends on -/

/-- Compiling the entries of a list has one result. -/
theorem forall2_compile_unique (l : List String) (res1 res2 : List Regexp)
    (h1 : List.Forall₂ (fun raw re => Compile (regexPatternOf raw).1 = .ok re) l res1)
    (h2 : List.Forall₂ (fun raw re => Compile (regexPatternOf raw).1 = .ok re) l res2) :
    res1 = res2 := by
  induction h1 generalizing res2 with
  | nil => cases h2; rfl
  | cons hab _ ih =>
      cases h2 with
      | cons hab2 hrest =>
          rw [hab] at hab2
          simp only [Except.ok.injEq] at hab2
          rw [hab2, ih _ hrest]

/-- Whether the loop of `New` fails, and with which message, does not depend on the
plugin it started from. -/
theorem compileOrigins_error_congr (l : List String) (p1 p2 : CORSRegex) (msg : String) :
    (compileOrigins p1 l).1 = .error msg ↔ (compileOrigins p2 l).1 = .error msg := by
  rw [compileOrigins_error, compileOrigins_error]

/-- The values the loop of `isOriginAllowed` answers depend on the configured patterns
only. -/
theorem scanPatterns_fst_congr (c1 c2 : CORSRegex) (origin : String)
    (h : c1.originalPatterns = c2.originalPatterns) (ps : List Regexp) :
    ∀ i : Nat, (c1.scanPatterns origin i ps).map Prod.fst =
      (c2.scanPatterns origin i ps).map Prod.fst := by
  induction ps with
  | nil => intro i; rfl
  | cons p ps ih =>
      intro i
      by_cases hp : p.MatchString origin = true
      · simp only [CORSRegex.scanPatterns, hp, if_true, h]
        cases c2.originalPatterns[i]? with
        | none => rfl
        | some raw =>
            by_cases hcond :
                (strings.Contains raw "*" || strings.ContainsAny raw regexCharsAtMatch) = true
            · simp only [hcond, if_true, Option.map_some']
            · simp only [hcond, if_false, Option.map_some', Bool.false_eq_true]
      · simp only [CORSRegex.scanPatterns, hp, if_false, Bool.false_eq_true]
        exact ih (i + 1)

/-- The value `isOriginAllowed` answers depends on the two pattern lists only. -/
theorem isOriginAllowed_fst_congr (c1 c2 : CORSRegex) (origin : String)
    (h1 : c1.originPatterns = c2.originPatterns)
    (h2 : c1.originalPatterns = c2.originalPatterns) :
    (c1.isOriginAllowed origin).map Prod.fst = (c2.isOriginAllowed origin).map Prod.fst := by
  unfold CORSRegex.isOriginAllowed
  by_cases ho : origin = ""
  · simp [ho]
  · simp only [ho, if_false, h1]
    exact scanPatterns_fst_congr c1 c2 origin h2 _ 0

/-- The static headers do not read `Debug`. -/
theorem staticHeaders_Debug (config : Config) (d : Bool) (rw : ResponseWriter) :
    staticHeaders { config with Debug := d } rw = staticHeaders config rw := rfl

/-- How `ServeHTTP` ends, the log left aside, depends on the two pattern lists and on
the configuration without `Debug` only. -/
theorem ServeHTTP_fst_congr (c1 c2 : CORSRegex) (d : Bool) (rw : ResponseWriter) (req : Request)
    (h1 : c1.originPatterns = c2.originPatterns)
    (h2 : c1.originalPatterns = c2.originalPatterns)
    (h3 : c2.config = { c1.config with Debug := d }) :
    (c1.ServeHTTP rw req).map Prod.fst = (c2.ServeHTTP rw req).map Prod.fst := by
  rw [ServeHTTP_outcome, ServeHTTP_outcome, h3]
  simp only [staticHeaders_Debug]
  have h := isOriginAllowed_fst_congr c1 c2 (req.Header.Get "Origin") h1 h2
  cases ha : c1.isOriginAllowed (req.Header.Get "Origin") with
  | none =>
      rw [ha] at h
      cases hb : c2.isOriginAllowed (req.Header.Get "Origin") with
      | none => rfl
      | some b => rw [hb] at h; simp at h
  | some a =>
      rw [ha] at h
      cases hb : c2.isOriginAllowed (req.Header.Get "Origin") with
      | none => rw [hb] at h; simp at h
      | some b =>
          rw [hb] at h
          simp only [Option.map_some', Option.some.injEq] at h
          simp only [Option.map_some', h]


/-! ## The two implementations side by side -/

/-- The entries of the table `first`. -/
theorem first_spec (b sz lo hi : Nat) (h : bytewise.first b = some (sz, lo, hi)) :
    (sz = 2 ∧ lo = 0x80 ∧ hi = 0xBF ∧ 0xC2 ≤ b ∧ b ≤ 0xDF) ∨
    (sz = 3 ∧ lo = 0xA0 ∧ hi = 0xBF ∧ b = 0xE0) ∨
    (sz = 3 ∧ lo = 0x80 ∧ hi = 0xBF ∧ 0xE1 ≤ b ∧ b ≤ 0xEF ∧ b ≠ 0xED) ∨
    (sz = 3 ∧ lo = 0x80 ∧ hi = 0x9F ∧ b = 0xED) ∨
    (sz = 4 ∧ lo = 0x90 ∧ hi = 0xBF ∧ b = 0xF0) ∨
    (sz = 4 ∧ lo = 0x80 ∧ hi = 0xBF ∧ 0xF1 ≤ b ∧ b ≤ 0xF3) ∨
    (sz = 4 ∧ lo = 0x80 ∧ hi = 0x8F ∧ b = 0xF4) := by
  unfold bytewise.first at h
  split_ifs at h <;> simp only [Option.some.injEq, Prod.mk.injEq, reduceCtorEq] at h <;> omega

/-- `bytewise.DecodeRuneInString` at a lead byte of a sequence of two. -/
theorem decode_two (s0 s1 lo hi : Nat) (t : bytewise.GoString) (h0 : ¬ s0 < 128)
    (hf : bytewise.first s0 = some (2, lo, hi)) :
    bytewise.DecodeRuneInString (s0 :: s1 :: t) =
      if s1 < lo ∨ hi < s1 then none else some (s0 % 32 * 64 + s1 % 64, 2) := by
  simp [bytewise.DecodeRuneInString, h0, hf]

/-- `bytewise.DecodeRuneInString` at a lead byte of a sequence of three. -/
theorem decode_three (s0 s1 s2 lo hi : Nat) (t : bytewise.GoString) (h0 : ¬ s0 < 128)
    (hf : bytewise.first s0 = some (3, lo, hi)) :
    bytewise.DecodeRuneInString (s0 :: s1 :: s2 :: t) =
      if s1 < lo ∨ hi < s1 then none
      else if s2 < 0x80 ∨ 0xBF < s2 then none
      else some (s0 % 16 * 4096 + s1 % 64 * 64 + s2 % 64, 3) := by
  simp [bytewise.DecodeRuneInString, h0, hf]

/-- `bytewise.DecodeRuneInString` at a lead byte of a sequence of four. -/
theorem decode_four (s0 s1 s2 s3 lo hi : Nat) (t : bytewise.GoString) (h0 : ¬ s0 < 128)
    (hf : bytewise.first s0 = some (4, lo, hi)) :
    bytewise.DecodeRuneInString (s0 :: s1 :: s2 :: s3 :: t) =
      if s1 < lo ∨ hi < s1 then none
      else if s2 < 0x80 ∨ 0xBF < s2 then none
      else if s3 < 0x80 ∨ 0xBF < s3 then none
      else some (s0 % 8 * 262144 + s1 % 64 * 4096 + s2 % 64 * 64 + s3 % 64, 4) := by
  simp [bytewise.DecodeRuneInString, h0, hf]

/-- `bytewise.DecodeRuneInString` on a string shorter than the sequence its lead byte starts. -/
theorem decode_short (s0 sz lo hi : Nat) (t : bytewise.GoString) (h0 : ¬ s0 < 128)
    (hf : bytewise.first s0 = some (sz, lo, hi)) (hlen : t.length + 1 < sz) :
    bytewise.DecodeRuneInString (s0 :: t) = none := by
  simp [bytewise.DecodeRuneInString, h0, hf, hlen]

/-- What `bytewise.DecodeRuneInString` accepts: an ASCII byte, or a well formed sequence of two to
four bytes from 128 on, which encodes a valid code point from 128 on and is decoded the
same whatever follows it. -/
theorem DecodeRune_spec (s : bytewise.GoString) (r w : Nat) (h : bytewise.DecodeRuneInString s = some (r, w)) :
    (r < 128 ∧ w = 1 ∧ ∃ t, s = r :: t) ∨
      ∃ seq t, s = seq ++ t ∧ seq.length = w ∧ bytewise.MultiSeq seq r := by
  rcases s with _ | ⟨s0, t⟩
  · simp [bytewise.DecodeRuneInString] at h
  · by_cases h0 : s0 < 128
    · simp only [bytewise.DecodeRuneInString, h0, if_true, Option.some.injEq, Prod.mk.injEq] at h
      exact Or.inl ⟨by omega, by omega, t, by rw [h.1]⟩
    · right
      rcases hf : bytewise.first s0 with _ | ⟨sz, lo, hi⟩
      · simp [bytewise.DecodeRuneInString, h0, hf] at h
      · have hs := first_spec s0 sz lo hi hf
        have hsz : sz = 2 ∨ sz = 3 ∨ sz = 4 := by omega
        rcases hsz with rfl | rfl | rfl
        · rcases t with _ | ⟨s1, t1⟩
          · rw [decode_short s0 2 lo hi [] h0 hf (by simp)] at h; cases h
          · rw [decode_two s0 s1 lo hi t1 h0 hf] at h
            split at h
            · cases h
            · rename_i hc
              simp only [Option.some.injEq, Prod.mk.injEq] at h
              obtain ⟨hr, hw⟩ := h
              refine ⟨[s0, s1], t1, rfl, by simpa using hw, by simp, ?_, ?_, ?_, ?_⟩
              · intro b hb
                simp only [List.mem_cons, List.mem_singleton, List.not_mem_nil, or_false] at hb
                omega
              · omega
              · unfold Nat.isValidChar; omega
              · intro t2
                simp only [List.cons_append, List.nil_append, List.length_cons, List.length_nil]
                rw [decode_two s0 s1 lo hi t2 h0 hf, if_neg hc, hr]
        · rcases t with _ | ⟨s1, _ | ⟨s2, t2⟩⟩
          · rw [decode_short s0 3 lo hi [] h0 hf (by simp)] at h; cases h
          · rw [decode_short s0 3 lo hi [s1] h0 hf (by simp)] at h; cases h
          · rw [decode_three s0 s1 s2 lo hi t2 h0 hf] at h
            split at h
            · cases h
            · rename_i hc1
              split at h
              · cases h
              · rename_i hc2
                simp only [Option.some.injEq, Prod.mk.injEq] at h
                obtain ⟨hr, hw⟩ := h
                refine ⟨[s0, s1, s2], t2, rfl, by simpa using hw, by simp, ?_, ?_, ?_, ?_⟩
                · intro b hb
                  simp only [List.mem_cons, List.mem_singleton, List.not_mem_nil, or_false] at hb
                  omega
                · omega
                · unfold Nat.isValidChar; omega
                · intro t3
                  simp only [List.cons_append, List.nil_append, List.length_cons, List.length_nil]
                  rw [decode_three s0 s1 s2 lo hi t3 h0 hf, if_neg hc1, if_neg hc2, hr]
        · rcases t with _ | ⟨s1, _ | ⟨s2, _ | ⟨s3, t3⟩⟩⟩
          · rw [decode_short s0 4 lo hi [] h0 hf (by simp)] at h; cases h
          · rw [decode_short s0 4 lo hi [s1] h0 hf (by simp)] at h; cases h
          · rw [decode_short s0 4 lo hi [s1, s2] h0 hf (by simp)] at h; cases h
          · rw [decode_four s0 s1 s2 s3 lo hi t3 h0 hf] at h
            split at h
            · cases h
            · rename_i hc1
              split at h
              · cases h
              · rename_i hc2
                split at h
                · cases h
                · rename_i hc3
                  simp only [Option.some.injEq, Prod.mk.injEq] at h
                  obtain ⟨hr, hw⟩ := h
                  refine ⟨[s0, s1, s2, s3], t3, rfl, by simpa using hw, by simp, ?_, ?_, ?_, ?_⟩
                  · intro b hb
                    simp only [List.mem_cons, List.mem_singleton, List.not_mem_nil, or_false] at hb
                    omega
                  · omega
                  · unfold Nat.isValidChar; omega
                  · intro t4
                    simp only [List.cons_append, List.nil_append, List.length_cons, List.length_nil]
                    rw [decode_four s0 s1 s2 s3 lo hi t4 h0 hf, if_neg hc1, if_neg hc2,
                      if_neg hc3, hr]

/-- The code point of the character made from a valid code point. -/
theorem char_toNat_ofNat (n : Nat) (h : n.isValidChar) : (Char.ofNat n).toNat = n := by
  unfold Char.ofNat
  rw [dif_pos h]
  rfl

/-- The text `decodeRunes` reads is a decoding of the bytes. -/
theorem decodeRunes_sound (fuel : Nat) : ∀ (s : bytewise.GoString) (cs : List Char),
    bytewise.decodeRunes fuel s = .ok cs → bytewise.Decodes s cs := by
  induction fuel with
  | zero =>
      intro s cs h
      cases s with
      | nil =>
          simp only [bytewise.decodeRunes, List.isEmpty_nil, if_true, Except.ok.injEq] at h
          subst h
          exact bytewise.Decodes.nil
      | cons b t => simp [bytewise.decodeRunes] at h
  | succ fuel ih =>
      intro s cs h
      cases s with
      | nil =>
          simp only [bytewise.decodeRunes, List.isEmpty_nil, if_true, Except.ok.injEq] at h
          subst h
          exact bytewise.Decodes.nil
      | cons b t =>
          simp only [bytewise.decodeRunes, List.isEmpty_cons, Bool.false_eq_true, if_false] at h
          cases hd : bytewise.DecodeRuneInString (b :: t) with
          | none => simp [hd] at h
          | some rw =>
              obtain ⟨r, w⟩ := rw
              simp only [hd] at h
              cases hrest : bytewise.decodeRunes fuel ((b :: t).drop w) with
              | error e => simp [hrest] at h
              | ok text =>
                  simp only [hrest, Except.ok.injEq] at h
                  subst h
                  have hdec := ih _ _ hrest
                  rcases DecodeRune_spec _ r w hd with ⟨hr, hw, t1, ht1⟩ | ⟨seq, t1, hs, hlen, hm⟩
                  · subst hw
                    simp only [List.cons.injEq] at ht1
                    obtain ⟨rfl, rfl⟩ := ht1
                    simp only [List.drop_succ_cons, List.drop_zero] at hdec
                    exact bytewise.Decodes.ascii _ _ _ hr hdec
                  · rw [hs] at hdec ⊢
                    rw [← hlen, List.drop_left] at hdec
                    exact bytewise.Decodes.multi _ _ _ _ hm hdec

/-- With a counter of at least the length, `decodeRunes` reads the decoding. -/
theorem decodeRunes_complete (s : bytewise.GoString) (cs : List Char) (h : bytewise.Decodes s cs) :
    ∀ fuel, s.length ≤ fuel → bytewise.decodeRunes fuel s = .ok cs := by
  induction h with
  | nil =>
      intro fuel _
      cases fuel <;> simp [bytewise.decodeRunes]
  | ascii b t cs hb _ ih =>
      intro fuel hf
      cases fuel with
      | zero => simp at hf
      | succ fuel =>
          have hd : bytewise.DecodeRuneInString (b :: t) = some (b, 1) := by
            simp [bytewise.DecodeRuneInString, hb]
          simp only [bytewise.decodeRunes, List.isEmpty_cons, Bool.false_eq_true, if_false, hd,
            List.drop_succ_cons, List.drop_zero]
          rw [ih fuel (by simp at hf; omega)]
  | multi seq r t cs hm _ ih =>
      intro fuel hf
      obtain ⟨h2, -, -, -, hd⟩ := hm
      cases fuel with
      | zero =>
          simp only [List.length_append] at hf
          omega
      | succ fuel =>
          have hne : (seq ++ t).isEmpty = false := by
            cases seq with
            | nil => simp at h2
            | cons a l => rfl
          simp only [bytewise.decodeRunes, hne, Bool.false_eq_true, if_false, hd t, List.drop_left]
          rw [ih fuel (by simp only [List.length_append] at hf; omega)]

/-- Decoding goes through concatenation. -/
theorem Decodes_append (s1 s2 : bytewise.GoString) (cs1 cs2 : List Char) (h1 : bytewise.Decodes s1 cs1)
    (h2 : bytewise.Decodes s2 cs2) : bytewise.Decodes (s1 ++ s2) (cs1 ++ cs2) := by
  induction h1 with
  | nil => simpa using h2
  | ascii b t cs hb _ ih => exact bytewise.Decodes.ascii b _ _ hb ih
  | multi seq r t cs hm _ ih =>
      rw [List.append_assoc]
      exact bytewise.Decodes.multi seq r _ _ hm ih

/-- A rewriting that leaves the bytes from 128 on as they are leaves a sequence of such
bytes as it is. -/
theorem flatten_map_id (fb : Nat → bytewise.GoString) (hb : ∀ b, 128 ≤ b → fb b = [b]) (seq : bytewise.GoString)
    (hseq : ∀ b ∈ seq, 128 ≤ b) : (seq.map fb).flatten = seq := by
  induction seq with
  | nil => rfl
  | cons a l ih =>
      simp only [List.map_cons, List.flatten_cons, hb a (hseq a (by simp)),
        ih (fun b hbm => hseq b (by simp [hbm])), List.singleton_append]

/-- A rewriting of the bytes one by one that leaves the bytes from 128 on as they are
acts on the text as the matching rewriting of the characters. -/
theorem Decodes_map_flatten (fb : Nat → bytewise.GoString) (fc : Char → List Char)
    (hascii : ∀ b, b < 128 → bytewise.Decodes (fb b) (fc (Char.ofNat b)))
    (hb : ∀ b, 128 ≤ b → fb b = [b]) (hc : ∀ c : Char, 128 ≤ c.toNat → fc c = [c])
    (s : bytewise.GoString) (cs : List Char) (h : bytewise.Decodes s cs) :
    bytewise.Decodes (s.map fb).flatten (cs.map fc).flatten := by
  induction h with
  | nil => exact bytewise.Decodes.nil
  | ascii b t cs hlt _ ih =>
      simp only [List.map_cons, List.flatten_cons]
      exact Decodes_append _ _ _ _ (hascii b hlt) ih
  | multi seq r t cs hm _ ih =>
      simp only [List.map_append, List.flatten_append, List.map_cons, List.flatten_cons]
      rw [flatten_map_id fb hb seq hm.2.1, hc _ (by rw [char_toNat_ofNat r hm.2.2.2.1]; exact hm.2.2.1)]
      exact bytewise.Decodes.multi seq r _ _ hm ih

/-- An ASCII character of the text stands in the bytes as itself. -/
theorem Decodes_ascii_mem (s : bytewise.GoString) (cs : List Char) (h : bytewise.Decodes s cs) :
    ∀ c ∈ cs, c.toNat < 128 → c.toNat ∈ s := by
  induction h with
  | nil => intro c hc; simp at hc
  | ascii b t cs hlt _ ih =>
      intro c hc hlt2
      rcases List.mem_cons.mp hc with e | e
      · rw [e, char_toNat_ofNat b (by unfold Nat.isValidChar; omega)]
        simp
      · exact List.mem_cons_of_mem _ (ih c e hlt2)
  | multi seq r t cs hm _ ih =>
      intro c hc hlt2
      rcases List.mem_cons.mp hc with e | e
      · rw [e, char_toNat_ofNat r hm.2.2.2.1] at hlt2
        have := hm.2.2.1
        omega
      · exact List.mem_append_right _ (ih c e hlt2)

/-- A text has at most as many characters as bytes. -/
theorem Decodes_length (s : bytewise.GoString) (cs : List Char) (h : bytewise.Decodes s cs) :
    cs.length ≤ s.length := by
  induction h with
  | nil => simp
  | ascii b t cs _ _ ih => simp; omega
  | multi seq r t cs hm _ ih =>
      have := hm.1
      simp only [List.length_cons, List.length_append]
      omega


/-! ## Go strings as byte sequences: entries without special characters -/

/-- The special characters of `New` are ASCII and stand among the bytes of their list. -/
theorem regexChars_ascii :
    ∀ c ∈ regexChars.data, c.toNat < 128 ∧ c.toNat ∈ bytewise.ofString regexChars := by
  decide

/-- The characters `regexp.QuoteMeta` escapes are ASCII. -/
theorem special_chars_ascii : ∀ c ∈ "\\.+*?()|[]\x7b\x7d^$".data, c.toNat < 128 := by
  decide

/-- On ASCII the two versions of `special` agree. -/
theorem special_agree : ∀ b, b < 128 → regexp.special (Char.ofNat b) = bytewise.special b := by
  decide

/-- No byte from 128 on is special. -/
theorem special_high (b : Nat) (hb : 128 ≤ b) : bytewise.special b = false := by
  have hall : ∀ x ∈ bytewise.ofString "\\.+*?()|[]\x7b\x7d^$", x < 128 := by decide
  unfold bytewise.special
  by_contra hc
  have hmem : b ∈ bytewise.ofString "\\.+*?()|[]\x7b\x7d^$" := by simpa using hc
  have := hall b hmem
  omega

/-- No character from 128 on is special. -/
theorem special_char_high (c : Char) (hc : 128 ≤ c.toNat) : regexp.special c = false := by
  have key : ∀ l : List Char, (∀ x ∈ l, x.toNat < 128) → l.contains c = false := by
    intro l hl
    by_contra hcon
    have hmem : c ∈ l := by simpa using hcon
    have := hl c hmem
    omega
  exact key _ special_chars_ascii

/-- The bytes `QuoteMeta` writes decode to the text `regexp.QuoteMeta` writes. -/
theorem Decodes_QuoteMeta (s : bytewise.GoString) (cs : List Char)
    (h : bytewise.Decodes s cs) :
    bytewise.Decodes (bytewise.QuoteMeta s) (regexp.QuoteMeta ⟨cs⟩).data := by
  unfold bytewise.QuoteMeta regexp.QuoteMeta
  refine Decodes_map_flatten _ (fun c => if regexp.special c then ['\\', c] else [c]) ?_ ?_ ?_ s cs h
  · intro b hb
    have e : bytewise.ofString "\\" = [92] := by decide
    show bytewise.Decodes _
      (if regexp.special (Char.ofNat b) = true then ['\\', Char.ofNat b] else [Char.ofNat b])
    rw [special_agree b hb, e]
    by_cases hs : bytewise.special b = true
    · simp only [hs, if_true]
      exact bytewise.Decodes.ascii 92 _ _ (by decide)
        (bytewise.Decodes.ascii b _ _ hb bytewise.Decodes.nil)
    · simp only [hs, if_false, Bool.false_eq_true]
      exact bytewise.Decodes.ascii b _ _ hb bytewise.Decodes.nil
  · intro b hb
    simp [special_high b hb]
  · intro c hc
    simp [special_char_high c hc]

/-- A string of bytes that holds none of the special characters of `New` decodes to a
text that holds none. -/
theorem Decodes_no_special (s : bytewise.GoString) (cs : List Char)
    (h : bytewise.Decodes s cs)
    (hno : bytewise.ContainsAny s (bytewise.ofString regexChars) = false) :
    strings.ContainsAny ⟨cs⟩ regexChars = false := by
  by_contra hc
  have hc1 : strings.ContainsAny ⟨cs⟩ regexChars = true := by simpa using hc
  obtain ⟨c, hmem, hin⟩ := (ContainsAny_iff _ _).mp hc1
  obtain ⟨hlt, hbyte⟩ := regexChars_ascii c hin
  have hs := Decodes_ascii_mem s cs h c hmem hlt
  have : bytewise.ContainsAny s (bytewise.ofString regexChars) = true := by
    simp only [bytewise.ContainsAny, List.any_eq_true]
    exact ⟨c.toNat, hs, by simpa using hbyte⟩
  rw [hno] at this
  cases this

/-- A one byte block occurs in a string exactly when the byte does. -/
theorem containsBytes_single (a : Nat) (l : bytewise.GoString) :
    bytewise.containsBytes l [a] = decide (a ∈ l) := by
  induction l with
  | nil => simp [bytewise.containsBytes]
  | cons c cs ih =>
      simp only [bytewise.containsBytes, List.isPrefixOf, ih, List.mem_cons, Bool.and_true]
      by_cases h : a = c <;> simp [h]

/-- The text `New` builds for an entry that holds none of its special characters. -/
theorem bytewise_regexPatternOf_exact (s : bytewise.GoString)
    (hno : bytewise.ContainsAny s (bytewise.ofString regexChars) = false) :
    (bytewise.regexPatternOf s).1 = 94 :: (bytewise.QuoteMeta s ++ [36]) := by
  have hstar : bytewise.Contains s (bytewise.ofString "*") = false := by
    have e : bytewise.ofString "*" = [42] := by decide
    rw [bytewise.Contains, e, containsBytes_single]
    by_contra hc
    have hmem : 42 ∈ s := by simpa using hc
    have : bytewise.ContainsAny s (bytewise.ofString regexChars) = true := by
      simp only [bytewise.ContainsAny, List.any_eq_true]
      exact ⟨42, hmem, by decide⟩
    rw [hno] at this
    cases this
  have e1 : bytewise.ofString "^" = [94] := by decide
  have e2 : bytewise.ofString "$" = [36] := by decide
  simp [bytewise.regexPatternOf, hstar, hno, e1, e2]

/-- The runes held by a concatenation. -/
theorem numRunes_mkConcat (l : List Regexp) :
    bytewise.numRunes (mkConcat l) = (l.map bytewise.numRunes).sum := by
  induction l with
  | nil => simp [mkConcat, bytewise.numRunes]
  | cons r rs ih =>
      cases rs with
      | nil => simp [mkConcat]
      | cons r2 rs2 =>
          simp only [mkConcat, bytewise.numRunes, ih, List.map_cons, List.sum_cons]

/-- The expression compiled for a pattern of plain characters without `*` holds one rune
for each of them. -/
theorem numRunes_compiledOf_exact (s : String) (h : '*' ∉ s.data) :
    bytewise.numRunes (compiledOf s) = s.data.length := by
  have hitems : ∀ l : List Char, '*' ∉ l →
      ((l.map tokenItem).map bytewise.numRunes).sum = l.length := by
    intro l hl
    induction l with
    | nil => simp
    | cons c cs ih =>
        have hc : c ≠ '*' := fun e => hl (by simp [e])
        have h1 : bytewise.numRunes (tokenItem c) = 1 := by
          simp [tokenItem, hc, bytewise.numRunes]
        simp only [List.map_cons, List.sum_cons, List.length_cons, h1,
          ih (fun hm => hl (by simp [hm]))]
        omega
  unfold compiledOf
  rw [numRunes_mkConcat]
  simp only [List.map_cons, List.map_append, List.sum_cons, List.sum_append, List.map_nil,
    List.sum_nil, bytewise.numRunes]
  have := hitems s.data h
  omega

/-- What `regexp.Compile` returns on the text `New` builds for an entry that is valid
UTF-8 and holds none of the special characters of `New`: the error `ErrLarge` when the
entry has more than `maxRunes` code points, and otherwise the expression that
`regexp.Compile` of the sections above gives for the text of the entry. -/
theorem bytewise_exact_compile (raw : bytewise.GoString) (text : List Char)
    (hdec : bytewise.decodeRunes raw.length raw = .ok text)
    (hno : bytewise.ContainsAny raw (bytewise.ofString regexChars) = false) :
    bytewise.Compile (bytewise.regexPatternOf raw).1 =
        (if bytewise.maxRunes < text.length then
          .error ⟨.ErrLarge, (bytewise.regexPatternOf raw).1⟩
        else .ok (compiledOf ⟨text⟩)) ∧
      Compile (regexPatternOf ⟨text⟩).1 = .ok (compiledOf ⟨text⟩) := by
  have hd := decodeRunes_sound _ _ _ hdec
  have hex : exactPattern ⟨text⟩ := exactPattern_of_containsAny _ (Decodes_no_special raw text hd hno)
  have hcomp := (exact_matcher ⟨text⟩ hex).1
  refine ⟨?_, hcomp⟩
  have hpat : bytewise.Decodes (bytewise.regexPatternOf raw).1 (regexPatternOf ⟨text⟩).1.data := by
    rw [bytewise_regexPatternOf_exact raw hno]
    have hq := Decodes_QuoteMeta raw text hd
    have hend : bytewise.Decodes [36] ['$'] :=
      bytewise.Decodes.ascii 36 _ _ (by decide) bytewise.Decodes.nil
    have hall := bytewise.Decodes.ascii 94 _ _ (by decide) (Decodes_append _ _ _ _ hq hend)
    have htext : (regexPatternOf ⟨text⟩).1.data =
        Char.ofNat 94 :: ((regexp.QuoteMeta ⟨text⟩).data ++ ['$']) := by
      simp only [regexPatternOf, hex.1, hex.2, Bool.false_eq_true, if_false, anchored_data]
    rw [htext]
    exact hall
  have hrun := decodeRunes_complete _ _ hpat _ (le_refl _)
  have hstr : (⟨(regexPatternOf ⟨text⟩).1.data⟩ : String) = (regexPatternOf ⟨text⟩).1 := rfl
  have hn : bytewise.numRunes (compiledOf ⟨text⟩) = text.length :=
    numRunes_compiledOf_exact ⟨text⟩ (exactPattern_plain ⟨text⟩ hex).1
  unfold bytewise.Compile
  rw [hrun]
  simp only [hstr, hcomp, hn]

/-- An entry that is valid UTF-8, has at most `maxRunes` code points and holds none of
the special characters of `New` compiles, to the expression `regexp.Compile` gives for
the text of the entry. -/
theorem bytewise_exact_entry (raw : bytewise.GoString) (text : List Char)
    (hdec : bytewise.decodeRunes raw.length raw = .ok text)
    (hlen : text.length ≤ bytewise.maxRunes)
    (hno : bytewise.ContainsAny raw (bytewise.ofString regexChars) = false) :
    bytewise.Compile (bytewise.regexPatternOf raw).1 = .ok (compiledOf ⟨text⟩) ∧
      Compile (regexPatternOf ⟨text⟩).1 = .ok (compiledOf ⟨text⟩) := by
  obtain ⟨h1, h2⟩ := bytewise_exact_compile raw text hdec hno
  rw [if_neg (by omega)] at h1
  exact ⟨h1, h2⟩

/-- A run of the letter `a` decodes to itself. -/
theorem Decodes_replicate (n : Nat) :
    bytewise.Decodes (List.replicate n 97) (List.replicate n 'a') := by
  induction n with
  | zero => exact bytewise.Decodes.nil
  | succ n ih =>
      rw [List.replicate_succ, List.replicate_succ]
      exact bytewise.Decodes.ascii 97 _ _ (by decide) ih

/-- `QuoteMeta` leaves a run of a byte that is not special as it is. -/
theorem QuoteMeta_replicate (n b : Nat) (h : bytewise.special b = false) :
    bytewise.QuoteMeta (List.replicate n b) = List.replicate n b := by
  induction n with
  | zero => rfl
  | succ n ih =>
      unfold bytewise.QuoteMeta at ih ⊢
      rw [List.replicate_succ]
      simp only [List.map_cons, List.flatten_cons, h, Bool.false_eq_true, if_false, ih,
        List.singleton_append]

/-- A run of one byte holds none of the bytes of a list that does not hold that byte. -/
theorem ContainsAny_replicate (n b : Nat) (chars : bytewise.GoString)
    (h : chars.contains b = false) : bytewise.ContainsAny (List.replicate n b) chars = false := by
  induction n with
  | zero => rfl
  | succ n ih =>
      rw [List.replicate_succ]
      simp only [bytewise.ContainsAny, List.any_cons, h, Bool.false_or]
      exact ih

/-- When every entry compiles, the loop of `New` returns a plugin that holds the entries
in order and one compiled expression for each. -/
theorem bytewise_compileOrigins_ok (l : List bytewise.GoString) :
    ∀ (plugin : bytewise.CORSRegex) (res : List Regexp),
      List.Forall₂ (fun raw re => bytewise.Compile (bytewise.regexPatternOf raw).1 = .ok re) l res →
      ∃ c, (bytewise.compileOrigins plugin l).1 = .ok c ∧
        c.originalPatterns = plugin.originalPatterns ++ l ∧
        c.originPatterns = plugin.originPatterns ++ res := by
  induction l with
  | nil =>
      intro plugin res h
      cases h
      exact ⟨plugin, rfl, by simp, by simp⟩
  | cons origin rest ih =>
      intro plugin res h
      cases h with
      | cons hab hrest =>
          rename_i re res1
          obtain ⟨c, h1, h2, h3⟩ := ih
            { plugin with
              originPatterns := plugin.originPatterns ++ [re]
              originalPatterns := plugin.originalPatterns ++ [origin] } res1 hrest
          refine ⟨c, ?_, by simp [h2], by simp [h3]⟩
          simp only [bytewise.compileOrigins, hab]
          exact h1

/-- When the loop of `New` fails, it is on an entry that does not compile, with the
message built from that entry. -/
theorem bytewise_compileOrigins_error (l : List bytewise.GoString) :
    ∀ (plugin : bytewise.CORSRegex) (msg : bytewise.GoString),
      (bytewise.compileOrigins plugin l).1 = .error msg →
      ∃ raw ∈ l, ∃ err, bytewise.Compile (bytewise.regexPatternOf raw).1 = .error err ∧
        msg = bytewise.ofString "invalid pattern " ++ raw ++ bytewise.ofString ": " ++ err.Error := by
  induction l with
  | nil =>
      intro plugin msg h
      simp [bytewise.compileOrigins] at h
  | cons origin rest ih =>
      intro plugin msg h
      cases hc : bytewise.Compile (bytewise.regexPatternOf origin).1 with
      | error err =>
          simp only [bytewise.compileOrigins, hc, Except.error.injEq] at h
          exact ⟨origin, by simp, err, hc, h.symm⟩
      | ok compiled =>
          simp only [bytewise.compileOrigins, hc] at h
          obtain ⟨raw, hmem, err, herr, hmsg⟩ := ih _ msg h
          exact ⟨raw, by simp [hmem], err, herr, hmsg⟩


/-- The result of `New` on byte strings is the result of its loop. -/
theorem bytewise_New_fst (next : Handler) (config : bytewise.Config)
    (name : bytewise.GoString) :
    (bytewise.New next config name).1 =
      (bytewise.compileOrigins
        { next := next, name := name, config := config, originPatterns := [],
          originalPatterns := [] }
        config.AllowOriginList).1 := by
  simp only [bytewise.New]
  split <;> rename_i heq <;> rw [heq]

/-- A list of results, one for each element that has one. -/
theorem forall2_of_forall_exists {α β : Type} (R : α → β → Prop) (l : List α)
    (h : ∀ a ∈ l, ∃ b, R a b) : ∃ res, List.Forall₂ R l res := by
  induction l with
  | nil => exact ⟨[], List.Forall₂.nil⟩
  | cons a l ih =>
      obtain ⟨b, hb⟩ := h a (by simp)
      obtain ⟨res, hres⟩ := ih (fun x hx => h x (by simp [hx]))
      exact ⟨b :: res, List.Forall₂.cons hb hres⟩


/-! ## Go strings as byte sequences: agreement with the text level -/

/-- An ASCII byte of the string stands in the text as its character. -/
theorem Decodes_mem_ascii (s : bytewise.GoString) (cs : List Char) (h : bytewise.Decodes s cs) :
    ∀ b ∈ s, b < 128 → Char.ofNat b ∈ cs := by
  induction h with
  | nil => intro b hb; simp at hb
  | ascii b0 t cs _ _ ih =>
      intro b hb hlt
      rcases List.mem_cons.mp hb with e | e
      · rw [e]; simp
      · exact List.mem_cons_of_mem _ (ih b e hlt)
  | multi seq r t cs hm _ ih =>
      intro b hb hlt
      rcases List.mem_append.mp hb with e | e
      · have := hm.2.1 b e
        omega
      · exact List.mem_cons_of_mem _ (ih b e hlt)

/-- The test for a `*` gives the same answer on the bytes and on the text. -/
theorem Contains_star_agree (s : bytewise.GoString) (cs : List Char)
    (h : bytewise.Decodes s cs) :
    bytewise.Contains s (bytewise.ofString "*") = strings.Contains ⟨cs⟩ "*" := by
  have e : bytewise.ofString "*" = [42] := by decide
  rw [bytewise.Contains, e, containsBytes_single, Contains_star]
  by_cases hm : 42 ∈ s
  · have : '*' ∈ cs := Decodes_mem_ascii s cs h 42 hm (by decide)
    simp [hm, this]
  · have : '*' ∉ cs := fun hc => hm (Decodes_ascii_mem s cs h '*' hc (by decide))
    simp [hm, this]

/-- The test for the special characters of `New` gives the same answer on the bytes and
on the text. -/
theorem ContainsAny_agree (s : bytewise.GoString) (cs : List Char)
    (h : bytewise.Decodes s cs) :
    bytewise.ContainsAny s (bytewise.ofString regexChars) = strings.ContainsAny ⟨cs⟩ regexChars := by
  have hbytes : ∀ b ∈ bytewise.ofString regexChars, b < 128 ∧ Char.ofNat b ∈ regexChars.data := by
    decide
  cases hb : bytewise.ContainsAny s (bytewise.ofString regexChars) with
  | false => exact (Decodes_no_special s cs h hb).symm
  | true =>
      simp only [bytewise.ContainsAny, List.any_eq_true] at hb
      obtain ⟨b, hbs, hbc⟩ := hb
      have hbc1 : b ∈ bytewise.ofString regexChars := by simpa using hbc
      obtain ⟨hlt, hchar⟩ := hbytes b hbc1
      exact ((ContainsAny_iff _ _).mpr ⟨Char.ofNat b, Decodes_mem_ascii s cs h b hbs hlt, hchar⟩).symm

/-- Replacement of a one byte block, byte by byte. -/
theorem replaceBytes_single (a : Nat) (new l : bytewise.GoString) :
    bytewise.replaceBytes [a] new l 0 = (l.map (fun b => if b = a then new else [b])).flatten := by
  induction l with
  | nil => simp [bytewise.replaceBytes]
  | cons c cs ih =>
      by_cases h : c = a
      · subst h
        simp [bytewise.replaceBytes, List.isPrefixOf, ih]
      · have h1 : ¬ a = c := fun e => h e.symm
        simp [bytewise.replaceBytes, List.isPrefixOf, ih, h, h1]

/-- Replacing an ASCII byte by ASCII bytes acts on the text as replacing the character
by the characters. -/
theorem Decodes_replace (a : Nat) (new : bytewise.GoString) (old1 new1 : String)
    (ha : a < 128) (hold : old1.data = [Char.ofNat a]) (hnew : bytewise.Decodes new new1.data)
    (s : bytewise.GoString) (cs : List Char) (h : bytewise.Decodes s cs) :
    bytewise.Decodes (bytewise.ReplaceAll s [a] new) (strings.ReplaceAll ⟨cs⟩ old1 new1).data := by
  rw [bytewise.ReplaceAll, replaceBytes_single, ReplaceAll_single _ old1 new1 (Char.ofNat a) hold]
  refine Decodes_map_flatten _ _ ?_ ?_ ?_ s cs h
  · intro b hb
    by_cases e : b = a
    · subst e
      simpa using hnew
    · have e1 : Char.ofNat b ≠ Char.ofNat a := by
        intro hc
        have := congrArg Char.toNat hc
        rw [char_toNat_ofNat b (by unfold Nat.isValidChar; omega),
          char_toNat_ofNat a (by unfold Nat.isValidChar; omega)] at this
        exact e this
      simp only [e, e1, if_false]
      exact bytewise.Decodes.ascii b _ _ hb bytewise.Decodes.nil
  · intro b hb
    have : b ≠ a := by omega
    simp [this]
  · intro c hc
    have : c ≠ Char.ofNat a := by
      intro e
      rw [e, char_toNat_ofNat a (by unfold Nat.isValidChar; omega)] at hc
      omega
    simp [this]

/-- For an entry that is valid UTF-8, the text `New` builds on the bytes is the encoding
of the text it builds on the characters, in each of its three branches, and the debug
line is the same. -/
theorem bytewise_regexPatternOf_agree (raw : bytewise.GoString) (text : List Char)
    (h : bytewise.Decodes raw text) :
    bytewise.Decodes (bytewise.regexPatternOf raw).1 (regexPatternOf ⟨text⟩).1.data ∧
      (bytewise.regexPatternOf raw).2 = (regexPatternOf ⟨text⟩).2 := by
  have e1 : bytewise.ofString "^" = [94] := by decide
  have e2 : bytewise.ofString "$" = [36] := by decide
  have e3 : bytewise.ofString "." = [46] := by decide
  have e4 : bytewise.ofString "*" = [42] := by decide
  have e5 : bytewise.ofString "\\." = [92, 46] := by decide
  have e6 : bytewise.ofString ".*" = [46, 42] := by decide
  have hend : bytewise.Decodes [36] ['$'] :=
    bytewise.Decodes.ascii 36 _ _ (by decide) bytewise.Decodes.nil
  have hanchor : ∀ (s : bytewise.GoString) (x : String), bytewise.Decodes s x.data →
      bytewise.Decodes (bytewise.ofString "^" ++ s ++ bytewise.ofString "$") ("^" ++ x ++ "$").data := by
    intro s x hs
    rw [e1, e2, anchored_data]
    exact bytewise.Decodes.ascii 94 _ _ (by decide) (Decodes_append _ _ _ _ hs hend)
  have hstar := Contains_star_agree raw text h
  have hany := ContainsAny_agree raw text h
  unfold bytewise.regexPatternOf regexPatternOf
  rw [hstar, hany]
  by_cases h1 : strings.Contains ⟨text⟩ "*" = true
  · simp only [h1, if_true, and_true]
    refine hanchor _ _ ?_
    rw [e3, e4, e5, e6]
    have hdot := Decodes_replace 46 [92, 46] "." "\\." (by decide) rfl
      (bytewise.Decodes.ascii 92 _ _ (by decide)
        (bytewise.Decodes.ascii 46 _ _ (by decide) bytewise.Decodes.nil)) raw text h
    exact Decodes_replace 42 [46, 42] "*" ".*" (by decide) rfl
      (bytewise.Decodes.ascii 46 _ _ (by decide)
        (bytewise.Decodes.ascii 42 _ _ (by decide) bytewise.Decodes.nil)) _ _ hdot
  · have h1f : strings.Contains ⟨text⟩ "*" = false := by simpa using h1
    by_cases h2 : strings.ContainsAny ⟨text⟩ regexChars = true
    · simp only [h1f, h2, if_true, if_false, and_true, Bool.false_eq_true]
      exact hanchor _ ⟨text⟩ h
    · have h2f : strings.ContainsAny ⟨text⟩ regexChars = false := by simpa using h2
      simp only [h1f, h2f, if_false, and_true, Bool.false_eq_true]
      exact hanchor _ _ (Decodes_QuoteMeta raw text h)

/-- For an entry that is valid UTF-8, `regexp.Compile` on the bytes of the text built for
it answers as `regexp.Compile` on the characters does, with the limit on the runes
applied to the expression. -/
theorem bytewise_Compile_agree (raw : bytewise.GoString) (text : List Char)
    (h : bytewise.Decodes raw text) :
    bytewise.Compile (bytewise.regexPatternOf raw).1 =
      match Compile (regexPatternOf ⟨text⟩).1 with
      | .error e => .error ⟨e.Code, bytewise.ofString e.Expr⟩
      | .ok re =>
          if bytewise.maxRunes < bytewise.numRunes re then
            .error ⟨.ErrLarge, (bytewise.regexPatternOf raw).1⟩
          else .ok re := by
  have hrun := decodeRunes_complete _ _ (bytewise_regexPatternOf_agree raw text h).1 _ (le_refl _)
  unfold bytewise.Compile
  rw [hrun]


/-- `New` on a configuration whose only entry is a run of more than `maxRunes` letters
`a`: the entry holds no special character, the text built for it is the run between the
anchors, `regexp.Compile` rejects that text as too large, and `New` returns the error. -/
theorem New_on_long_run (n : Nat) (hn : bytewise.maxRunes < n) (next : Handler)
    (config : bytewise.Config) (name : bytewise.GoString)
    (hcfg : config.AllowOriginList = [List.replicate n 97]) :
    bytewise.ContainsAny (List.replicate n 97)
        (bytewise.ofString "*[]\x7b\x7d()+?|\\^$") = false ∧
      (bytewise.regexPatternOf (List.replicate n 97)).1 = 94 :: (List.replicate n 97 ++ [36]) ∧
      bytewise.Compile (94 :: (List.replicate n 97 ++ [36])) =
        .error ⟨.ErrLarge, 94 :: (List.replicate n 97 ++ [36])⟩ ∧
      (bytewise.New next config name).1 =
        .error (bytewise.ofString "invalid pattern " ++ List.replicate n 97 ++
          bytewise.ofString ": " ++ bytewise.ofString "error parsing regexp: " ++
          bytewise.ofString "expression too large" ++ bytewise.ofString ": `" ++
          94 :: (List.replicate n 97 ++ [36]) ++ bytewise.ofString "`") := by
  have hdec : bytewise.decodeRunes (List.replicate n 97).length (List.replicate n 97) =
      .ok (List.replicate n 'a') :=
    decodeRunes_complete _ _ (Decodes_replicate _) _ (le_refl _)
  have hno : bytewise.ContainsAny (List.replicate n 97) (bytewise.ofString regexChars) = false :=
    ContainsAny_replicate _ 97 _ (by decide)
  have hpat : (bytewise.regexPatternOf (List.replicate n 97)).1 =
      94 :: (List.replicate n 97 ++ [36]) := by
    rw [bytewise_regexPatternOf_exact _ hno, QuoteMeta_replicate _ 97 (by decide)]
  obtain ⟨hc, -⟩ := bytewise_exact_compile _ _ hdec hno
  rw [if_pos (by rw [List.length_replicate]; exact hn), hpat] at hc
  refine ⟨ContainsAny_replicate _ 97 _ (by decide), hpat, hc, ?_⟩
  rw [bytewise_New_fst, hcfg]
  simp only [bytewise.compileOrigins, hpat, hc, bytewise.Error.Error, regexp.ErrorCode.text,
    List.append_assoc]


/-! ## Properties checked against the specification -/

/-- C1: for a plugin returned by `New` and a non-empty origin, when the first compiled
entry whose matcher accepts the origin has a raw pattern containing `*` or one of the
characters `[]{}()+?|\^$`, `isOriginAllowed` returns the origin itself. -/
theorem C1_wildcard_or_regex_match_echoes_origin (next : Handler) (config : Config)
    (name : String) (c : CORSRegex) (origin raw : String) (re : Regexp) (i : Nat)
    (hNew : (New next config name).1 = .ok c)
    (hne : origin ≠ "")
    (hraw : config.AllowOriginList[i]? = some raw)
    (hre : c.originPatterns[i]? = some re)
    (hmatch : re.MatchString origin = true)
    (hfirst : ∀ j r, j < i → c.originPatterns[j]? = some r → r.MatchString origin = false)
    (hmode : strings.Contains raw "*" = true ∨ strings.ContainsAny raw regexCharsAtMatch = true) :
    (c.isOriginAllowed origin).map Prod.fst = some origin := by
  obtain ⟨hraw1, -⟩ := New_entry next config name c hNew i raw re hraw hre
  have hcond : (strings.Contains raw "*" || strings.ContainsAny raw regexCharsAtMatch) = true := by
    rcases hmode with h | h <;> simp [h]
  unfold CORSRegex.isOriginAllowed
  rw [if_neg hne, scanPatterns_first c origin _ i re hre hmatch hfirst]
  simp [CORSRegex.scanPatterns, hmatch, hraw1, hcond]

/-- C1 at the pattern `https://*.example.com` and the origin `https://api.example.com`. -/
theorem C1_witness :
    ∃ c : CORSRegex,
      (New (fun rw _ => rw) { CreateConfig with AllowOriginList := ["https://*.example.com"] } "cors").1
        = .ok c ∧
      (c.isOriginAllowed "https://api.example.com").map Prod.fst = some "https://api.example.com" :=
  ⟨_, rfl,
    C1_wildcard_or_regex_match_echoes_origin (fun rw _ => rw)
      { CreateConfig with AllowOriginList := ["https://*.example.com"] } "cors" _
      "https://api.example.com" "https://*.example.com" _ 0 rfl (by decide) rfl rfl (by decide)
      (fun j r hj => absurd hj (Nat.not_lt_zero j)) (Or.inl (by decide))⟩

/-- C7: for every plugin and every non-empty origin, the answer of `isOriginAllowed` is
read off the entry with the smallest index whose matcher accepts the origin, and a
plugin with the same entries up to that index, whatever follows them, answers the
same. -/
theorem C7_first_match_wins (c c2 : CORSRegex) (origin : String) (i : Nat) (re : Regexp)
    (hne : origin ≠ "")
    (hre : c.originPatterns[i]? = some re)
    (hmatch : re.MatchString origin = true)
    (hfirst : ∀ j r, j < i → c.originPatterns[j]? = some r → r.MatchString origin = false)
    (hsame1 : c2.originPatterns.take (i + 1) = c.originPatterns.take (i + 1))
    (hsame2 : c2.originalPatterns.take (i + 1) = c.originalPatterns.take (i + 1)) :
    (c.isOriginAllowed origin).map Prod.fst =
        (c.originalPatterns[i]?).map (fun raw =>
          if strings.Contains raw "*" || strings.ContainsAny raw regexCharsAtMatch then origin
          else raw) ∧
      (c2.isOriginAllowed origin).map Prod.fst = (c.isOriginAllowed origin).map Prod.fst := by
  have h1 := isOriginAllowed_first c origin i re hne hre hmatch hfirst
  have hidx : ∀ j, j ≤ i → c2.originPatterns[j]? = c.originPatterns[j]? := by
    intro j hj
    have e1 := List.getElem?_take_of_lt (l := c2.originPatterns) (show j < i + 1 by omega)
    have e2 := List.getElem?_take_of_lt (l := c.originPatterns) (show j < i + 1 by omega)
    rw [← e1, ← e2, hsame1]
  have hraw : c2.originalPatterns[i]? = c.originalPatterns[i]? := by
    have e1 := List.getElem?_take_of_lt (l := c2.originalPatterns) (show i < i + 1 by omega)
    have e2 := List.getElem?_take_of_lt (l := c.originalPatterns) (show i < i + 1 by omega)
    rw [← e1, ← e2, hsame2]
  have h2 := isOriginAllowed_first c2 origin i re hne (by rw [hidx i (le_refl i)]; exact hre) hmatch
    (fun j r hj hjr => hfirst j r hj (by rw [← hidx j (by omega)]; exact hjr))
  exact ⟨h1, by rw [h2, h1, hraw]⟩

/-- C7 at the patterns `https://a.com`, `https://*.com` and the origin `https://a.com`:
the exact entry answers, also when the second entry is another one. -/
theorem C7_witness :
    ∃ c c2 : CORSRegex,
      (New (fun rw _ => rw)
        { CreateConfig with AllowOriginList := ["https://a.com", "https://*.com"] } "cors").1 = .ok c ∧
      (New (fun rw _ => rw)
        { CreateConfig with AllowOriginList := ["https://a.com", "https://b.org"] } "cors").1 = .ok c2 ∧
      (c.isOriginAllowed "https://a.com").map Prod.fst = some "https://a.com" ∧
      (c2.isOriginAllowed "https://a.com").map Prod.fst = (c.isOriginAllowed "https://a.com").map Prod.fst :=
by
  refine ⟨_, _, rfl, rfl, by decide, ?_⟩
  refine (C7_first_match_wins _ _ "https://a.com" 0 ?re ?hne ?hre ?hmatch ?hfirst ?hs1 ?hs2).2
  case hne => decide
  case hre => exact rfl
  case hmatch => decide
  case hfirst => exact fun j r hj => absurd hj (Nat.not_lt_zero j)
  case hs1 => rfl
  case hs2 => rfl

/-- C8: for every plugin, `isOriginAllowed` answers the empty string for the empty
origin, and `ServeHTTP` on a request without an `Origin` header ends without a panic
and leaves the entry of `Access-Control-Allow-Origin` as it was. -/
theorem C8_empty_origin_never_matches (c : CORSRegex) (rw : ResponseWriter) (req : Request)
    (hreq : req.Header.lookup "Origin" = none) :
    c.isOriginAllowed "" = some ("", []) ∧
      ∃ out log, c.ServeHTTP rw req = some (out, log) ∧
        out.rw.header.lookup "Access-Control-Allow-Origin" =
          rw.header.lookup "Access-Control-Allow-Origin" := by
  have hget : req.Header.Get "Origin" = "" := by
    unfold Header.Get
    rw [hreq]
  have h0 : c.isOriginAllowed "" = some ("", []) := by simp [CORSRegex.isOriginAllowed]
  refine ⟨h0, ?_⟩
  obtain ⟨out, log, h1, h2⟩ := ServeHTTP_allow_origin c rw req "" [] (by rw [hget]; exact h0)
  exact ⟨out, log, h1, by simpa using h2⟩

/-- C8 at the pattern `*`, whose matcher accepts the empty string, and a `GET` request
without headers: the response has no `Access-Control-Allow-Origin` entry. -/
theorem C8_witness :
    ∃ (c : CORSRegex) (re : Regexp),
      (New (fun rw _ => rw) { CreateConfig with AllowOriginList := ["*"] } "cors").1 = .ok c ∧
      c.originPatterns[0]? = some re ∧ re.MatchString "" = true ∧
      c.isOriginAllowed "" = some ("", []) ∧
      ∃ out log, c.ServeHTTP ⟨[], none, ""⟩ ⟨"GET", "/", []⟩ = some (out, log) ∧
        out.rw.header.lookup "Access-Control-Allow-Origin" = none :=
  ⟨_, _, rfl, rfl, by decide,
    (C8_empty_origin_never_matches _ ⟨[], none, ""⟩ ⟨"GET", "/", []⟩ rfl).1,
    (C8_empty_origin_never_matches _ ⟨[], none, ""⟩ ⟨"GET", "/", []⟩ rfl).2⟩

/-- C4 on the code: `New` compiles the pattern `https://a.com|https://b.com`, which has a
`|` and no `*`, into a matcher that accepts `https://a.com.evil.net`, although the raw
pattern read as a regular expression does not match that origin as a whole (it matches
a proper beginning of it only), and `isOriginAllowed` then returns that origin. -/
theorem C4_alternation_escapes_the_anchors :
    ∃ (c : CORSRegex) (re rawRe : Regexp),
      (New (fun rw _ => rw)
        { CreateConfig with AllowOriginList := ["https://a.com|https://b.com"] } "cors").1 = .ok c ∧
      c.originPatterns[0]? = some re ∧
      Compile "https://a.com|https://b.com" = .ok rawRe ∧
      rawRe.matchesWhole "https://a.com.evil.net" = false ∧
      rawRe.matchesWhole "https://a.com" = true ∧
      re.MatchString "https://a.com.evil.net" = true ∧
      (c.isOriginAllowed "https://a.com.evil.net").map Prod.fst = some "https://a.com.evil.net" :=
  ⟨_, _, _, rfl, rfl, rfl, by decide, by decide, by decide, by decide⟩

/-- C5 on the code: for the list of `TestIsOriginAllowed`, `New` rewrites the third
pattern `https://.*\.test\.com` as a wildcard; its matcher rejects
`https://sub.test.com`, which the regular expression `^https://.*\.test\.com$` accepts,
and `isOriginAllowed` returns the empty string for that origin. -/
theorem C5_regex_with_star_is_rewritten :
    ∃ (c : CORSRegex) (re intended : Regexp),
      (New (fun rw _ => rw)
        { CreateConfig with AllowOriginList :=
            ["https://*.example.com", "https://api.example.org", "https://.*\\.test\\.com"] } "cors").1
        = .ok c ∧
      c.originPatterns[2]? = some re ∧
      (regexPatternOf "https://.*\\.test\\.com").1 = "^https://\\..*\\\\.test\\\\.com$" ∧
      Compile "^https://.*\\.test\\.com$" = .ok intended ∧
      intended.MatchString "https://sub.test.com" = true ∧
      re.MatchString "https://sub.test.com" = false ∧
      (c.isOriginAllowed "https://sub.test.com").map Prod.fst = some "" :=
  ⟨_, _, _, rfl, rfl, by decide, rfl, by decide, by decide, by decide⟩

/-- C9: for a plugin returned by `New` and every request, `ServeHTTP` ends without a
panic.  When the `Origin` of the request is non-empty and some compiled matcher accepts
it, the response is left with a non-empty value under `Access-Control-Allow-Origin`;
otherwise the entry of that header is left as it was before the call. -/
theorem C9_allow_origin_set_iff_match (next : Handler) (config : Config) (name : String)
    (c : CORSRegex) (rw : ResponseWriter) (req : Request)
    (hNew : (New next config name).1 = .ok c) :
    ∃ out log, c.ServeHTTP rw req = some (out, log) ∧
      ((req.Header.Get "Origin" ≠ "" ∧
          ∃ re ∈ c.originPatterns, re.MatchString (req.Header.Get "Origin") = true) →
        ∃ v, v ≠ "" ∧ out.rw.header.lookup "Access-Control-Allow-Origin" = some [v]) ∧
      (¬ (req.Header.Get "Origin" ≠ "" ∧
          ∃ re ∈ c.originPatterns, re.MatchString (req.Header.Get "Origin") = true) →
        out.rw.header.lookup "Access-Control-Allow-Origin" =
          rw.header.lookup "Access-Control-Allow-Origin") := by
  obtain ⟨v, log1, hv, hiff⟩ := isOriginAllowed_of_New next config name c hNew (req.Header.Get "Origin")
  obtain ⟨out, log, h1, h2⟩ := ServeHTTP_allow_origin c rw req v log1 hv
  refine ⟨out, log, h1, ?_, ?_⟩
  · intro hc
    have hve : v ≠ "" := hiff.mpr hc
    exact ⟨v, hve, by rw [h2, if_pos hve]⟩
  · intro hc
    have hve : ¬ v ≠ "" := fun h => hc (hiff.mp h)
    rw [h2, if_neg hve]

/-- C9 at the pattern `https://*.example.com` and a `GET` request with the origin
`https://malicious.com`, which the matcher rejects: the response, which had no
`Access-Control-Allow-Origin` entry, has none afterwards. -/
theorem C9_witness :
    ∃ (c : CORSRegex) (out : Outcome) (log : List LogRecord),
      (New (fun rw _ => rw) { CreateConfig with AllowOriginList := ["https://*.example.com"] } "cors").1
        = .ok c ∧
      c.ServeHTTP ⟨[], none, ""⟩ ⟨"GET", "/test", [("Origin", ["https://malicious.com"])]⟩
        = some (out, log) ∧
      out.rw.header.lookup "Access-Control-Allow-Origin" = none := by
  obtain ⟨out, log, h1, -, h3⟩ := C9_allow_origin_set_iff_match (fun rw _ => rw)
    { CreateConfig with AllowOriginList := ["https://*.example.com"] } "cors" _ ⟨[], none, ""⟩
    ⟨"GET", "/test", [("Origin", ["https://malicious.com"])]⟩ rfl
  exact ⟨_, out, log, rfl, h1, h3 (by decide)⟩

/-- C10: `New` fails if and only if some configured origin yields a regular expression
that does not compile; it then returns no plugin but the error whose message is
`invalid pattern `, the raw text of the first such origin, `: ` and the compile error,
whatever the origins after that one are. -/
theorem C10_New_fails_on_first_bad_pattern (next : Handler) (config : Config) (name : String) :
    ((∃ msg, (New next config name).1 = .error msg) ↔
      ∃ raw ∈ config.AllowOriginList, ∃ err, Compile (regexPatternOf raw).1 = .error err) ∧
    ∀ msg, (New next config name).1 = .error msg ↔
      ∃ pre raw post err, config.AllowOriginList = pre ++ raw :: post ∧
        (∀ r ∈ pre, ∃ re, Compile (regexPatternOf r).1 = .ok re) ∧
        Compile (regexPatternOf raw).1 = .error err ∧
        msg = "invalid pattern " ++ raw ++ ": " ++ err.Error := by
  have hmain : ∀ msg, (New next config name).1 = .error msg ↔
      ∃ pre raw post err, config.AllowOriginList = pre ++ raw :: post ∧
        (∀ r ∈ pre, ∃ re, Compile (regexPatternOf r).1 = .ok re) ∧
        Compile (regexPatternOf raw).1 = .error err ∧
        msg = "invalid pattern " ++ raw ++ ": " ++ err.Error := by
    intro msg
    rw [New_fst]
    exact compileOrigins_error _ _ _
  refine ⟨⟨?_, ?_⟩, hmain⟩
  · rintro ⟨msg, hmsg⟩
    obtain ⟨pre, raw, post, err, h1, -, h3, -⟩ := (hmain msg).mp hmsg
    exact ⟨raw, by simp [h1], err, h3⟩
  · intro h
    obtain ⟨pre, raw, post, err, h1, h2, h3⟩ := exists_first_failure _ h
    exact ⟨_, (hmain _).mpr ⟨pre, raw, post, err, h1, h2, h3, rfl⟩⟩

/-- C10 at the list `https://[invalid-regex.example.com`: `New` fails, with the message
built from that pattern and the error of the parser. -/
theorem C10_check :
    (New (fun rw _ => rw)
      { CreateConfig with AllowOriginList := ["https://[invalid-regex.example.com"] } "cors").1 =
      .error ("invalid pattern https://[invalid-regex.example.com: " ++
        "error parsing regexp: missing closing ]: `[invalid-regex.example.com$`") := by
  rfl

/-- C11: for a plugin returned by `New` and every request whose method is `OPTIONS`,
whatever its origin, `ServeHTTP` ends by answering itself, without calling the next
handler: on the response with the CORS headers applied it calls `WriteHeader(200)`,
which fixes the status 200 when none was written before, and it leaves the body as it
was. -/
theorem C11_options_answered_with_200 (next : Handler) (config : Config) (name : String)
    (c : CORSRegex) (rw : ResponseWriter) (req : Request)
    (hNew : (New next config name).1 = .ok c)
    (hm : req.Method = "OPTIONS") :
    ∃ rw1 log, c.ServeHTTP rw req = some (Outcome.answered rw1, log) ∧
      (∃ allowed, rw1 = (staticHeaders c.config (originHeader rw allowed)).WriteHeader StatusOK) ∧
      rw1.body = rw.body ∧
      (rw.status = none → rw1.status = some 200) := by
  obtain ⟨v, log1, hv, -⟩ := isOriginAllowed_of_New next config name c hNew (req.Header.Get "Origin")
  obtain ⟨log, hs⟩ := ServeHTTP_of_answer c rw req v log1 hv
  rw [if_pos hm] at hs
  refine ⟨_, log, hs, ⟨v, rfl⟩, ?_, ?_⟩
  · have hb := (staticHeaders_status_body c.config (originHeader rw v)).2
    have hb2 := (originHeader_status_body rw v).2
    unfold ResponseWriter.WriteHeader
    cases hst : (staticHeaders c.config (originHeader rw v)).status with
    | none => simp only [hb, hb2]
    | some _ => simp only [hb, hb2]
  · intro hnone
    have h1 := (staticHeaders_status_body c.config (originHeader rw v)).1
    have h2 := (originHeader_status_body rw v).1
    have h3 : (staticHeaders c.config (originHeader rw v)).status = none := by
      rw [h1, h2, hnone]
    unfold ResponseWriter.WriteHeader
    rw [h3]
    rfl

/-- C11 at the pattern `https://*.example.com` and an `OPTIONS` request from the origin
`https://malicious.com`, which the pattern does not match: answered with status 200 and
an empty body. -/
theorem C11_witness :
    ∃ (c : CORSRegex) (rw1 : ResponseWriter) (log : List LogRecord),
      (New (fun rw _ => rw) { CreateConfig with AllowOriginList := ["https://*.example.com"] } "cors").1
        = .ok c ∧
      c.ServeHTTP ⟨[], none, ""⟩ ⟨"OPTIONS", "/test", [("Origin", ["https://malicious.com"])]⟩
        = some (Outcome.answered rw1, log) ∧
      rw1.status = some 200 ∧ rw1.body = "" := by
  obtain ⟨rw1, log, h1, -, hbody, hstatus⟩ := C11_options_answered_with_200 (fun rw _ => rw)
    { CreateConfig with AllowOriginList := ["https://*.example.com"] } "cors" _ ⟨[], none, ""⟩
    ⟨"OPTIONS", "/test", [("Origin", ["https://malicious.com"])]⟩ rfl rfl
  exact ⟨_, rw1, log, rfl, h1, hstatus rfl, hbody⟩

/-- C12: for a plugin returned by `New` and every request whose method is not `OPTIONS`,
whatever its origin, `ServeHTTP` ends with the one call of the next handler, on the
request as it was received, and has itself written neither a status nor a body. -/
theorem C12_other_methods_forwarded (next : Handler) (config : Config) (name : String)
    (c : CORSRegex) (rw : ResponseWriter) (req : Request)
    (hNew : (New next config name).1 = .ok c)
    (hm : req.Method ≠ "OPTIONS") :
    ∃ rw1 log, c.ServeHTTP rw req = some (Outcome.forwarded rw1 req, log) ∧
      rw1.status = rw.status ∧ rw1.body = rw.body := by
  obtain ⟨v, log1, hv, -⟩ := isOriginAllowed_of_New next config name c hNew (req.Header.Get "Origin")
  obtain ⟨log, hs⟩ := ServeHTTP_of_answer c rw req v log1 hv
  rw [if_neg hm] at hs
  refine ⟨_, log, hs, ?_, ?_⟩
  · rw [(staticHeaders_status_body c.config (originHeader rw v)).1, (originHeader_status_body rw v).1]
  · rw [(staticHeaders_status_body c.config (originHeader rw v)).2, (originHeader_status_body rw v).2]

/-- C12 at the pattern `https://example.com` and a `GET` request from the origin
`https://evil.com`: the request is handed on, with no status and no body written. -/
theorem C12_witness :
    ∃ (c : CORSRegex) (rw1 : ResponseWriter) (log : List LogRecord),
      (New (fun rw _ => rw) { CreateConfig with AllowOriginList := ["https://example.com"] } "cors").1
        = .ok c ∧
      c.ServeHTTP ⟨[], none, ""⟩ ⟨"GET", "/", [("Origin", ["https://evil.com"])]⟩
        = some (Outcome.forwarded rw1 ⟨"GET", "/", [("Origin", ["https://evil.com"])]⟩, log) ∧
      rw1.status = none ∧ rw1.body = "" := by
  obtain ⟨rw1, log, h1, hstatus, hbody⟩ := C12_other_methods_forwarded (fun rw _ => rw)
    { CreateConfig with AllowOriginList := ["https://example.com"] } "cors" _ ⟨[], none, ""⟩
    ⟨"GET", "/", [("Origin", ["https://evil.com"])]⟩ rfl (by decide)
  exact ⟨_, rw1, log, rfl, h1, hstatus, hbody⟩

/-- C13: for a plugin returned by `New` and every request, `ServeHTTP` ends without a
panic and, for each of the lists `AllowMethods`, `AllowHeaders` and `ExposeHeaders`,
leaves under the corresponding header the single value `strings.Join(list, ", ")` when
the list is not empty, and leaves the entry of that header as it was when the list is
empty; `strings.Join` writes the elements in order with `, ` between them. -/
theorem C13_list_headers_joined (next : Handler) (config : Config) (name : String)
    (c : CORSRegex) (rw : ResponseWriter) (req : Request)
    (hNew : (New next config name).1 = .ok c) :
    ∃ out log, c.ServeHTTP rw req = some (out, log) ∧
      out.rw.header.lookup "Access-Control-Allow-Methods" =
        (if config.AllowMethods ≠ [] then some [strings.Join config.AllowMethods ", "]
         else rw.header.lookup "Access-Control-Allow-Methods") ∧
      out.rw.header.lookup "Access-Control-Allow-Headers" =
        (if config.AllowHeaders ≠ [] then some [strings.Join config.AllowHeaders ", "]
         else rw.header.lookup "Access-Control-Allow-Headers") ∧
      out.rw.header.lookup "Access-Control-Expose-Headers" =
        (if config.ExposeHeaders ≠ [] then some [strings.Join config.ExposeHeaders ", "]
         else rw.header.lookup "Access-Control-Expose-Headers") ∧
      ∀ l : List String,
        (strings.Join l ", ").data = List.intercalate [',', ' '] (l.map String.data) := by
  obtain ⟨out, log, allowed, hs, hh⟩ := ServeHTTP_headers_of_New next config name c rw req hNew
  refine ⟨out, log, hs, ?_, ?_, ?_, fun l => Join_data l ", "⟩
  · rw [hh, staticHeaders_lookup, originHeader_lookup]
    simp [List.length_pos]
  · rw [hh, staticHeaders_lookup, originHeader_lookup]
    simp [List.length_pos]
  · rw [hh, staticHeaders_lookup, originHeader_lookup]
    simp [List.length_pos]

/-- C13 at `AllowMethods = [GET, POST]` and empty `AllowHeaders`: the methods header is
`GET, POST` and there is no `Access-Control-Allow-Headers` entry. -/
theorem C13_witness :
    ∃ (c : CORSRegex) (out : Outcome) (log : List LogRecord),
      (New (fun rw _ => rw)
        { CreateConfig with
          AllowOriginList := ["https://*.example.com"], AllowMethods := ["GET", "POST"],
          AllowHeaders := [] } "cors").1 = .ok c ∧
      c.ServeHTTP ⟨[], none, ""⟩ ⟨"GET", "/test", [("Origin", ["https://api.example.com"])]⟩
        = some (out, log) ∧
      out.rw.header.lookup "Access-Control-Allow-Methods" = some ["GET, POST"] ∧
      out.rw.header.lookup "Access-Control-Allow-Headers" = none := by
  obtain ⟨out, log, h1, h2, h3, -, -⟩ := C13_list_headers_joined (fun rw _ => rw)
    { CreateConfig with
      AllowOriginList := ["https://*.example.com"], AllowMethods := ["GET", "POST"],
      AllowHeaders := [] } "cors" _ ⟨[], none, ""⟩
    ⟨"GET", "/test", [("Origin", ["https://api.example.com"])]⟩ rfl
  exact ⟨_, out, log, rfl, h1, h2, h3⟩

/-- C14: for a plugin returned by `New` and every request, `ServeHTTP` ends without a
panic and leaves the single value `true` under `Access-Control-Allow-Credentials` when
`AllowCredentials` is set, and leaves the entry of that header as it was when it is
not. -/
theorem C14_credentials_header (next : Handler) (config : Config) (name : String)
    (c : CORSRegex) (rw : ResponseWriter) (req : Request)
    (hNew : (New next config name).1 = .ok c) :
    ∃ out log, c.ServeHTTP rw req = some (out, log) ∧
      out.rw.header.lookup "Access-Control-Allow-Credentials" =
        (if config.AllowCredentials = true then some ["true"]
         else rw.header.lookup "Access-Control-Allow-Credentials") := by
  obtain ⟨out, log, allowed, hs, hh⟩ := ServeHTTP_headers_of_New next config name c rw req hNew
  refine ⟨out, log, hs, ?_⟩
  rw [hh, staticHeaders_lookup, originHeader_lookup]
  simp

/-- C14 at `AllowCredentials = true`: the header holds `true`. -/
theorem C14_witness :
    ∃ (c : CORSRegex) (out : Outcome) (log : List LogRecord),
      (New (fun rw _ => rw)
        { CreateConfig with AllowOriginList := ["https://example.com"], AllowCredentials := true }
        "cors").1 = .ok c ∧
      c.ServeHTTP ⟨[], none, ""⟩ ⟨"GET", "/", [("Origin", ["https://example.com"])]⟩
        = some (out, log) ∧
      out.rw.header.lookup "Access-Control-Allow-Credentials" = some ["true"] := by
  obtain ⟨out, log, h1, h2⟩ := C14_credentials_header (fun rw _ => rw)
    { CreateConfig with AllowOriginList := ["https://example.com"], AllowCredentials := true }
    "cors" _ ⟨[], none, ""⟩ ⟨"GET", "/", [("Origin", ["https://example.com"])]⟩ rfl
  exact ⟨_, out, log, rfl, h1, h2⟩

/-- C15: for a plugin returned by `New` and every request, `ServeHTTP` ends without a
panic and leaves the single value `fmt.Sprintf("%d", MaxAge)` under
`Access-Control-Max-Age` when `MaxAge` is positive, and leaves the entry of that header
as it was when `MaxAge` is zero or negative; for a positive `MaxAge` that value is a
string of decimal digits without a leading zero that denotes `MaxAge`. -/
theorem C15_max_age_header (next : Handler) (config : Config) (name : String)
    (c : CORSRegex) (rw : ResponseWriter) (req : Request)
    (hNew : (New next config name).1 = .ok c) :
    ∃ out log, c.ServeHTTP rw req = some (out, log) ∧
      out.rw.header.lookup "Access-Control-Max-Age" =
        (if config.MaxAge > 0 then some [fmtD config.MaxAge]
         else rw.header.lookup "Access-Control-Max-Age") ∧
      (config.MaxAge > 0 →
        (∀ ch ∈ (fmtD config.MaxAge).data, ch.isDigit = true) ∧
        (fmtD config.MaxAge).data.head? ≠ some '0' ∧
        (decimalValue (fmtD config.MaxAge).data : Int) = config.MaxAge) := by
  obtain ⟨out, log, allowed, hs, hh⟩ := ServeHTTP_headers_of_New next config name c rw req hNew
  refine ⟨out, log, hs, ?_, fun hpos => fmtD_spec config.MaxAge hpos⟩
  rw [hh, staticHeaders_lookup, originHeader_lookup]
  simp

/-- C15 at `MaxAge = 3600`: the header holds `3600`. -/
theorem C15_witness :
    ∃ (c : CORSRegex) (out : Outcome) (log : List LogRecord),
      (New (fun rw _ => rw)
        { CreateConfig with AllowOriginList := ["https://example.com"], MaxAge := 3600 }
        "cors").1 = .ok c ∧
      c.ServeHTTP ⟨[], none, ""⟩ ⟨"GET", "/", [("Origin", ["https://example.com"])]⟩
        = some (out, log) ∧
      out.rw.header.lookup "Access-Control-Max-Age" = some ["3600"] := by
  obtain ⟨out, log, h1, h2, -⟩ := C15_max_age_header (fun rw _ => rw)
    { CreateConfig with AllowOriginList := ["https://example.com"], MaxAge := 3600 }
    "cors" _ ⟨[], none, ""⟩ ⟨"GET", "/", [("Origin", ["https://example.com"])]⟩ rfl
  exact ⟨_, out, log, rfl, h1, h2⟩


/-- C16: `CreateConfig` returns a configuration with `AllowOriginList` empty,
`AllowMethods` GET, POST, PUT, DELETE, OPTIONS, `AllowHeaders` Origin, Content-Type,
Accept, Authorization, `ExposeHeaders` empty, `AllowCredentials` false, `MaxAge` 86400
and `Debug` false. -/
theorem C16_CreateConfig_defaults :
    CreateConfig =
      { AllowOriginList := []
        AllowMethods := ["GET", "POST", "PUT", "DELETE", "OPTIONS"]
        AllowHeaders := ["Origin", "Content-Type", "Accept", "Authorization"]
        ExposeHeaders := []
        AllowCredentials := false
        MaxAge := 86400
        Debug := false } ∧
      CreateConfig.AllowOriginList = [] ∧
      CreateConfig.AllowMethods = ["GET", "POST", "PUT", "DELETE", "OPTIONS"] ∧
      CreateConfig.AllowHeaders = ["Origin", "Content-Type", "Accept", "Authorization"] ∧
      CreateConfig.ExposeHeaders = [] ∧
      CreateConfig.AllowCredentials = false ∧
      CreateConfig.MaxAge = 86400 ∧
      CreateConfig.Debug = false :=
  ⟨rfl, rfl, rfl, rfl, rfl, rfl, rfl, rfl⟩

/-- C17: in the variant of `src/src`, for every plugin returned by `New` and every
non-empty origin, each matcher of the plugin is the one compiled from the configured
entry at the same index, `isOriginAllowed` returns the configured string of the entry
with the smallest index whose matcher accepts the origin, and it returns the empty
string when no matcher accepts the origin. -/
theorem C17_variant_returns_the_pattern (next : Handler) (config : variant.Config)
    (name : String) (c : variant.CORSRegex) (origin : String)
    (hNew : (variant.New next config name).1 = .ok c) (hne : origin ≠ "") :
    List.Forall₂ (fun raw re => Compile (variant.regexPatternOf raw).1 = .ok re)
        config.AllowOriginList c.originPatterns ∧
      (∀ (i : Nat) (re : Regexp), c.originPatterns[i]? = some re →
        re.MatchString origin = true →
        (∀ (j : Nat) (r : Regexp), j < i → c.originPatterns[j]? = some r →
          r.MatchString origin = false) →
        ∃ raw, config.AllowOriginList[i]? = some raw ∧ c.isOriginAllowed origin = some raw) ∧
      ((∀ re ∈ c.originPatterns, re.MatchString origin = false) →
        c.isOriginAllowed origin = some "") := by
  obtain ⟨h1, h2, -⟩ := variant_New_ok next config name c hNew
  refine ⟨h2, ?_, ?_⟩
  · intro i re hre hmatch hfirst
    have hlen := h2.length_eq
    have hi : i < c.originPatterns.length := by
      by_contra hge
      rw [List.getElem?_eq_none (by omega)] at hre
      cases hre
    refine ⟨config.AllowOriginList[i], List.getElem?_eq_getElem (by omega), ?_⟩
    unfold variant.CORSRegex.isOriginAllowed
    rw [if_neg hne, variant_scanPatterns_first c origin _ i re hre hmatch hfirst, h1]
    exact List.getElem?_eq_getElem (by omega)
  · intro hnone
    unfold variant.CORSRegex.isOriginAllowed
    rw [if_neg hne]
    exact variant_scanPatterns_none c origin _ hnone 0

/-- C17 at the pattern `https://*.example.com`: the origin `https://sub.example.com`
gives the pattern text and the origin `https://example.com` gives the empty string. -/
theorem C17_witness :
    ∃ c : variant.CORSRegex,
      (variant.New (fun rw _ => rw)
        { variant.CreateConfig with AllowOriginList := ["https://*.example.com"] } "cors").1
        = .ok c ∧
      c.isOriginAllowed "https://sub.example.com" = some "https://*.example.com" ∧
      c.isOriginAllowed "https://example.com" = some "" := by
  refine ⟨_, rfl, ?_, ?_⟩
  · obtain ⟨raw, hraw, hans⟩ := (C17_variant_returns_the_pattern (fun rw _ => rw)
      { variant.CreateConfig with AllowOriginList := ["https://*.example.com"] } "cors" _
      "https://sub.example.com" rfl (by decide)).2.1 0 _ rfl (by decide)
      (fun j r hj => absurd hj (Nat.not_lt_zero j))
    have e : raw = "https://*.example.com" := by
      have := hraw
      simp at this
      exact this.symm
    rw [hans, e]
  · decide


/-- C19: for every raw string, the expression text and debug line `New` builds are those
of the branch `classify` names; the test `isOriginAllowed` applies at a matching entry
(a `*`, or one of `[ ] { } ( ) + ? | \ ^ $`) is true exactly when that branch is the
wildcard or the regular expression branch, and false exactly when it is the exact
branch, whose text is `^`, `regexp.QuoteMeta` of the string, `$`; and at a matching
entry the loop of `isOriginAllowed` answers the raw string in the exact branch and the
origin in the other two. -/
theorem C19_match_time_test_agrees_with_mode (raw : String) :
    (regexPatternOf raw =
        match classify raw with
        | .WILDCARD =>
            ("^" ++ strings.ReplaceAll (strings.ReplaceAll raw "." "\\.") "*" ".*" ++ "$",
              "Origin pattern converted wildcard origin=%q regex=%q")
        | .REGEX => ("^" ++ raw ++ "$", "Origin pattern treated as regex origin=%q regex=%q")
        | .EXACT =>
            ("^" ++ regexp.QuoteMeta raw ++ "$", "Origin pattern exact match origin=%q regex=%q")) ∧
      ((strings.Contains raw "*" || strings.ContainsAny raw regexCharsAtMatch) = true ↔
        classify raw = .WILDCARD ∨ classify raw = .REGEX) ∧
      ((strings.Contains raw "*" || strings.ContainsAny raw regexCharsAtMatch) = false ↔
        classify raw = .EXACT) ∧
      (classify raw = .EXACT → (regexPatternOf raw).1 = "^" ++ regexp.QuoteMeta raw ++ "$") ∧
      ∀ (c : CORSRegex) (origin : String) (i : Nat) (re : Regexp) (rest : List Regexp),
        re.MatchString origin = true → c.originalPatterns[i]? = some raw →
        (c.scanPatterns origin i (re :: rest)).map Prod.fst =
          some (if classify raw = .EXACT then raw else origin) := by
  have hF := tests_false_iff_exact raw
  have hT : (strings.Contains raw "*" || strings.ContainsAny raw regexCharsAtMatch) = true ↔
      classify raw = .WILDCARD ∨ classify raw = .REGEX := by
    constructor
    · intro h
      have hne : classify raw ≠ .EXACT := fun e => by
        rw [hF.mpr e] at h
        cases h
      cases hcl : classify raw with
      | EXACT => exact absurd hcl hne
      | WILDCARD => exact Or.inl rfl
      | REGEX => exact Or.inr rfl
    · intro h
      by_contra hn
      have hf : (strings.Contains raw "*" || strings.ContainsAny raw regexCharsAtMatch) = false := by
        simpa using hn
      have he := hF.mp hf
      rw [he] at h
      rcases h with h | h <;> cases h
  refine ⟨regexPatternOf_classify raw, hT, hF, ?_, ?_⟩
  · intro he
    rw [regexPatternOf_classify, he]
  · intro c origin i re rest hmatch hraw
    by_cases hcond : (strings.Contains raw "*" || strings.ContainsAny raw regexCharsAtMatch) = true
    · have hne : classify raw ≠ .EXACT := by
        rcases hT.mp hcond with h | h <;> rw [h] <;> decide
      simp only [CORSRegex.scanPatterns, hmatch, hraw, hcond, if_true, Option.map_some', if_neg hne]
    · have hf : (strings.Contains raw "*" || strings.ContainsAny raw regexCharsAtMatch) = false := by
        simpa using hcond
      have he := hF.mp hf
      simp only [CORSRegex.scanPatterns, hmatch, hraw, hf, if_true, Bool.false_eq_true, if_false,
        Option.map_some', he]

/-- C19 at `https://*.example.com`, `https://[a-z]+.example.com` and
`https://example.com`: wildcard, regular expression and exact, and the test of
`isOriginAllowed` is true, true and false. -/
theorem C19_witness :
    (classify "https://*.example.com" = .WILDCARD ∧
      (strings.Contains "https://*.example.com" "*" ||
        strings.ContainsAny "https://*.example.com" regexCharsAtMatch) = true) ∧
    (classify "https://[a-z]+.example.com" = .REGEX ∧
      (strings.Contains "https://[a-z]+.example.com" "*" ||
        strings.ContainsAny "https://[a-z]+.example.com" regexCharsAtMatch) = true) ∧
    (classify "https://example.com" = .EXACT ∧
      (strings.Contains "https://example.com" "*" ||
        strings.ContainsAny "https://example.com" regexCharsAtMatch) = false) :=
  ⟨⟨by decide,
      (C19_match_time_test_agrees_with_mode "https://*.example.com").2.1.mpr (Or.inl (by decide))⟩,
    ⟨by decide, by decide⟩, ⟨by decide, by decide⟩⟩


/-- C20, as stated, fails.  The entry `https://\xff.example.com`, whose byte `0xff` is not
valid UTF-8, contains none of the characters `* [ ] { } ( ) + ? | \ ^ $`, so `New` takes
the exact branch and builds `^https://\xff\.example\.com$`; `regexp.Compile` rejects that
text at the byte `0xff`, and `New` returns the error and no plugin.  The entry made of
`maxRunes + 1` letters `a` contains none of those characters either; `New` builds the
text `^aa...a$` for it, `regexp.Compile` rejects that text as too large, and `New`
returns the error and no plugin. -/
theorem C20_counterexample :
    (bytewise.ContainsAny
        (bytewise.ofString "https://" ++ [0xFF] ++ bytewise.ofString ".example.com")
        (bytewise.ofString "*[]\x7b\x7d()+?|\\^$") = false ∧
      (bytewise.regexPatternOf
          (bytewise.ofString "https://" ++ [0xFF] ++ bytewise.ofString ".example.com")).1 =
        bytewise.ofString "^https://" ++ [0xFF] ++ bytewise.ofString "\\.example\\.com$" ∧
      (bytewise.New (fun rw _ => rw)
          { bytewise.CreateConfig with
            AllowOriginList :=
              [bytewise.ofString "https://" ++ [0xFF] ++ bytewise.ofString ".example.com"] }
          (bytewise.ofString "cors")).1 =
        .error (bytewise.ofString "invalid pattern https://" ++ [0xFF] ++
          bytewise.ofString ".example.com: error parsing regexp: invalid UTF-8: `" ++ [0xFF] ++
          bytewise.ofString "\\.example\\.com$`")) ∧
    (bytewise.ContainsAny (List.replicate (bytewise.maxRunes + 1) 97)
        (bytewise.ofString "*[]\x7b\x7d()+?|\\^$") = false ∧
      (bytewise.regexPatternOf (List.replicate (bytewise.maxRunes + 1) 97)).1 =
        94 :: (List.replicate (bytewise.maxRunes + 1) 97 ++ [36]) ∧
      bytewise.Compile (94 :: (List.replicate (bytewise.maxRunes + 1) 97 ++ [36])) =
        .error ⟨.ErrLarge, 94 :: (List.replicate (bytewise.maxRunes + 1) 97 ++ [36])⟩ ∧
      (bytewise.New (fun rw _ => rw)
          { bytewise.CreateConfig with
            AllowOriginList := [List.replicate (bytewise.maxRunes + 1) 97] }
          (bytewise.ofString "cors")).1 =
        .error (bytewise.ofString "invalid pattern " ++ List.replicate (bytewise.maxRunes + 1) 97 ++
          bytewise.ofString ": " ++ bytewise.ofString "error parsing regexp: " ++
          bytewise.ofString "expression too large" ++ bytewise.ofString ": `" ++
          94 :: (List.replicate (bytewise.maxRunes + 1) 97 ++ [36]) ++ bytewise.ofString "`")) :=
  ⟨⟨by decide, by decide, by rfl⟩,
    New_on_long_run (bytewise.maxRunes + 1) (Nat.lt_add_one _) (fun rw _ => rw) _
      (bytewise.ofString "cors") rfl⟩

/-- C20, amended: when every entry of `AllowOriginList` is valid UTF-8, has at most
`maxRunes` (2^25) code points and contains none of the characters
`* [ ] { } ( ) + ? | \ ^ $` (entries with `.` and the empty entry included), `New` returns
a plugin and no error, with the entries in order and, for each, the matcher that
`regexp.Compile` gives for the text of the entry; and when `New` returns an error, the
error is that of `regexp.Compile` on the text built for an entry that contains `*` or
one of those characters, or is not valid UTF-8, or has more than `maxRunes` code
points. -/
theorem C20_New_succeeds_on_valid_exact_entries (next : Handler) (config : bytewise.Config)
    (name : bytewise.GoString) :
    ((∀ raw ∈ config.AllowOriginList,
          (∃ text, bytewise.decodeRunes raw.length raw = .ok text ∧
            text.length ≤ bytewise.maxRunes) ∧
          bytewise.ContainsAny raw (bytewise.ofString regexChars) = false) →
        ∃ c, (bytewise.New next config name).1 = .ok c ∧
          c.originalPatterns = config.AllowOriginList ∧
          c.originPatterns.length = config.AllowOriginList.length ∧
          List.Forall₂
            (fun raw re => ∃ text, bytewise.decodeRunes raw.length raw = .ok text ∧
              Compile (regexPatternOf ⟨text⟩).1 = .ok re)
            config.AllowOriginList c.originPatterns) ∧
      ∀ msg, (bytewise.New next config name).1 = .error msg →
        ∃ raw ∈ config.AllowOriginList,
          (∃ err, bytewise.Compile (bytewise.regexPatternOf raw).1 = .error err ∧
            msg = bytewise.ofString "invalid pattern " ++ raw ++ bytewise.ofString ": " ++
              err.Error) ∧
          (bytewise.Contains raw (bytewise.ofString "*") = true ∨
            bytewise.ContainsAny raw (bytewise.ofString regexChars) = true ∨
            (∀ text, bytewise.decodeRunes raw.length raw ≠ .ok text) ∨
            ∃ text, bytewise.decodeRunes raw.length raw = .ok text ∧
              bytewise.maxRunes < text.length) := by
  refine ⟨?_, ?_⟩
  · intro hall
    have hres : ∃ res, List.Forall₂
        (fun raw re => bytewise.Compile (bytewise.regexPatternOf raw).1 = .ok re ∧
          ∃ text, bytewise.decodeRunes raw.length raw = .ok text ∧
            Compile (regexPatternOf ⟨text⟩).1 = .ok re)
        config.AllowOriginList res := by
      refine forall2_of_forall_exists _ _ ?_
      intro raw hmem
      obtain ⟨⟨text, hdec, hlen⟩, hno⟩ := hall raw hmem
      obtain ⟨h1, h2⟩ := bytewise_exact_entry raw text hdec hlen hno
      exact ⟨_, h1, text, hdec, h2⟩
    obtain ⟨res, hf⟩ := hres
    obtain ⟨c, h1, h2, h3⟩ := bytewise_compileOrigins_ok config.AllowOriginList
      { next := next, name := name, config := config, originPatterns := [], originalPatterns := [] }
      res (hf.imp (fun _ _ h => h.1))
    simp only [List.nil_append] at h2 h3
    refine ⟨c, by rw [bytewise_New_fst]; exact h1, h2, ?_, ?_⟩
    · rw [h3]
      exact hf.length_eq.symm
    · rw [h3]
      exact hf.imp (fun _ _ h => h.2)
  · intro msg h
    rw [bytewise_New_fst] at h
    obtain ⟨raw, hmem, err, herr, hmsg⟩ := bytewise_compileOrigins_error _ _ msg h
    refine ⟨raw, hmem, ⟨err, herr, hmsg⟩, ?_⟩
    by_contra hcon
    simp only [not_or, not_forall, not_exists, not_and, Decidable.not_not, not_lt,
      Bool.not_eq_true] at hcon
    obtain ⟨-, hno, ⟨text, hdec0⟩, hlen⟩ := hcon
    have hdec : bytewise.decodeRunes raw.length raw = .ok text := not_not.mp hdec0
    obtain ⟨hok, -⟩ := bytewise_exact_entry raw text hdec (hlen text hdec) hno
    rw [hok] at herr
    cases herr

/-- The amended C20 at the entries `https://example.com`, the empty string, `a.b` and
`https://é.example.com` (the `é` as the bytes `0xc3 0xa9`): `New` returns a plugin with
four matchers. -/
theorem C20_witness :
    ∃ c, (bytewise.New (fun rw _ => rw)
        { bytewise.CreateConfig with
          AllowOriginList :=
            [bytewise.ofString "https://example.com", [], bytewise.ofString "a.b",
              bytewise.ofString "https://" ++ [0xC3, 0xA9] ++ bytewise.ofString ".example.com"] }
        (bytewise.ofString "cors")).1 = .ok c ∧
      c.originalPatterns =
        [bytewise.ofString "https://example.com", [], bytewise.ofString "a.b",
          bytewise.ofString "https://" ++ [0xC3, 0xA9] ++ bytewise.ofString ".example.com"] ∧
      c.originPatterns.length = 4 := by
  obtain ⟨c, h1, h2, h3, -⟩ := (C20_New_succeeds_on_valid_exact_entries (fun rw _ => rw)
    { bytewise.CreateConfig with
      AllowOriginList :=
        [bytewise.ofString "https://example.com", [], bytewise.ofString "a.b",
          bytewise.ofString "https://" ++ [0xC3, 0xA9] ++ bytewise.ofString ".example.com"] }
    (bytewise.ofString "cors")).1 (by
      intro raw hmem
      simp only [List.mem_cons, List.mem_singleton, List.not_mem_nil, or_false] at hmem
      rcases hmem with rfl | rfl | rfl | rfl
      · exact ⟨⟨_, rfl, by decide⟩, by decide⟩
      · exact ⟨⟨_, rfl, by decide⟩, by decide⟩
      · exact ⟨⟨_, rfl, by decide⟩, by decide⟩
      · exact ⟨⟨_, rfl, by decide⟩, by decide⟩)
  exact ⟨c, h1, h2, h3⟩

/-- C21: for a plugin returned by `New`, `originalPatterns` is `AllowOriginList`, entry
for entry and in the same order; `originPatterns` has the same length and its entry at
each index is the expression compiled from the text built for the configured entry at
that index; every index of `originPatterns` is an index of `originalPatterns`; and
`isOriginAllowed` returns a value for every origin string. -/
theorem C21_patterns_stay_aligned (next : Handler) (config : Config) (name : String)
    (c : CORSRegex) (hNew : (New next config name).1 = .ok c) :
    c.originalPatterns = config.AllowOriginList ∧
      c.originPatterns.length = config.AllowOriginList.length ∧
      (∀ (i : Nat) (raw : String) (re : Regexp), config.AllowOriginList[i]? = some raw →
        c.originPatterns[i]? = some re → Compile (regexPatternOf raw).1 = .ok re) ∧
      (∀ i : Nat, i < c.originPatterns.length →
        ∃ raw, c.originalPatterns[i]? = some raw ∧ config.AllowOriginList[i]? = some raw) ∧
      ∀ origin : String, ∃ v log, c.isOriginAllowed origin = some (v, log) := by
  obtain ⟨h1, h2, -⟩ := New_ok next config name c hNew
  have hlen := h2.length_eq
  refine ⟨h1, hlen.symm, ?_, ?_, ?_⟩
  · intro i raw re hraw hre
    exact forall2_index _ _ _ h2 i raw re hraw hre
  · intro i hi
    have hi2 : i < config.AllowOriginList.length := by omega
    exact ⟨config.AllowOriginList[i], by rw [h1]; exact List.getElem?_eq_getElem hi2,
      List.getElem?_eq_getElem hi2⟩
  · intro origin
    obtain ⟨v, log, hv, -⟩ := isOriginAllowed_of_New next config name c hNew origin
    exact ⟨v, log, hv⟩

/-- C21 at the list `https://a.com`, `https://*.com`, `https://a.com`: the repeated
entry is kept, in its place, and `isOriginAllowed` answers for `https://b.com`. -/
theorem C21_witness :
    ∃ c : CORSRegex,
      (New (fun rw _ => rw)
        { CreateConfig with
          AllowOriginList := ["https://a.com", "https://*.com", "https://a.com"] } "cors").1 = .ok c ∧
      c.originalPatterns = ["https://a.com", "https://*.com", "https://a.com"] ∧
      c.originPatterns.length = 3 ∧
      ∃ v log, c.isOriginAllowed "https://b.com" = some (v, log) := by
  obtain ⟨h1, h2, -, -, h5⟩ := C21_patterns_stay_aligned (fun rw _ => rw)
    { CreateConfig with
      AllowOriginList := ["https://a.com", "https://*.com", "https://a.com"] } "cors" _ rfl
  exact ⟨_, rfl, h1, h2, h5 "https://b.com"⟩

/-- C22: for a plugin returned by `New`, one incoming response and two requests with the
same method (in particular two requests that differ only in their `Origin` header),
`ServeHTTP` ends without a panic on both; under each of `Access-Control-Allow-Methods`,
`Access-Control-Allow-Headers`, `Access-Control-Expose-Headers`,
`Access-Control-Allow-Credentials` and `Access-Control-Max-Age` both responses hold the
entry that the static headers of the configuration alone leave there; and both calls
answer themselves or both call the next handler. -/
theorem C22_static_headers_ignore_the_origin (next : Handler) (config : Config) (name : String)
    (c : CORSRegex) (rw : ResponseWriter) (req1 req2 : Request)
    (hNew : (New next config name).1 = .ok c) (hMethod : req1.Method = req2.Method) :
    ∃ out1 log1 out2 log2,
      c.ServeHTTP rw req1 = some (out1, log1) ∧ c.ServeHTTP rw req2 = some (out2, log2) ∧
      (∀ k ∈ ["Access-Control-Allow-Methods", "Access-Control-Allow-Headers",
          "Access-Control-Expose-Headers", "Access-Control-Allow-Credentials",
          "Access-Control-Max-Age"],
        out1.rw.header.lookup k = (staticHeaders config rw).header.lookup k ∧
        out2.rw.header.lookup k = (staticHeaders config rw).header.lookup k ∧
        out1.rw.header.lookup k = out2.rw.header.lookup k) ∧
      ((∃ r, out1 = Outcome.answered r) ↔ (∃ r, out2 = Outcome.answered r)) ∧
      ((∃ r, out1 = Outcome.forwarded r req1) ↔ (∃ r, out2 = Outcome.forwarded r req2)) ∧
      out1.rw.status = out2.rw.status := by
  obtain ⟨a1, log1, hs1⟩ := ServeHTTP_of_New next config name c rw req1 hNew
  obtain ⟨a2, log2, hs2⟩ := ServeHTTP_of_New next config name c rw req2 hNew
  rw [hMethod] at hs1
  refine ⟨_, log1, _, log2, hs1, hs2, ?_, ?_, ?_, ?_⟩
  · intro k hk
    have hne : k ≠ "Access-Control-Allow-Origin" := by
      intro e
      rw [e] at hk
      revert hk
      decide
    have e1 := static_lookup_without_origin config rw a1 k hne
    have e2 := static_lookup_without_origin config rw a2 k hne
    by_cases hm : req2.Method = "OPTIONS"
    · simp only [hm, if_true, Outcome.rw, WriteHeader_header]
      exact ⟨e1, e2, by rw [e1, e2]⟩
    · simp only [hm, if_false, Outcome.rw]
      exact ⟨e1, e2, by rw [e1, e2]⟩
  · by_cases hm : req2.Method = "OPTIONS"
    · simp [hm]
    · simp [hm]
  · by_cases hm : req2.Method = "OPTIONS"
    · simp [hm]
    · simp [hm]
  · by_cases hm : req2.Method = "OPTIONS"
    · simp only [hm, if_true, Outcome.rw, WriteHeader_status,
        (staticHeaders_status_body _ _).1, (originHeader_status_body _ _).1]
    · simp only [hm, if_false, Outcome.rw, (staticHeaders_status_body _ _).1,
        (originHeader_status_body _ _).1]


/-- C22 at the pattern `https://*.example.com` and two `GET` requests, one from
`https://api.example.com` and one from `https://evil.com`: the methods, headers and
max-age entries of the two responses are the same. -/
theorem C22_witness :
    ∃ (c : CORSRegex) (out1 out2 : Outcome) (log1 log2 : List LogRecord),
      (New (fun rw _ => rw)
        { CreateConfig with AllowOriginList := ["https://*.example.com"] } "cors").1 = .ok c ∧
      c.ServeHTTP ⟨[], none, ""⟩ ⟨"GET", "/", [("Origin", ["https://api.example.com"])]⟩
        = some (out1, log1) ∧
      c.ServeHTTP ⟨[], none, ""⟩ ⟨"GET", "/", [("Origin", ["https://evil.com"])]⟩
        = some (out2, log2) ∧
      out1.rw.header.lookup "Access-Control-Allow-Methods" =
        out2.rw.header.lookup "Access-Control-Allow-Methods" ∧
      out1.rw.header.lookup "Access-Control-Allow-Headers" =
        out2.rw.header.lookup "Access-Control-Allow-Headers" ∧
      out1.rw.header.lookup "Access-Control-Max-Age" =
        out2.rw.header.lookup "Access-Control-Max-Age" := by
  obtain ⟨out1, log1, out2, log2, h1, h2, h3, -⟩ := C22_static_headers_ignore_the_origin
    (fun rw _ => rw) { CreateConfig with AllowOriginList := ["https://*.example.com"] } "cors" _
    ⟨[], none, ""⟩ ⟨"GET", "/", [("Origin", ["https://api.example.com"])]⟩
    ⟨"GET", "/", [("Origin", ["https://evil.com"])]⟩ rfl rfl
  exact ⟨_, out1, out2, log1, log2, rfl, h1, h2, (h3 _ (by simp)).2.2, (h3 _ (by simp)).2.2,
    (h3 _ (by simp)).2.2⟩


/-- C23: for two configurations that differ only in `Debug`, `New` fails on one exactly
when it fails on the other, with the same error; when it succeeds, the two plugins hold
the same compiled patterns, the same configured patterns and the same next handler, and
for every incoming response and request `ServeHTTP` ends without a panic in the same
way on both: the same decision to answer or to call the next handler, on the same
response (headers, status and body), with the same request passed on.  Only the lines
logged may differ. -/
theorem C23_Debug_has_no_effect (next : Handler) (config : Config) (name : String) (d : Bool) :
    (∀ msg, (New next config name).1 = .error msg ↔
        (New next { config with Debug := d } name).1 = .error msg) ∧
      ∀ c1, (New next config name).1 = .ok c1 →
        ∃ c2, (New next { config with Debug := d } name).1 = .ok c2 ∧
          c2.originPatterns = c1.originPatterns ∧
          c2.originalPatterns = c1.originalPatterns ∧
          c2.next = c1.next ∧
          ∀ (rw : ResponseWriter) (req : Request), ∃ out log1 log2,
            c1.ServeHTTP rw req = some (out, log1) ∧ c2.ServeHTTP rw req = some (out, log2) := by
  have herr : ∀ msg, (New next config name).1 = .error msg ↔
      (New next { config with Debug := d } name).1 = .error msg := by
    intro msg
    rw [New_fst, New_fst]
    exact compileOrigins_error_congr _ _ _ _
  refine ⟨herr, ?_⟩
  intro c1 h1
  cases h2 : (New next { config with Debug := d } name).1 with
  | error msg =>
      have := (herr msg).mpr h2
      rw [h1] at this
      cases this
  | ok c2 =>
      obtain ⟨a1, a2, a3, a4, -⟩ := New_ok next config name c1 h1
      obtain ⟨b1, b2, b3, b4, -⟩ := New_ok next _ name c2 h2
      have hpat : c1.originPatterns = c2.originPatterns := forall2_compile_unique _ _ _ a2 b2
      have hraw : c1.originalPatterns = c2.originalPatterns := by rw [a1, b1]
      refine ⟨c2, rfl, hpat.symm, hraw.symm, by rw [a4, b4], ?_⟩
      intro rw req
      obtain ⟨allowed, log1, hs1⟩ := ServeHTTP_of_New next config name c1 rw req h1
      have hc := ServeHTTP_fst_congr c1 c2 d rw req hpat hraw (by rw [b3, a3])
      rw [hs1] at hc
      cases hs2 : c2.ServeHTTP rw req with
      | none => rw [hs2] at hc; simp at hc
      | some r =>
          obtain ⟨out2, log2⟩ := r
          rw [hs2] at hc
          simp only [Option.map_some', Option.some.injEq] at hc
          exact ⟨out2, log1, log2, by rw [hs1, hc], rfl⟩

/-- C23 at the pattern `https://*.example.com`, with `Debug` off and on, and a `GET`
request from `https://api.example.com`: `ServeHTTP` ends in the same way on both
plugins, with nothing logged on the first and three lines logged on the second. -/
theorem C23_witness :
    ∃ (c1 c2 : CORSRegex) (out : Outcome) (log1 log2 : List LogRecord),
      (New (fun rw _ => rw)
        { CreateConfig with AllowOriginList := ["https://*.example.com"] } "cors").1 = .ok c1 ∧
      (New (fun rw _ => rw)
        { CreateConfig with AllowOriginList := ["https://*.example.com"], Debug := true }
        "cors").1 = .ok c2 ∧
      c1.ServeHTTP ⟨[], none, ""⟩ ⟨"GET", "/", [("Origin", ["https://api.example.com"])]⟩
        = some (out, log1) ∧
      c2.ServeHTTP ⟨[], none, ""⟩ ⟨"GET", "/", [("Origin", ["https://api.example.com"])]⟩
        = some (out, log2) ∧
      log1.length = 0 ∧ log2.length = 3 := by
  obtain ⟨c1, hc1⟩ : ∃ c1, (New (fun rw _ => rw)
      { CreateConfig with AllowOriginList := ["https://*.example.com"] } "cors").1 = .ok c1 :=
    ⟨_, rfl⟩
  obtain ⟨c2, hc2, -, -, -, h⟩ := (C23_Debug_has_no_effect (fun rw _ => rw)
    { CreateConfig with AllowOriginList := ["https://*.example.com"] } "cors" true).2 c1 hc1
  obtain ⟨out, log1, log2, hs1, hs2⟩ :=
    h ⟨[], none, ""⟩ ⟨"GET", "/", [("Origin", ["https://api.example.com"])]⟩
  have k1 : ((New (fun rw _ => rw)
      { CreateConfig with AllowOriginList := ["https://*.example.com"] } "cors").1.toOption.bind
      (fun c => c.ServeHTTP ⟨[], none, ""⟩
        ⟨"GET", "/", [("Origin", ["https://api.example.com"])]⟩)).map (fun r => r.2.length)
      = some 0 := by decide
  have k2 : ((New (fun rw _ => rw)
      { ({ CreateConfig with AllowOriginList := ["https://*.example.com"] } : Config) with
        Debug := true } "cors").1.toOption.bind
      (fun c => c.ServeHTTP ⟨[], none, ""⟩
        ⟨"GET", "/", [("Origin", ["https://api.example.com"])]⟩)).map (fun r => r.2.length)
      = some 3 := by decide
  rw [hc1] at k1
  rw [hc2] at k2
  simp only [Except.toOption, Option.some_bind, hs1, hs2, Option.map_some', Option.some.injEq]
    at k1 k2
  exact ⟨c1, c2, out, log1, log2, hc1, hc2, hs1, hs2, k1, k2⟩


end CorsRegex
